import Mathlib

/-!
Verification development for the image-prompt-generator repository.

The two persistence components are shallowly embedded:

* `src/rust/src/history_store.rs` — history entries, id generation, rotation
  into day-keyed archives, prompt update/delete, image attachment, and the
  path-checked image read.
* `src/rust/src/config_store.rs` — the TOML configuration document, its
  normalization on load, and the choices-list normalization.

Strings are modelled as `List Char` (`Str`), matching Rust `&str` contents
character by character; `char::is_whitespace` is modelled by
`Char.isWhitespace` (the inputs of interest are ASCII).  File contents are
modelled as parsed values (the store re-reads files through its own
normalizing reader); the file system is modelled explicitly where an
operation consults it.
-/

set_option maxRecDepth 4000

abbrev Str := List Char

/-- Rust `str::trim`: drop whitespace from both ends. -/
def rustTrim (s : Str) : Str :=
  ((s.dropWhile Char.isWhitespace).reverse.dropWhile Char.isWhitespace).reverse

/-- Rust `str::split('_')`: split on underscores, keeping empty pieces. -/
def splitUS : Str → List Str
  | [] => [[]]
  | c :: rest =>
    if c = '_' then [] :: splitUS rest
    else
      match splitUS rest with
      | [] => [[c]]
      | s :: ss => (c :: s) :: ss

def allDigits (s : Str) : Bool := s.all Char.isDigit

def digitVal (c : Char) : Nat := c.toNat - 48

def digitsVal (s : Str) : Nat := s.foldl (fun a c => 10 * a + digitVal c) 0

/-- Parse a nonempty all-digit string (the digit part of Rust integer parsing). -/
def parseNatDigits (s : Str) : Option Nat :=
  if !s.isEmpty && allDigits s then some (digitsVal s) else none

/-- Rust `str::parse::<i32>()`: optional sign, digits, i32 range check. -/
def parseI32 (s : Str) : Option Int :=
  match s with
  | [] => none
  | c :: rest =>
    if c = '+' then
      (parseNatDigits rest).bind fun n =>
        if n ≤ 2147483647 then some (n : Int) else none
    else if c = '-' then
      (parseNatDigits rest).bind fun n =>
        if n ≤ 2147483648 then some (-(n : Int)) else none
    else
      (parseNatDigits (c :: rest)).bind fun n =>
        if n ≤ 2147483647 then some (n : Int) else none

/-- Decimal digits, most significant first; structural recursion on fuel so
that the definition reduces inside the kernel. -/
def natDigitsAux : Nat → Nat → Str
  | 0, _ => []
  | fuel + 1, n =>
    if n < 10 then [Char.ofNat (48 + n)]
    else natDigitsAux fuel (n / 10) ++ [Char.ofNat (48 + n % 10)]

/-- Decimal digits of a natural number, most significant first. -/
def natDigits (n : Nat) : Str := natDigitsAux (n + 1) n

/-- Rust `format!("\x7b:04\x7d", n)` for a nonnegative value: zero-pad to width 4. -/
def fmt4 (n : Nat) : Str :=
  List.replicate (4 - (natDigits n).length) '0' ++ natDigits n

/-- Rust `format!("\x7b:04\x7d", i)` on an `i32` (the sign occupies width). -/
def fmtI32w4 (i : Int) : Str :=
  if i < 0 then
    '-' :: (List.replicate (3 - (natDigits (-i).toNat).length) '0' ++ natDigits (-i).toNat)
  else fmt4 i.toNat

/-- A history entry: `HistoryEntry` in `history_store.rs`. -/
structure HistoryEntry where
  id : Str
  ts : Str
  prompt : Str
  images : List Str
deriving DecidableEq

/-- One fold step of `next_entry_id`'s scan over existing entries. -/
def seqStep (pre : Str) (seq : Int) (e : HistoryEntry) : Int :=
  if pre.isPrefixOf e.id then
    match splitUS e.id with
    | [_, _, p] =>
      match parseI32 p with
      | some parsed => max seq (parsed + 1)
      | none => seq
    | _ => seq
  else seq

/-- `HistoryStore::next_entry_id`: `base` is `now.format("%Y%m%d_%H%M%S")`;
the sequence starts at 1 and becomes `max` over `parsed + 1` for every entry
whose id starts with `base ++ "_"` and splits on `'_'` into exactly three
parts with an `i32`-parsable third part. -/
def nextEntryId (base : Str) (entries : List HistoryEntry) : Str :=
  let pre := base ++ ['_']
  let seq := entries.foldl (seqStep pre) 1
  base ++ '_' :: fmtI32w4 seq

/-- The id the store generates for timestamp base `base` and sequence `k`. -/
def idOf (base : Str) (k : Nat) : Str := base ++ '_' :: fmt4 k

-- Scratch sanity checks (concrete evaluations of the embedding).
example :
    nextEntryId ("20250101_120000".data)
      [⟨("20250101_120000_0005".data), ("t".data), ("p".data), []⟩] =
      ("20250101_120000_0006".data) := by decide

example : nextEntryId ("20250101_120000".data) [] = ("20250101_120000_0001".data) := by
  decide

example : rustTrim ("  a b  ".data) = ("a b".data) := by decide

example : splitUS ("a_b_c".data) = [("a".data), ("b".data), ("c".data)] := by decide

/-! ### Digit-string lemmas -/

lemma charDigit_isDigit {m : Nat} (h : m < 10) : (Char.ofNat (48 + m)).isDigit = true := by
  interval_cases m <;> decide

lemma digitVal_charDigit {m : Nat} (h : m < 10) : digitVal (Char.ofNat (48 + m)) = m := by
  interval_cases m <;> decide

lemma natDigitsAux_mem_digits : ∀ fuel n, ∀ c ∈ natDigitsAux fuel n, c.isDigit = true := by
  intro fuel
  induction fuel with
  | zero => intro n c hc; simp [natDigitsAux] at hc
  | succ f ih =>
    intro n c hc
    unfold natDigitsAux at hc
    by_cases h : n < 10
    · simp only [if_pos h, List.mem_singleton] at hc
      subst hc; exact charDigit_isDigit h
    · simp only [if_neg h, List.mem_append, List.mem_singleton] at hc
      rcases hc with hc | hc
      · exact ih _ c hc
      · subst hc; exact charDigit_isDigit (Nat.mod_lt _ (by omega))

lemma natDigits_mem_digits (n : Nat) : ∀ c ∈ natDigits n, c.isDigit = true :=
  natDigitsAux_mem_digits (n + 1) n

lemma natDigits_ne_nil (n : Nat) : natDigits n ≠ [] := by
  unfold natDigits natDigitsAux
  by_cases h : n < 10 <;> simp [h]

lemma digitsVal_from (b : Str) :
    ∀ acc, b.foldl (fun a c => 10 * a + digitVal c) acc =
      acc * 10 ^ b.length + digitsVal b := by
  induction b with
  | nil => intro acc; simp [digitsVal]
  | cons c b ih =>
    intro acc
    have e1 := ih (10 * acc + digitVal c)
    have e2 := ih (digitVal c)
    simp only [digitsVal, List.foldl_cons, Nat.mul_zero, Nat.zero_add,
      List.length_cons] at e1 e2 ⊢
    rw [e1, e2]; ring

lemma digitsVal_append (a b : Str) :
    digitsVal (a ++ b) = digitsVal a * 10 ^ b.length + digitsVal b := by
  unfold digitsVal
  rw [List.foldl_append]
  exact digitsVal_from b _

lemma digitsVal_natDigitsAux : ∀ fuel n, n < fuel → digitsVal (natDigitsAux fuel n) = n := by
  intro fuel
  induction fuel with
  | zero => omega
  | succ f ih =>
    intro n hn
    unfold natDigitsAux
    by_cases h : n < 10
    · simp only [if_pos h]
      unfold digitsVal
      simp [digitVal_charDigit h]
    · simp only [if_neg h]
      rw [digitsVal_append]
      have hm : n % 10 < 10 := Nat.mod_lt _ (by omega)
      have : digitsVal [Char.ofNat (48 + n % 10)] = n % 10 := by
        unfold digitsVal
        simp [digitVal_charDigit hm]
      rw [this, ih (n / 10) (by omega)]
      simp only [List.length_singleton, pow_one]
      omega

lemma digitsVal_natDigits (n : Nat) : digitsVal (natDigits n) = n :=
  digitsVal_natDigitsAux (n + 1) n (Nat.lt_succ_self n)

lemma digitsVal_replicate_zero (k : Nat) : digitsVal (List.replicate k '0') = 0 := by
  induction k with
  | zero => rfl
  | succ k ih =>
    unfold digitsVal at ih ⊢
    simp only [List.replicate_succ, List.foldl_cons]
    simpa using ih

lemma fmt4_val (n : Nat) : digitsVal (fmt4 n) = n := by
  unfold fmt4
  rw [digitsVal_append, digitsVal_replicate_zero, digitsVal_natDigits]
  omega

lemma fmt4_all_digits (n : Nat) : allDigits (fmt4 n) = true := by
  unfold fmt4 allDigits
  rw [List.all_eq_true]
  intro c hc
  rcases List.mem_append.mp hc with hc | hc
  · rw [List.eq_of_mem_replicate hc]; decide
  · exact natDigits_mem_digits n c hc

lemma fmt4_ne_nil (n : Nat) : fmt4 n ≠ [] := by
  unfold fmt4
  intro h
  exact natDigits_ne_nil n (List.append_eq_nil.mp h).2

lemma allDigits_no_us {s : Str} (h : allDigits s = true) : '_' ∉ s := by
  intro hm
  have := (List.all_eq_true.mp h) '_' hm
  simp at this

lemma digit_ne_plus {c : Char} (h : c.isDigit = true) : ¬ c = '+' := by
  rintro rfl; simp at h

lemma digit_ne_minus {c : Char} (h : c.isDigit = true) : ¬ c = '-' := by
  rintro rfl; simp at h

lemma parseNatDigits_of {s : Str} (h1 : s ≠ []) (h2 : allDigits s = true) :
    parseNatDigits s = some (digitsVal s) := by
  unfold parseNatDigits
  rw [if_pos]
  simp [h2, List.isEmpty_iff, h1]

lemma parseI32_digits {s : Str} (h1 : s ≠ []) (h2 : allDigits s = true)
    (h3 : digitsVal s ≤ 2147483647) : parseI32 s = some (digitsVal s) := by
  rcases s with _ | ⟨c, rest⟩
  · exact absurd rfl h1
  · have hc : c.isDigit = true := (List.all_eq_true.mp h2) c (List.mem_cons_self _ _)
    simp only [parseI32]
    rw [if_neg (digit_ne_plus hc), if_neg (digit_ne_minus hc),
      parseNatDigits_of h1 h2]
    simp [h3]

lemma parseI32_fmt4 {n : Nat} (h : n ≤ 2147483647) : parseI32 (fmt4 n) = some n := by
  rw [parseI32_digits (fmt4_ne_nil n) (fmt4_all_digits n) (by rw [fmt4_val]; exact h),
    fmt4_val]

/-! ### `split('_')` lemmas -/

lemma splitUS_no_us {a : Str} (h : '_' ∉ a) : splitUS a = [a] := by
  induction a with
  | nil => rfl
  | cons c a ih =>
    have hc : ¬ c = '_' := fun hh => h (by rw [hh]; exact List.mem_cons_self _ _)
    have ha : '_' ∉ a := fun hh => h (List.mem_cons_of_mem c hh)
    simp only [splitUS, if_neg hc, ih ha]

lemma splitUS_app {a : Str} (b : Str) (h : '_' ∉ a) :
    splitUS (a ++ '_' :: b) = a :: splitUS b := by
  induction a with
  | nil => simp [splitUS]
  | cons c a ih =>
    have hc : ¬ c = '_' := fun hh => h (by rw [hh]; exact List.mem_cons_self _ _)
    have ha : '_' ∉ a := fun hh => h (List.mem_cons_of_mem c hh)
    simp only [List.cons_append, splitUS, if_neg hc]
    rw [show a.append ('_' :: b) = a ++ '_' :: b from rfl, ih ha]

lemma splitUS_id3 {d t s : Str} (hd : '_' ∉ d) (ht : '_' ∉ t) (hs : '_' ∉ s) :
    splitUS ((d ++ '_' :: t) ++ '_' :: s) = [d, t, s] := by
  have h : (d ++ '_' :: t) ++ '_' :: s = d ++ '_' :: (t ++ '_' :: s) := by simp
  rw [h, splitUS_app _ hd, splitUS_app _ ht, splitUS_no_us hs]

lemma pre_us_eq :
    ∀ (x y u v : Str), '_' ∉ x → '_' ∉ y →
      (x ++ '_' :: u) <+: (y ++ '_' :: v) → x = y ∧ u <+: v := by
  intro x
  induction x with
  | nil =>
    intro y u v _ hy h
    rcases y with _ | ⟨c, y'⟩
    · simpa using h
    · simp only [List.nil_append, List.cons_append, List.cons_prefix_cons] at h
      exact (hy (by rw [← h.1]; exact List.mem_cons_self _ _)).elim
  | cons c x' ih =>
    intro y u v hx hy h
    rcases y with _ | ⟨c', y'⟩
    · simp only [List.cons_append, List.nil_append, List.cons_prefix_cons] at h
      exact (hx (by rw [h.1]; exact List.mem_cons_self _ _)).elim
    · simp only [List.cons_append, List.cons_prefix_cons] at h
      have hx' : '_' ∉ x' := fun hh => hx (List.mem_cons_of_mem c hh)
      have hy' : '_' ∉ y' := fun hh => hy (List.mem_cons_of_mem c' hh)
      obtain ⟨he, hp⟩ := ih y' u v hx' hy' h.2
      exact ⟨by rw [h.1, he], hp⟩

/-! ### The sequence-scanning fold of `next_entry_id` -/

/-- The `i32` sequence value an entry's id contributes when scanned by
`next_entry_id`: the third `'_'`-separated part, when the id has exactly
three parts and that part parses. -/
def parsedSeqOf (e : HistoryEntry) : Option Int :=
  match splitUS e.id with
  | [_, _, p] => parseI32 p
  | _ => none

lemma seqStep_eq (pre : Str) (s : Int) (e : HistoryEntry) :
    seqStep pre s e =
      if pre.isPrefixOf e.id then
        match parsedSeqOf e with
        | some p => max s (p + 1)
        | none => s
      else s := by
  unfold seqStep parsedSeqOf
  rcases h : splitUS e.id with _ | ⟨x1, _ | ⟨x2, _ | ⟨x3, _ | ⟨x4, l⟩⟩⟩⟩ <;> simp

lemma seqStep_ge (pre : Str) (a : Int) (e : HistoryEntry) : a ≤ seqStep pre a e := by
  rw [seqStep_eq]
  split
  · rcases h : parsedSeqOf e with _ | p <;> simp
  · exact le_refl a

lemma le_foldl_seq (pre : Str) (l : List HistoryEntry) :
    ∀ a : Int, a ≤ l.foldl (seqStep pre) a := by
  induction l with
  | nil => intro a; exact le_refl a
  | cons e l ih =>
    intro a
    exact le_trans (seqStep_ge pre a e) (ih (seqStep pre a e))

lemma foldl_seq_parsed (pre : Str) (l : List HistoryEntry) (e : HistoryEntry)
    (he : e ∈ l) (hpre : pre.isPrefixOf e.id = true) (q : Int)
    (hq : parsedSeqOf e = some q) : ∀ a : Int, q + 1 ≤ l.foldl (seqStep pre) a := by
  induction l with
  | nil => cases he
  | cons e' l ih =>
    intro a
    rcases List.mem_cons.mp he with rfl | he'
    · have hstep : q + 1 ≤ seqStep pre a e := by
        rw [seqStep_eq, if_pos hpre, hq]; exact le_max_right _ _
      exact le_trans hstep (le_foldl_seq pre l _)
    · exact ih he' _

lemma foldl_seq_le (pre : Str) (l : List HistoryEntry) (M : Int)
    (hM : ∀ e ∈ l, ∀ q : Int, parsedSeqOf e = some q → q + 1 ≤ M) :
    ∀ a : Int, a ≤ M → l.foldl (seqStep pre) a ≤ M := by
  induction l with
  | nil => intro a ha; exact ha
  | cons e l ih =>
    intro a ha
    have hstep : seqStep pre a e ≤ M := by
      rw [seqStep_eq]
      split
      · rcases hq : parsedSeqOf e with _ | p
        · exact ha
        · exact max_le ha (hM e (List.mem_cons_self _ _) p hq)
      · exact ha
    exact ih (fun e' he' => hM e' (List.mem_cons_of_mem e he')) _ hstep

lemma foldl_seq_cases (pre : Str) (l : List HistoryEntry) :
    ∀ a : Int, l.foldl (seqStep pre) a = a ∨
      ∃ e ∈ l, pre.isPrefixOf e.id = true ∧
        ∃ q : Int, parsedSeqOf e = some q ∧ l.foldl (seqStep pre) a = q + 1 := by
  induction l with
  | nil => intro a; exact Or.inl rfl
  | cons e l ih =>
    intro a
    rcases ih (seqStep pre a e) with h | ⟨e', he', hp', q, hq', hv'⟩
    · simp only [List.foldl_cons] at h ⊢
      rw [h, seqStep_eq]
      split
      · rcases hq : parsedSeqOf e with _ | p
        · exact Or.inl rfl
        · rcases max_choice a (p + 1) with hm | hm
          · exact Or.inl hm
          · exact Or.inr ⟨e, List.mem_cons_self _ _, by assumption, p, hq, hm⟩
      · exact Or.inl rfl
    · exact Or.inr ⟨e', List.mem_cons_of_mem e he', hp', q, hq', by simpa using hv'⟩

/-- Decidable bound on the parsable sequence numbers occurring in a store
(`i32` arithmetic in the scan stays in range). -/
def seqBounded (entries : List HistoryEntry) : Bool :=
  entries.all fun e =>
    match parsedSeqOf e with
    | some q => decide (q + 1 ≤ 2147483647)
    | none => true

lemma seqBounded_spec {entries : List HistoryEntry} (h : seqBounded entries = true) :
    ∀ e ∈ entries, ∀ q : Int, parsedSeqOf e = some q → q + 1 ≤ 2147483647 := by
  intro e he q hq
  have := (List.all_eq_true.mp h) e he
  rw [hq] at this
  exact of_decide_eq_true this

/-! ### Claim C4 -/

/-- C4 counterexample: the claim says the generated sequence is the
*smallest* positive integer not already used by an entry sharing the
date-time prefix.  With one existing entry of sequence `0005`, sequence `1`
is unused, yet `next_entry_id` generates `..._0006` (it is one past the
*maximum* used sequence, not the smallest unused one). -/
theorem c4_counterexample :
    nextEntryId ("20250101_120000".data)
        [⟨("20250101_120000_0005".data), ("t".data), ("p".data), []⟩] =
      ("20250101_120000_0006".data) ∧
    (∀ e ∈ [(⟨("20250101_120000_0005".data), ("t".data), ("p".data), []⟩ : HistoryEntry)],
      e.id ≠ ("20250101_120000_0001".data)) ∧
    nextEntryId ("20250101_120000".data)
        [⟨("20250101_120000_0005".data), ("t".data), ("p".data), []⟩] ≠
      ("20250101_120000_0001".data) := by
  decide

/-- C4 (amended): for a well-formed date-time base (digits, `'_'`, digits)
and any existing entries whose parsable sequence parts stay within `i32`
range, the id generated by `next_entry_id` has the form
`base ++ "_" ++ format4(s)` where `s ≥ 1` is **one greater than the largest
sequence number** among well-formed entries sharing the exact date-time
prefix (`s = 1` when there is none); in particular the generated id differs
from every existing entry's id, so repeated appends within the same second
still produce distinct ids. -/
theorem c4_next_entry_id_max_plus_one
    (d t : Str) (entries : List HistoryEntry)
    (hd : allDigits d = true) (ht : allDigits t = true)
    (hb : seqBounded entries = true) :
    ∃ s : Int, 1 ≤ s ∧
      nextEntryId (d ++ '_' :: t) entries = (d ++ '_' :: t) ++ '_' :: fmtI32w4 s ∧
      (∀ e ∈ entries, ((d ++ '_' :: t) ++ ['_']).isPrefixOf e.id = true →
        ∀ q : Int, parsedSeqOf e = some q → q < s) ∧
      (s = 1 ∨ ∃ e ∈ entries, ((d ++ '_' :: t) ++ ['_']).isPrefixOf e.id = true ∧
        parsedSeqOf e = some (s - 1)) ∧
      (∀ e ∈ entries, e.id ≠ nextEntryId (d ++ '_' :: t) entries) := by
  refine ⟨entries.foldl (seqStep ((d ++ '_' :: t) ++ ['_'])) 1, ?_, rfl, ?_, ?_, ?_⟩
  · exact le_foldl_seq _ entries 1
  · intro e he hp q hq
    have := foldl_seq_parsed _ entries e he hp q hq 1
    omega
  · rcases foldl_seq_cases ((d ++ '_' :: t) ++ ['_']) entries 1 with h | ⟨e, he, hp, q, hq, hv⟩
    · exact Or.inl h
    · refine Or.inr ⟨e, he, hp, ?_⟩
      rw [hq]
      congr 1
      omega
  · intro e he heq
    set s := entries.foldl (seqStep ((d ++ '_' :: t) ++ ['_'])) 1 with hs
    have hs1 : 1 ≤ s := le_foldl_seq _ entries 1
    have hsM : s ≤ 2147483647 :=
      foldl_seq_le _ entries 2147483647 (seqBounded_spec hb) 1 (by norm_num)
    have hfmt : fmtI32w4 s = fmt4 s.toNat := by
      unfold fmtI32w4
      rw [if_neg (by omega)]
    have hid : e.id = (d ++ '_' :: t) ++ '_' :: fmt4 s.toNat := by
      rw [heq, ← hfmt]
      rfl
    have hfd : allDigits (fmt4 s.toNat) = true := fmt4_all_digits _
    have hsplit : splitUS e.id = [d, t, fmt4 s.toNat] := by
      rw [hid]
      exact splitUS_id3 (allDigits_no_us hd) (allDigits_no_us ht) (allDigits_no_us hfd)
    have hparse : parseI32 (fmt4 s.toNat) = some (s.toNat : Int) :=
      parseI32_fmt4 (by omega)
    have hq : parsedSeqOf e = some s := by
      unfold parsedSeqOf
      rw [hsplit]
      simp only [hparse]
      rw [Int.toNat_of_nonneg (by omega)]
    have hpre : ((d ++ '_' :: t) ++ ['_']).isPrefixOf e.id = true := by
      rw [List.isPrefixOf_iff_prefix, hid]
      refine ⟨fmt4 s.toNat, ?_⟩
      simp
    have := foldl_seq_parsed _ entries e he hpre s hq 1
    omega

/-- Witness for `c4_next_entry_id_max_plus_one` at a concrete store. -/
theorem c4_next_entry_id_witness :
    ∃ s : Int, 1 ≤ s ∧
      nextEntryId (("20250101".data) ++ '_' :: ("120000".data))
          [⟨("20250101_120000_0005".data), ("t".data), ("p".data), []⟩] =
        (("20250101".data) ++ '_' :: ("120000".data)) ++ '_' :: fmtI32w4 s ∧
      (∀ e ∈ [(⟨("20250101_120000_0005".data), ("t".data), ("p".data), []⟩ : HistoryEntry)],
        ((("20250101".data) ++ '_' :: ("120000".data)) ++ ['_']).isPrefixOf e.id = true →
        ∀ q : Int, parsedSeqOf e = some q → q < s) ∧
      (s = 1 ∨ ∃ e ∈ [(⟨("20250101_120000_0005".data), ("t".data), ("p".data), []⟩ : HistoryEntry)],
        ((("20250101".data) ++ '_' :: ("120000".data)) ++ ['_']).isPrefixOf e.id = true ∧
        parsedSeqOf e = some (s - 1)) ∧
      (∀ e ∈ [(⟨("20250101_120000_0005".data), ("t".data), ("p".data), []⟩ : HistoryEntry)],
        e.id ≠ nextEntryId (("20250101".data) ++ '_' :: ("120000".data))
          [⟨("20250101_120000_0005".data), ("t".data), ("p".data), []⟩]) :=
  c4_next_entry_id_max_plus_one ("20250101".data) ("120000".data)
    [⟨("20250101_120000_0005".data), ("t".data), ("p".data), []⟩]
    (by decide) (by decide) (by decide)

/-! ### Trim lemmas -/

lemma dropWhile_dropWhile (p : Char → Bool) (l : Str) :
    (l.dropWhile p).dropWhile p = l.dropWhile p := by
  induction l with
  | nil => rfl
  | cons c l ih =>
    rw [List.dropWhile_cons]
    by_cases h : p c = true
    · rw [if_pos h]; exact ih
    · rw [if_neg h, List.dropWhile_cons, if_neg h]

lemma dropWhile_rev_drop (p : Char → Bool) (y : Str) (hy : y.dropWhile p = y) :
    ((y.reverse.dropWhile p).reverse).dropWhile p = (y.reverse.dropWhile p).reverse := by
  have hpre : (y.reverse.dropWhile p).reverse <+: y := by
    have h2 := List.reverse_prefix.mpr (List.dropWhile_suffix (l := y.reverse) p)
    rw [List.reverse_reverse] at h2
    exact h2
  rcases hz : (y.reverse.dropWhile p).reverse with _ | ⟨c, z'⟩
  · rfl
  · rw [hz] at hpre
    obtain ⟨r, hr⟩ := hpre
    have hyc : y = c :: (z' ++ r) := by rw [← hr]; simp
    have hpc : p c = false := by
      rcases hb : p c with _ | _
      · rfl
      · exfalso
        have h1 : y.dropWhile p = (z' ++ r).dropWhile p := by
          rw [hyc, List.dropWhile_cons, if_pos hb]
        have h2 : ((z' ++ r).dropWhile p).length ≤ (z' ++ r).length :=
          (List.dropWhile_suffix p).length_le
        rw [hy, hyc] at h1
        have h3 := congrArg List.length h1
        simp only [List.length_cons] at h3
        omega
    rw [List.dropWhile_cons, if_neg (by rw [hpc]; exact Bool.false_ne_true)]

lemma rustTrim_idem (s : Str) : rustTrim (rustTrim s) = rustTrim s := by
  have hyidem : (s.dropWhile Char.isWhitespace).dropWhile Char.isWhitespace =
      s.dropWhile Char.isWhitespace := dropWhile_dropWhile _ s
  show rustTrim (((s.dropWhile Char.isWhitespace).reverse.dropWhile
      Char.isWhitespace).reverse) = _
  unfold rustTrim
  rw [dropWhile_rev_drop _ _ hyidem, List.reverse_reverse, dropWhile_dropWhile]

/-! ### C8: `read_entries` normalization (JSON log/archive files) -/

/-- A parsed JSON value (`serde_json::Value`); the numeric payload is never
inspected by `read_entries`, which only looks at strings, arrays, objects. -/
inductive JValue where
  | null
  | bool (b : Bool)
  | num (n : Int)
  | str (s : Str)
  | arr (items : List JValue)
  | obj (fields : List (Str × JValue))

def jGet : List (Str × JValue) → Str → Option JValue
  | [], _ => none
  | (k', v) :: rest, k => if k' = k then some v else jGet rest k

def jAsStr : JValue → Option Str
  | .str s => some s
  | _ => none

def jAsArr : JValue → Option (List JValue)
  | .arr l => some l
  | _ => none

/-- The non-blank trimmed image paths collected from an object's `images`
array (`read_entries`, before the legacy multi-image collapse). -/
def collectedImages (fields : List (Str × JValue)) : List Str :=
  (((jGet fields ("images".data)).bind jAsArr).getD []).filterMap fun v =>
    match jAsStr v with
    | some s =>
      let t := rustTrim s
      if t.isEmpty then none else some t
    | none => none

/-- Normalization `read_entries` applies to one array element: non-objects
are skipped; `id`/`ts`/`prompt` are read as strings (default empty) and
trimmed; a multi-image list collapses to its last element; entries with an
empty id, timestamp, or prompt are dropped. -/
def normEntry (item : JValue) : Option HistoryEntry :=
  match item with
  | .obj fields =>
    let entryId := rustTrim (((jGet fields ("id".data)).bind jAsStr).getD [])
    let ts := rustTrim (((jGet fields ("ts".data)).bind jAsStr).getD [])
    let pr := rustTrim (((jGet fields ("prompt".data)).bind jAsStr).getD [])
    let images0 := collectedImages fields
    let images :=
      if images0.length > 1 then
        match images0.getLast? with
        | some last => [last]
        | none => images0
      else images0
    if entryId.isEmpty || ts.isEmpty || pr.isEmpty then none
    else some ⟨entryId, ts, pr, images⟩
  | _ => none

/-- `HistoryStore::read_entries`, from the parsed JSON value onward: the
top-level value must be an array; each element is normalized by
`normEntry`. -/
def readEntriesFromJson (v : JValue) : Except Str (List HistoryEntry) :=
  match v with
  | .arr items => .ok (items.filterMap normEntry)
  | _ => .error ("json is not an array".data)

lemma collapse_eq_getLast (l : List Str) :
    (if l.length > 1 then
        match l.getLast? with
        | some last => [last]
        | none => l
      else l) = l.getLast?.toList := by
  rcases l with _ | ⟨x, xs⟩
  · rfl
  · rcases xs with _ | ⟨y, ys⟩
    · rfl
    · rw [if_pos (by simp)]
      rcases h : (x :: y :: ys).getLast? with _ | a
    
      · exact absurd h (by simp)
      · rfl

/-- C8: every entry surviving `read_entries`' normalization has a non-empty
trimmed id, timestamp, and prompt (entries failing this are dropped, hence
never written back), and its image list is the collapse of the collected
non-blank image paths to the last one — in particular it has at most one
image. -/
theorem c8_read_entries_normalized (v : JValue) (l : List HistoryEntry)
    (h : readEntriesFromJson v = Except.ok l) :
    ∀ e ∈ l, e.id ≠ [] ∧ e.ts ≠ [] ∧ e.prompt ≠ [] ∧ e.images.length ≤ 1 ∧
      ∃ fields, normEntry (JValue.obj fields) = some e ∧
        e.images = (collectedImages fields).getLast?.toList := by
  cases v with
  | arr items =>
    simp only [readEntriesFromJson, Except.ok.injEq] at h
    subst h
    intro e he
    obtain ⟨item, hmem, heq⟩ := List.mem_filterMap.mp he
    have horig := heq
    cases item with
    | obj fields =>
      simp only [normEntry] at heq
      rw [collapse_eq_getLast] at heq
      split at heq
      · exact absurd heq (by simp)
      · rename_i hcond
        injection heq with heq'
        subst heq'
        simp only [Bool.or_eq_true, not_or, List.isEmpty_iff] at hcond
        refine ⟨hcond.1.1, hcond.1.2, hcond.2, ?_, fields, horig, rfl⟩
        rcases (collectedImages fields).getLast? with _ | a <;> simp
    | null => exact absurd heq (by simp [normEntry])
    | bool b => exact absurd heq (by simp [normEntry])
    | num n => exact absurd heq (by simp [normEntry])
    | str s => exact absurd heq (by simp [normEntry])
    | arr xs => exact absurd heq (by simp [normEntry])
  | null => simp [readEntriesFromJson] at h
  | bool b => simp [readEntriesFromJson] at h
  | num n => simp [readEntriesFromJson] at h
  | str s => simp [readEntriesFromJson] at h
  | obj fields => simp [readEntriesFromJson] at h

/-- Witness for `c8_read_entries_normalized` on a concrete malformed file:
a legacy three-image entry (one blank), a non-object element, and an
all-blank entry. -/
theorem c8_read_entries_witness :
    (⟨("e1".data), ("t".data), ("p".data), [("b".data)]⟩ : HistoryEntry).id ≠ [] ∧
    (⟨("e1".data), ("t".data), ("p".data), [("b".data)]⟩ : HistoryEntry).ts ≠ [] ∧
    (⟨("e1".data), ("t".data), ("p".data), [("b".data)]⟩ : HistoryEntry).prompt ≠ [] ∧
    (⟨("e1".data), ("t".data), ("p".data), [("b".data)]⟩ : HistoryEntry).images.length ≤ 1 ∧
    ∃ fields, normEntry (JValue.obj fields) =
        some (⟨("e1".data), ("t".data), ("p".data), [("b".data)]⟩ : HistoryEntry) ∧
      (⟨("e1".data), ("t".data), ("p".data), [("b".data)]⟩ : HistoryEntry).images =
        (collectedImages fields).getLast?.toList :=
  c8_read_entries_normalized
    (JValue.arr
      [JValue.obj
        [("id".data, JValue.str (" e1 ".data)),
         ("ts".data, JValue.str ("t".data)),
         ("prompt".data, JValue.str ("p".data)),
         ("images".data,
          JValue.arr [JValue.str (" a ".data), JValue.str ("".data),
            JValue.str ("b".data)])],
       JValue.num 3,
       JValue.obj [("id".data, JValue.str (" ".data))]])
    [⟨("e1".data), ("t".data), ("p".data), [("b".data)]⟩] rfl
    ⟨("e1".data), ("t".data), ("p".data), [("b".data)]⟩
    (List.mem_cons_self _ _)

/-! ### The TOML document model (`config_store.rs`) -/

/-- `crate::NO_SELECTION`, the reserved "no selection" sentinel. -/
def NO_SELECTION : Str := "指定なし".data

/-- A parsed TOML value (`toml::Value`).  Floats carry a rational payload
(`f64` values reaching the normalization logic are compared against `0.0`
and re-inserted unchanged, which the rational model reflects); datetimes
carry their display text. -/
inductive TValue where
  | str (s : Str)
  | int (n : Int)
  | float (q : Rat)
  | bool (b : Bool)
  | datetime (s : Str)
  | arr (xs : List TValue)
  | table (m : List (Str × TValue))

/-- `toml::map::Map::get`: first (unique) matching key. -/
def tGet : List (Str × TValue) → Str → Option TValue
  | [], _ => none
  | (k', v) :: rest, k => if k' = k then some v else tGet rest k

def asStr : TValue → Option Str
  | .str s => some s
  | _ => none

def asBool : TValue → Option Bool
  | .bool b => some b
  | _ => none

def asArr : TValue → Option (List TValue)
  | .arr xs => some xs
  | _ => none

def asTable : TValue → Option (List (Str × TValue))
  | .table m => some m
  | _ => none

def asInt : TValue → Option Int
  | .int n => some n
  | _ => none

def asFloat : TValue → Option Rat
  | .float q => some q
  | _ => none

/-- Rust `i64` Display. -/
def intToStr (n : Int) : Str :=
  if n < 0 then '-' :: natDigits (-n).toNat else natDigits n.toNat

/-- Fractional decimal digits of a rational in `[0, 1)`, fuel-bounded. -/
def fracDigits : Nat → Rat → Str
  | 0, _ => []
  | fuel + 1, r =>
    if r = 0 then []
    else
      let r10 := r * 10
      Char.ofNat (48 + (Int.floor r10).toNat % 10) :: fracDigits fuel (r10 - Int.floor r10)

/-- Decimal rendering of a rational, standing in for Rust's `f64` Display
(shortest round-trip form).  No claim in this development depends on the
exact digits a float renders to; the rendering is only total and injective
enough to be a string. -/
def ratToStr (q : Rat) : Str :=
  let sign : Str := if q < 0 then ['-'] else []
  let a := |q|
  let ip := (Int.floor a).toNat
  let fr := a - Int.floor a
  sign ++ natDigits ip ++ (if fr = 0 then [] else '.' :: fracDigits 17 fr)

/-- Minimal string escaping of Rust's `Debug` for strings. -/
def escDbg (s : Str) : Str :=
  s.flatMap fun c =>
    if c = '"' then ['\\', '"'] else if c = '\\' then ['\\', '\\'] else [c]

mutual
/-- Rust `format!("\x7b:?\x7d", value)` on a `toml::Value` (structure-faithful
rendering; claims never depend on the exact debug text). -/
def dbgValue : TValue → Str
  | .str v => ("String(\"".data) ++ escDbg v ++ ("\")".data)
  | .int v => ("Integer(".data) ++ intToStr v ++ (")".data)
  | .float v => ("Float(".data) ++ ratToStr v ++ (")".data)
  | .bool v =>
    ("Boolean(".data) ++ (if v then ("true".data) else ("false".data)) ++ (")".data)
  | .datetime v => ("Datetime(".data) ++ v ++ (")".data)
  | .arr xs => ("[".data) ++ dbgSeq xs ++ ("]".data)
  | .table m => ("\x7b".data) ++ dbgTableSeq m ++ ("\x7d".data)

def dbgSeq : List TValue → Str
  | [] => []
  | [x] => dbgValue x
  | x :: xs => dbgValue x ++ (", ".data) ++ dbgSeq xs

def dbgTableSeq : List (Str × TValue) → Str
  | [] => []
  | [(k, v)] => ("\"".data) ++ escDbg k ++ ("\": ".data) ++ dbgValue v
  | (k, v) :: m =>
    ("\"".data) ++ escDbg k ++ ("\": ".data) ++ dbgValue v ++ (", ".data) ++ dbgTableSeq m
end

/-- `config_store.rs::value_to_text`. -/
def valueToText : TValue → Str
  | .str v => v
  | .int v => intToStr v
  | .float v => ratToStr v
  | .bool v => if v then ("true".data) else ("false".data)
  | .datetime v => v
  | .arr v => dbgValue (.arr v)
  | .table v => dbgValue (.table v)

/-- One iteration of the collection loop in `normalize_choices_from_value`:
push the trimmed text if it is non-empty and not already collected. -/
def choicesStep (acc : List Str) (item : TValue) : List Str :=
  if !(rustTrim (valueToText item)).isEmpty &&
      !(acc.any fun ex => decide (ex = rustTrim (valueToText item))) then
    acc ++ [rustTrim (valueToText item)]
  else acc

/-- `config_store.rs::normalize_choices_from_value`: collect trimmed
non-empty non-duplicate texts from an array value (anything else yields an
empty collection), drop every sentinel occurrence, and prepend the
sentinel. -/
def normalizeChoicesFromValue (value : Option TValue) : List Str :=
  let normalized :=
    match value with
    | some (TValue.arr items) => items.foldl choicesStep []
    | _ => []
  NO_SELECTION :: normalized.filter fun v => decide (v ≠ NO_SELECTION)

/-- `config_store.rs::ItemConfig`. -/
structure ItemConfig where
  section_name : Str
  key : Str
  label : Str
  choices : List Str
  allow_free_text : Bool
  template : Str
deriving DecidableEq

/-- The per-item body of `ConfigStore::get_items`: skip non-tables and
blank keys; default label to the key, template to the placeholder pattern,
`allow_free_text` to `false`; normalize choices. -/
def itemOfValue (sectionName : Str) (itemValue : TValue) : Option ItemConfig :=
  match asTable itemValue with
  | none => none
  | some item =>
    let key := rustTrim (((tGet item ("key".data)).bind asStr).getD [])
    if key.isEmpty then none
    else
      let label := ((tGet item ("label".data)).bind asStr).getD key
      let template := ((tGet item ("template".data)).bind asStr).getD ("\x7bvalue\x7d".data)
      let allow_free_text := ((tGet item ("allow_free_text".data)).bind asBool).getD false
      let choices := normalizeChoicesFromValue (tGet item ("choices".data))
      some ⟨sectionName, key, label, choices, allow_free_text, template⟩

/-- The per-section body of `ConfigStore::get_items`. -/
def getItemsStep (sectionName : Str) (items : List ItemConfig)
    (sectionValue : TValue) : List ItemConfig :=
  match asTable sectionValue with
  | none => items
  | some sec =>
    match (tGet sec ("name".data)).bind asStr with
    | none => items
    | some name =>
      if name ≠ sectionName then items
      else
        match (tGet sec ("items".data)).bind asArr with
        | none => items
        | some sectionItems => items ++ sectionItems.filterMap (itemOfValue sectionName)

/-- `ConfigStore::get_items`. -/
def getItems (doc : TValue) (sectionName : Str) : List ItemConfig :=
  let sections :=
    (((asTable doc).bind fun root => tGet root ("sections".data)).bind asArr).getD []
  sections.foldl (getItemsStep sectionName) []

lemma choicesStep_inv {acc : List Str} (item : TValue)
    (h : acc.Nodup ∧ ∀ c ∈ acc, rustTrim c = c ∧ c ≠ []) :
    (choicesStep acc item).Nodup ∧
      ∀ c ∈ choicesStep acc item, rustTrim c = c ∧ c ≠ [] := by
  unfold choicesStep
  split
  · rename_i hcond
    simp only [Bool.and_eq_true, Bool.not_eq_true'] at hcond
    have hne : rustTrim (valueToText item) ≠ [] := by
      intro hnil
      rw [hnil] at hcond
      simp at hcond
    have hnotmem : rustTrim (valueToText item) ∉ acc := by
      intro hmem
      have h2 := hcond.2
      simp only [List.any_eq_false, decide_eq_true_eq] at h2
      exact h2 _ hmem rfl
    constructor
    · rw [List.nodup_append]
      refine ⟨h.1, List.nodup_singleton _, ?_⟩
      intro a ha hb
      rw [List.mem_singleton.mp hb] at ha
      exact hnotmem ha
    · intro c hc
      rcases List.mem_append.mp hc with hc | hc
      · exact h.2 c hc
      · rw [List.mem_singleton.mp hc]
        exact ⟨rustTrim_idem _, hne⟩
  · exact h

lemma choicesFold_inv (items : List TValue) :
    ∀ acc : List Str, (acc.Nodup ∧ ∀ c ∈ acc, rustTrim c = c ∧ c ≠ []) →
      ((items.foldl choicesStep acc).Nodup ∧
        ∀ c ∈ items.foldl choicesStep acc, rustTrim c = c ∧ c ≠ []) := by
  induction items with
  | nil => intro acc h; exact h
  | cons item items ih =>
    intro acc h
    exact ih _ (choicesStep_inv item h)

lemma normalizeChoices_spec (value : Option TValue) :
    (normalizeChoicesFromValue value).head? = some NO_SELECTION ∧
      (∀ c ∈ normalizeChoicesFromValue value, rustTrim c ≠ []) ∧
      (normalizeChoicesFromValue value).Nodup := by
  have hbase :
      ∀ items : List TValue,
        ((items.foldl choicesStep []).Nodup ∧
          ∀ c ∈ items.foldl choicesStep [], rustTrim c = c ∧ c ≠ []) :=
    fun items => choicesFold_inv items [] ⟨List.nodup_nil, by simp⟩
  have hmain :
      ∀ base : List Str,
        (base.Nodup ∧ ∀ c ∈ base, rustTrim c = c ∧ c ≠ []) →
        ((NO_SELECTION :: base.filter fun v => decide (v ≠ NO_SELECTION)).head? =
            some NO_SELECTION ∧
          (∀ c ∈ NO_SELECTION :: base.filter fun v => decide (v ≠ NO_SELECTION),
            rustTrim c ≠ []) ∧
          (NO_SELECTION :: base.filter fun v => decide (v ≠ NO_SELECTION)).Nodup) := by
    intro base hP
    refine ⟨rfl, ?_, ?_⟩
    · intro c hc
      rcases List.mem_cons.mp hc with rfl | hc
      · decide
      · have := hP.2 c (List.mem_filter.mp hc).1
        rw [this.1]
        exact this.2
    · rw [List.nodup_cons]
      refine ⟨?_, hP.1.filter _⟩
      intro hmem
      have := (List.mem_filter.mp hmem).2
      simp at this
  unfold normalizeChoicesFromValue
  rcases value with _ | v
  · exact hmain [] ⟨List.nodup_nil, by simp⟩
  · cases v with
    | arr items => exact hmain _ (hbase items)
    | str s => exact hmain [] ⟨List.nodup_nil, by simp⟩
    | int n => exact hmain [] ⟨List.nodup_nil, by simp⟩
    | float q => exact hmain [] ⟨List.nodup_nil, by simp⟩
    | bool b => exact hmain [] ⟨List.nodup_nil, by simp⟩
    | datetime s => exact hmain [] ⟨List.nodup_nil, by simp⟩
    | table m => exact hmain [] ⟨List.nodup_nil, by simp⟩

lemma itemOfValue_choices {sn : Str} {v : TValue} {it : ItemConfig}
    (h : itemOfValue sn v = some it) :
    ∃ value, it.choices = normalizeChoicesFromValue value := by
  cases v with
  | table m =>
    simp only [itemOfValue, asTable] at h
    split at h
    · exact absurd h (by simp)
    · injection h with h'
      exact ⟨_, by rw [← h']⟩
  | str s => exact absurd h (by simp [itemOfValue, asTable])
  | int n => exact absurd h (by simp [itemOfValue, asTable])
  | float q => exact absurd h (by simp [itemOfValue, asTable])
  | bool b => exact absurd h (by simp [itemOfValue, asTable])
  | datetime s => exact absurd h (by simp [itemOfValue, asTable])
  | arr xs => exact absurd h (by simp [itemOfValue, asTable])

lemma getItems_fold_choices (sn : Str) (sections : List TValue) :
    ∀ acc : List ItemConfig,
      (∀ i ∈ acc, ∃ value, i.choices = normalizeChoicesFromValue value) →
      ∀ i ∈ sections.foldl (getItemsStep sn) acc,
        ∃ value, i.choices = normalizeChoicesFromValue value := by
  induction sections with
  | nil => intro acc h; exact h
  | cons sec sections ih =>
    intro acc h
    refine ih _ ?_
    intro i hi
    unfold getItemsStep at hi
    rcases hT : asTable sec with _ | m <;> simp only [hT] at hi
    · exact h i hi
    · rcases hN : (tGet m ("name".data)).bind asStr with _ | name <;>
        simp only [hN] at hi
      · exact h i hi
      · by_cases hname : name ≠ sn
        · rw [if_pos hname] at hi; exact h i hi
        · rw [if_neg hname] at hi
          rcases hI : (tGet m ("items".data)).bind asArr with _ | sectionItems <;>
            simp only [hI] at hi
          · exact h i hi
          · rcases List.mem_append.mp hi with hi | hi
            · exact h i hi
            · obtain ⟨v, _, hv⟩ := List.mem_filterMap.mp hi
              exact itemOfValue_choices hv

/-- C2: for every TOML value supplied as a `choices` list — non-arrays,
blanks, duplicates, sentinel occurrences anywhere — the normalized list has
the sentinel as element 0, no blank entries, and no duplicates; and every
item descriptor returned by `get_items` carries such a normalized list. -/
theorem c2_choices_normalized :
    (∀ value : Option TValue,
      (normalizeChoicesFromValue value).head? = some NO_SELECTION ∧
        (∀ c ∈ normalizeChoicesFromValue value, rustTrim c ≠ []) ∧
        (normalizeChoicesFromValue value).Nodup) ∧
    (∀ (doc : TValue) (sectionName : Str), ∀ item ∈ getItems doc sectionName,
      item.choices.head? = some NO_SELECTION ∧
        (∀ c ∈ item.choices, rustTrim c ≠ []) ∧ item.choices.Nodup) := by
  refine ⟨normalizeChoices_spec, ?_⟩
  intro doc sectionName item hmem
  obtain ⟨value, hv⟩ :=
    getItems_fold_choices sectionName _ [] (by simp) item hmem
  rw [hv]
  exact normalizeChoices_spec value

/-- Witness for `c2_choices_normalized` on a concrete document whose raw
choices list contains a blank, a duplicate, and a sentinel occurrence. -/
theorem c2_choices_witness :
    (⟨("prompt".data), ("subject".data), ("subject".data),
        [NO_SELECTION, ("robot".data), ("cat".data)], false,
        ("\x7bvalue\x7d".data)⟩ : ItemConfig).choices.head? = some NO_SELECTION ∧
      (∀ c ∈ (⟨("prompt".data), ("subject".data), ("subject".data),
          [NO_SELECTION, ("robot".data), ("cat".data)], false,
          ("\x7bvalue\x7d".data)⟩ : ItemConfig).choices, rustTrim c ≠ []) ∧
      (⟨("prompt".data), ("subject".data), ("subject".data),
          [NO_SELECTION, ("robot".data), ("cat".data)], false,
          ("\x7bvalue\x7d".data)⟩ : ItemConfig).choices.Nodup :=
  c2_choices_normalized.2
    (TValue.table
      [(("sections".data),
        TValue.arr
          [TValue.table
            [(("name".data), TValue.str ("prompt".data)),
             (("items".data),
              TValue.arr
                [TValue.table
                  [(("key".data), TValue.str ("subject".data)),
                   (("choices".data),
                    TValue.arr
                      [TValue.str ("robot".data), TValue.str ("".data),
                       TValue.str ("指定なし".data), TValue.str ("robot".data),
                       TValue.str ("cat".data)])]])]])])
    ("prompt".data) _ (by decide)

/-! ### C7: `read_image_blob` path checks and content type -/

/-- Generic split on a separator character, keeping empty pieces. -/
def splitChar (sep : Char) : Str → List Str
  | [] => [[]]
  | c :: rest =>
    if c = sep then [] :: splitChar sep rest
    else
      match splitChar sep rest with
      | [] => [[c]]
      | s :: ss => (c :: s) :: ss

/-- `std::path::Path::components` for a `/`-separated relative path: empty
segments collapse and a `"."` segment survives only in leading position
(exactly the Rust normalization); `".."` segments survive everywhere. -/
def pathComponents (s : Str) : List Str :=
  match (splitChar '/' s).filter (fun seg => !seg.isEmpty) with
  | [] => []
  | first :: rest => first :: rest.filter fun seg => decide (seg ≠ (".".data))

/-- `Path::is_absolute` (Unix semantics: a leading separator). -/
def isAbsolutePath (s : Str) : Bool :=
  match s with
  | '/' :: _ => true
  | _ => false

/-- Whether any component is `ParentDir` or `CurDir`. -/
def hasDotSeg (s : Str) : Bool :=
  (pathComponents s).any fun c =>
    decide (c = ("..".data)) || decide (c = (".".data))

def joinSlash : List Str → Str
  | [] => []
  | [x] => x
  | x :: xs => x ++ '/' :: joinSlash xs

/-- `history_store.rs::path_to_posix`: components joined with `/`. -/
def pathToPosix (s : Str) : Str := joinSlash (pathComponents s)

/-- `Path::file_name`: the last non-empty, non-`"."` segment; `none` when
the path terminates in `".."` or has no such segment. -/
def fileNameOf (p : Str) : Option Str :=
  match ((splitChar '/' p).filter fun seg =>
      !seg.isEmpty && decide (seg ≠ (".".data))).getLast? with
  | some last => if last = ("..".data) then none else some last
  | none => none

/-- `Path::extension` applied to a file name: the part after the final
`'.'`; `none` when there is no `'.'` or the only `'.'` starts the name. -/
def extensionOf (fn : Str) : Option Str :=
  match fn.reverse.dropWhile (fun c => decide (c ≠ '.')) with
  | [] => none
  | [_] => none
  | _ :: _ :: _ => some ((fn.reverse.takeWhile fun c => decide (c ≠ '.')).reverse)

/-- `Path::extension` of a path. -/
def pathExtension (p : Str) : Option Str := (fileNameOf p).bind extensionOf

/-- ASCII lowercasing (the model of both `str::to_lowercase` and
`to_ascii_lowercase`; every extension compared against is ASCII). -/
def asciiLower (c : Char) : Char :=
  if 'A' ≤ c ∧ c ≤ 'Z' then Char.ofNat (c.toNat + 32) else c

def lowerStr (s : Str) : Str := s.map asciiLower

/-- `history_store.rs::image_content_type`. -/
def imageContentType (p : Str) : Str :=
  match (pathExtension p).map lowerStr with
  | some e =>
    if e = ("png".data) then ("image/png".data)
    else if e = ("jpg".data) then ("image/jpeg".data)
    else if e = ("jpeg".data) then ("image/jpeg".data)
    else if e = ("webp".data) then ("image/webp".data)
    else ("application/octet-stream".data)
  | none => ("application/octet-stream".data)

/-- A file-system directory of image files, keyed by normalized posix
relative path (the physical file system resolves duplicate separators, so
the key is the `pathToPosix` form). -/
def lookupFile (files : List (Str × List Nat)) (p : Str) : Option (List Nat) :=
  match files with
  | [] => none
  | (k, v) :: rest => if k = p then some v else lookupFile rest p

/-- `HistoryStore::read_image_blob`: trim, reject empty/absolute paths and
paths with parent- or current-directory segments, require the normalized
path to start with `images/`, then read the bytes and pair them with the
extension-derived content type. -/
def readImageBlob (files : List (Str × List Nat)) (imagePath : Str) :
    Except Str (List Nat × Str) :=
  if (rustTrim imagePath).isEmpty then .error ("image path is empty".data)
  else if isAbsolutePath (rustTrim imagePath) then
    .error ("absolute image path is not allowed".data)
  else if hasDotSeg (rustTrim imagePath) then .error ("invalid image path".data)
  else if !(("images/".data).isPrefixOf (pathToPosix (rustTrim imagePath))) then
    .error ("image path is out of scope".data)
  else
    match lookupFile files (pathToPosix (rustTrim imagePath)) with
    | some bytes => .ok (bytes, imageContentType (rustTrim imagePath))
    | none => .error ("failed to read image".data)

/-- C7: `read_image_blob` errors whenever the trimmed path is empty,
absolute, contains a parent- or current-directory segment, or does not start
with the reserved `images/` root once normalized; on an accepted, present
path it returns the file bytes with the extension-derived content type,
where png/jpg/jpeg/webp map to their image MIME types and anything else to
the generic binary type. -/
theorem c7_read_image_blob (files : List (Str × List Nat)) (imagePath : Str) :
    (((rustTrim imagePath).isEmpty = true ∨
        isAbsolutePath (rustTrim imagePath) = true ∨
        hasDotSeg (rustTrim imagePath) = true ∨
        ("images/".data).isPrefixOf (pathToPosix (rustTrim imagePath)) = false) →
      ∃ msg, readImageBlob files imagePath = .error msg) ∧
    (∀ bytes : List Nat,
      (rustTrim imagePath).isEmpty = false →
      isAbsolutePath (rustTrim imagePath) = false →
      hasDotSeg (rustTrim imagePath) = false →
      ("images/".data).isPrefixOf (pathToPosix (rustTrim imagePath)) = true →
      lookupFile files (pathToPosix (rustTrim imagePath)) = some bytes →
      readImageBlob files imagePath =
        .ok (bytes, imageContentType (rustTrim imagePath))) ∧
    (∀ p : Str,
      ((pathExtension p).map lowerStr = some ("png".data) →
        imageContentType p = ("image/png".data)) ∧
      ((pathExtension p).map lowerStr = some ("jpg".data) →
        imageContentType p = ("image/jpeg".data)) ∧
      ((pathExtension p).map lowerStr = some ("jpeg".data) →
        imageContentType p = ("image/jpeg".data)) ∧
      ((pathExtension p).map lowerStr = some ("webp".data) →
        imageContentType p = ("image/webp".data)) ∧
      (∀ e, (pathExtension p).map lowerStr = some e →
        e ≠ ("png".data) → e ≠ ("jpg".data) → e ≠ ("jpeg".data) →
        e ≠ ("webp".data) →
        imageContentType p = ("application/octet-stream".data)) ∧
      ((pathExtension p).map lowerStr = none →
        imageContentType p = ("application/octet-stream".data))) := by
  refine ⟨?_, ?_, ?_⟩
  · intro hcond
    unfold readImageBlob
    by_cases h1 : (rustTrim imagePath).isEmpty = true
    · rw [if_pos h1]; exact ⟨_, rfl⟩
    · rw [if_neg h1]
      by_cases h2 : isAbsolutePath (rustTrim imagePath) = true
      · rw [if_pos h2]; exact ⟨_, rfl⟩
      · rw [if_neg h2]
        by_cases h3 : hasDotSeg (rustTrim imagePath) = true
        · rw [if_pos h3]; exact ⟨_, rfl⟩
        · rw [if_neg h3]
          have h4 : ("images/".data).isPrefixOf (pathToPosix (rustTrim imagePath)) =
              false := by
            rcases hcond with h | h | h | h
            · exact absurd h h1
            · exact absurd h h2
            · exact absurd h h3
            · exact h
          rw [if_pos (by rw [h4]; rfl)]
          exact ⟨_, rfl⟩
  · intro bytes h1 h2 h3 h4 h5
    unfold readImageBlob
    rw [if_neg (by rw [h1]; exact Bool.false_ne_true),
      if_neg (by rw [h2]; exact Bool.false_ne_true),
      if_neg (by rw [h3]; exact Bool.false_ne_true),
      if_neg (by rw [h4]; simp), h5]
  · intro p
    refine ⟨?_, ?_, ?_, ?_, ?_, ?_⟩ <;> unfold imageContentType
    · intro h; rw [h]; rfl
    · intro h; rw [h]; rfl
    · intro h; rw [h]; rfl
    · intro h; rw [h]; rfl
    · intro e h h1 h2 h3 h4
      rw [h]
      simp only [if_neg h1, if_neg h2, if_neg h3, if_neg h4]
    · intro h; rw [h]

/-- Witness for `c7_read_image_blob`: `"../secret.txt"` and `"/etc/passwd"`
are rejected; an uppercase `.PNG` file under `images/` is served with the
`image/png` content type. -/
theorem c7_read_image_witness :
    (∃ msg, readImageBlob [(("images/2025/01/a.PNG".data), [1, 2])]
        ("../secret.txt".data) = .error msg) ∧
    (∃ msg, readImageBlob [(("images/2025/01/a.PNG".data), [1, 2])]
        ("/etc/passwd".data) = .error msg) ∧
    readImageBlob [(("images/2025/01/a.PNG".data), [1, 2])]
        ("images/2025/01/a.PNG".data) =
      .ok ([1, 2], ("image/png".data)) := by
  refine ⟨?_, ?_, ?_⟩
  · exact (c7_read_image_blob [(("images/2025/01/a.PNG".data), [1, 2])]
      ("../secret.txt".data)).1 (by decide)
  · exact (c7_read_image_blob [(("images/2025/01/a.PNG".data), [1, 2])]
      ("/etc/passwd".data)).1 (by decide)
  · have h := (c7_read_image_blob [(("images/2025/01/a.PNG".data), [1, 2])]
      ("images/2025/01/a.PNG".data)).2.1 [1, 2]
      (by decide) (by decide) (by decide) (by decide) (by decide)
    rw [h]
    rfl

/-! ### History store state: active log and day-keyed archives

The store's files are modelled post-parse: the active log and each archive
hold entry lists as produced by `read_entries` (every entry the store
itself writes is a fixed point of that normalization, see C8). -/

structure HistoryState where
  active : List HistoryEntry
  archives : List (Str × List HistoryEntry)
deriving DecidableEq

/-- Look up an archive file by its 8-digit date key. -/
def archLookup : List (Str × List HistoryEntry) → Str → Option (List HistoryEntry)
  | [], _ => none
  | (k', v) :: rest, k => if k' = k then some v else archLookup rest k

/-- Write an archive file (replace in place or create). -/
def archInsert : List (Str × List HistoryEntry) → Str → List HistoryEntry →
    List (Str × List HistoryEntry)
  | [], k, v => [(k, v)]
  | (k', v') :: rest, k, v =>
    if k' = k then (k, v) :: rest else (k', v') :: archInsert rest k v

/-- Byte-lexicographic strict order on strings (`Ord` on Rust `String` and
`PathBuf`; UTF-8 byte order coincides with code-point order). -/
def strLtB : Str → Str → Bool
  | [], [] => false
  | [], _ :: _ => true
  | _ :: _, [] => false
  | c :: cs, d :: ds =>
    if c.toNat < d.toNat then true
    else if d.toNat < c.toNat then false
    else strLtB cs ds

def insertDesc (k : Str) : List Str → List Str
  | [] => [k]
  | x :: xs => if strLtB x k then k :: x :: xs else x :: insertDesc k xs

/-- Archive keys in reverse-chronological (descending file-name) order:
`list_archive_json_paths` sorts by `b.cmp(a)`.  The store's own archive
keys are always 8 ASCII digits, so the `History_*.json` name filter keeps
exactly these files and path order is key order. -/
def sortDesc (l : List Str) : List Str := l.foldr insertDesc []

inductive Container where
  | active
  | archive (key : Str)
deriving DecidableEq

def entriesAt (st : HistoryState) : Container → List HistoryEntry
  | .active => st.active
  | .archive k => (archLookup st.archives k).getD []

/-- Replace the entry list held by one container (one file write). -/
def setEntries (st : HistoryState) : Container → List HistoryEntry → HistoryState
  | .active, l => { st with active := l }
  | .archive k, l => { st with archives := archInsert st.archives k l }

/-- The enumerate-and-find of `find_entry_container` inside one file:
first entry whose trimmed id equals the searched id, with its index. -/
def findEntryIdx (hid : Str) : List HistoryEntry → Option (Nat × HistoryEntry)
  | [] => none
  | e :: rest =>
    if rustTrim e.id = hid then some (0, e)
    else (findEntryIdx hid rest).map fun p => (p.1 + 1, p.2)

def findInArchives (st : HistoryState) (hid : Str) :
    List Str → Option (Container × List HistoryEntry × Nat × HistoryEntry)
  | [] => none
  | k :: ks =>
    match findEntryIdx hid ((archLookup st.archives k).getD []) with
    | some (i, e) => some (.archive k, (archLookup st.archives k).getD [], i, e)
    | none => findInArchives st hid ks

/-- `HistoryStore::find_entry_container`: the active log first, then the
archives in descending key order. -/
def findEntryContainer (st : HistoryState) (hid : Str) :
    Option (Container × List HistoryEntry × Nat × HistoryEntry) :=
  match findEntryIdx hid st.active with
  | some (i, e) => some (.active, st.active, i, e)
  | none => findInArchives st hid (sortDesc (st.archives.map Prod.fst))

/-- `HistoryStore::update_history_prompt`: reject a blank prompt, locate
the entry (active or archive), replace only its prompt with the trimmed
text, and write the containing file back. -/
def updateHistoryPrompt (st : HistoryState) (historyId prompt : Str) :
    Except Str (HistoryState × Bool) :=
  if (rustTrim prompt).isEmpty then .error ("prompt is empty".data)
  else
    match findEntryContainer st historyId with
    | none => .ok (st, false)
    | some (c, entries, i, e) =>
      .ok (setEntries st c (entries.set i { e with prompt := rustTrim prompt }), true)

/-- `HistoryStore::delete_history`: blank id is a no-op; otherwise remove
every entry with the trimmed searched id from the containing file. -/
def deleteHistory (st : HistoryState) (historyId : Str) :
    Except Str (HistoryState × Bool) :=
  if (rustTrim historyId).isEmpty then .ok (st, false)
  else
    match findEntryContainer st (rustTrim historyId) with
    | none => .ok (st, false)
    | some (c, entries, _, _) =>
      .ok
        (setEntries st c
          (entries.filter fun e => decide (rustTrim e.id ≠ rustTrim historyId)), true)

lemma archLookup_archInsert_ne {arc : List (Str × List HistoryEntry)} {k k' : Str}
    (v : List HistoryEntry) (h : k' ≠ k) :
    archLookup (archInsert arc k v) k' = archLookup arc k' := by
  induction arc with
  | nil =>
    unfold archInsert archLookup
    rw [if_neg (fun hh => h hh.symm)]
    rfl
  | cons kv rest ih =>
    rcases kv with ⟨k0, v0⟩
    unfold archInsert
    by_cases h0 : k0 = k
    · rw [if_pos h0]
      unfold archLookup
      rw [if_neg (fun hh => h hh.symm), if_neg (fun hh => h (hh.symm.trans h0))]
    · rw [if_neg h0]
      unfold archLookup
      by_cases h1 : k0 = k'
      · rw [if_pos h1, if_pos h1]
      · rw [if_neg h1, if_neg h1]
        exact ih

lemma findEntryIdx_spec {hid : Str} :
    ∀ {l : List HistoryEntry} {i : Nat} {e : HistoryEntry},
      findEntryIdx hid l = some (i, e) → l[i]? = some e ∧ rustTrim e.id = hid := by
  intro l
  induction l with
  | nil => intro i e h; exact absurd h (by simp [findEntryIdx])
  | cons x rest ih =>
    intro i e h
    unfold findEntryIdx at h
    by_cases hc : rustTrim x.id = hid
    · rw [if_pos hc] at h
      injection h with h'
      cases h'
      exact ⟨by simp, hc⟩
    · rw [if_neg hc] at h
      rcases hr : findEntryIdx hid rest with _ | ⟨i', e'⟩
      · rw [hr] at h; exact absurd h (by simp)
      · rw [hr] at h
        simp only [Option.map_some'] at h
        injection h with h'
        cases h'
        have h1 := ih hr
        simpa using h1

lemma findEntryContainer_spec {st : HistoryState} {hid : Str} {c : Container}
    {entries : List HistoryEntry} {i : Nat} {e : HistoryEntry}
    (h : findEntryContainer st hid = some (c, entries, i, e)) :
    entries = entriesAt st c ∧ entries[i]? = some e ∧ rustTrim e.id = hid := by
  unfold findEntryContainer at h
  rcases ha : findEntryIdx hid st.active with _ | ⟨i0, e0⟩
  · rw [ha] at h
    generalize sortDesc (st.archives.map Prod.fst) = ks at h
    induction ks with
    | nil => exact absurd h (by simp [findInArchives])
    | cons k ks ih =>
      unfold findInArchives at h
      rcases hk : findEntryIdx hid ((archLookup st.archives k).getD []) with _ | ⟨i1, e1⟩
      · rw [hk] at h; exact ih h
      · rw [hk] at h
        injection h with h'
        injection h' with hA hrest
        injection hrest with hB hrest2
        injection hrest2 with hC hD
        subst hA; subst hB; subst hC; subst hD
        have hs := findEntryIdx_spec hk
        exact ⟨rfl, hs.1, hs.2⟩
  · rw [ha] at h
    injection h with h'
    injection h' with hA hrest
    injection hrest with hB hrest2
    injection hrest2 with hC hD
    subst hA; subst hB; subst hC; subst hD
    have hs := findEntryIdx_spec ha
    exact ⟨rfl, hs.1, hs.2⟩

/-- C5: `update_history_prompt` fails on a blank prompt; on a missing id it
changes nothing and reports `false`; on a located entry (active or
archived) it replaces exactly that entry's prompt with the trimmed text —
the entry's id, timestamp and image list are unchanged, every other entry
of the containing file is unchanged, and every other file is unchanged. -/
theorem c5_update_prompt_frame (st : HistoryState) (historyId prompt : Str) :
    ((rustTrim prompt).isEmpty = true →
      ∃ msg, updateHistoryPrompt st historyId prompt = .error msg) ∧
    ((rustTrim prompt).isEmpty = false → findEntryContainer st historyId = none →
      updateHistoryPrompt st historyId prompt = .ok (st, false)) ∧
    (∀ (c : Container) (entries : List HistoryEntry) (i : Nat) (e : HistoryEntry),
      (rustTrim prompt).isEmpty = false →
      findEntryContainer st historyId = some (c, entries, i, e) →
      updateHistoryPrompt st historyId prompt =
        .ok (setEntries st c (entries.set i { e with prompt := rustTrim prompt }),
          true) ∧
      entries = entriesAt st c ∧
      entries[i]? = some e ∧
      (entries.set i { e with prompt := rustTrim prompt }).length = entries.length ∧
      (entries.set i { e with prompt := rustTrim prompt })[i]? =
        some { e with prompt := rustTrim prompt } ∧
      ({ e with prompt := rustTrim prompt }).id = e.id ∧
      ({ e with prompt := rustTrim prompt }).ts = e.ts ∧
      ({ e with prompt := rustTrim prompt }).images = e.images ∧
      (∀ j, j ≠ i →
        (entries.set i { e with prompt := rustTrim prompt })[j]? = entries[j]?) ∧
      (∀ c', c' ≠ c →
        entriesAt
            (setEntries st c (entries.set i { e with prompt := rustTrim prompt }))
            c' =
          entriesAt st c')) := by
  refine ⟨?_, ?_, ?_⟩
  · intro h1
    unfold updateHistoryPrompt
    rw [if_pos h1]
    exact ⟨_, rfl⟩
  · intro h1 h2
    unfold updateHistoryPrompt
    rw [if_neg (by rw [h1]; exact Bool.false_ne_true)]
    simp only [h2]
  · intro c entries i e h1 h2
    obtain ⟨hEq, hGet, _⟩ := findEntryContainer_spec h2
    have hlt : i < entries.length := by
      rcases List.getElem?_eq_some_iff.mp hGet with ⟨hl, _⟩
      exact hl
    refine ⟨?_, hEq, hGet, List.length_set .., ?_, rfl, rfl, rfl, ?_, ?_⟩
    · unfold updateHistoryPrompt
      rw [if_neg (by rw [h1]; exact Bool.false_ne_true)]
      simp only [h2]
    · rw [List.getElem?_set_self]
      exact hlt
    · intro j hj
      exact List.getElem?_set_ne (fun hh => hj hh.symm) ..
    · intro c' hc'
      cases c with
      | active =>
        cases c' with
        | active => exact absurd rfl hc'
        | archive k => rfl
      | archive k =>
        cases c' with
        | active => rfl
        | archive k' =>
          have hk : k' ≠ k := fun hh => hc' (by rw [hh])
          show (archLookup (archInsert st.archives k _) k').getD [] = _
          rw [archLookup_archInsert_ne _ hk]
          rfl

/-- Witness for `c5_update_prompt_frame`: updating an archived entry in a
concrete two-file store. -/
theorem c5_update_prompt_witness :
    updateHistoryPrompt
        ⟨[⟨("20250102_120000_0001".data), ("ts1".data), ("p1".data), []⟩],
         [(("20250101".data),
           [⟨("20250101_110000_0001".data), ("ts0".data), ("old".data),
             [("img/x.png".data)]⟩])]⟩
        ("20250101_110000_0001".data) (" new ".data) =
      .ok
        (setEntries
          ⟨[⟨("20250102_120000_0001".data), ("ts1".data), ("p1".data), []⟩],
           [(("20250101".data),
             [⟨("20250101_110000_0001".data), ("ts0".data), ("old".data),
               [("img/x.png".data)]⟩])]⟩
          (Container.archive ("20250101".data))
          ([⟨("20250101_110000_0001".data), ("ts0".data), ("old".data),
              [("img/x.png".data)]⟩].set 0
            { (⟨("20250101_110000_0001".data), ("ts0".data), ("old".data),
                [("img/x.png".data)]⟩ : HistoryEntry) with
                prompt := rustTrim (" new ".data) }), true) :=
  ((c5_update_prompt_frame
      ⟨[⟨("20250102_120000_0001".data), ("ts1".data), ("p1".data), []⟩],
       [(("20250101".data),
         [⟨("20250101_110000_0001".data), ("ts0".data), ("old".data),
           [("img/x.png".data)]⟩])]⟩
      ("20250101_110000_0001".data) (" new ".data)).2.2
    (Container.archive ("20250101".data))
    [⟨("20250101_110000_0001".data), ("ts0".data), ("old".data),
      [("img/x.png".data)]⟩] 0
    ⟨("20250101_110000_0001".data), ("ts0".data), ("old".data),
      [("img/x.png".data)]⟩
    (by decide) (by decide)).1

/-! ### C6: `append_image` -/

/-- Rust `format!("\x7b:02\x7d", n)`. -/
def fmt2 (n : Nat) : Str :=
  List.replicate (2 - (natDigits n).length) '0' ++ natDigits n

/-- One candidate image file name `<base>_<2-digit-seq><ext>`. -/
def imageName (base : Str) (seq : Nat) (ext : Str) : Str :=
  base ++ '_' :: (fmt2 seq ++ ext)

/-- The collision-avoiding loop of `next_image_rel_path`, fuelled: the Rust
loop increments until the name is free; a directory with `n` files must
free a name within `n + 1` candidates, so fuel `existing.length + 1`
reaches the same sequence as the unbounded loop. -/
def nextImageSeqGo (existing : List Str) (base ext : Str) : Nat → Nat → Nat
  | 0, seq => seq
  | fuel + 1, seq =>
    if imageName base seq ext ∈ existing then
      nextImageSeqGo existing base ext fuel (seq + 1)
    else seq

def nextImageSeq (existing : List Str) (base ext : Str) : Nat :=
  nextImageSeqGo existing base ext (existing.length + 1) 1

/-- `HistoryStore::next_image_rel_path` (as a posix string):
`images/<year>/<month>/<base>_<2-digit-seq><ext>` with the smallest
non-colliding sequence; `existing` is the set of file names already in the
month directory. -/
def nextImageRelPath (existing : List Str) (year month base ext : Str) : Str :=
  ("images".data) ++ '/' ::
    (year ++ '/' :: (month ++ '/' :: imageName base (nextImageSeq existing base ext) ext))

/-- The extension check of `append_image`: `Path::extension` of the source
file name, lowercased with a leading dot, must be one of
`.png/.jpg/.jpeg/.webp`. -/
def extAllowed (sourceName : Str) : Bool :=
  match (pathExtension sourceName).map (fun e => '.' :: lowerStr e) with
  | none => false
  | some ext =>
    [(".png".data), (".jpg".data), (".jpeg".data), (".webp".data)].any
      fun allowed => decide (allowed = ext)

/-- `HistoryStore::MAX_IMAGE_BYTES`. -/
def MAX_IMAGE_BYTES : Nat := 20 * 1024 * 1024

/-- `HistoryStore::append_image`: reject a disallowed (or missing)
extension, then an oversized payload, then a missing id; otherwise write
the bytes under the fresh relative path and replace the located entry's
image list with exactly that one path.  The byte payload only matters
through its length; `existing` is the month directory listing and
`year`/`month`/`base` come from `Local::now()`. -/
def appendImage (st : HistoryState) (existing : List Str)
    (year month base : Str) (historyId sourceName : Str) (contentLen : Nat) :
    Except Str (HistoryState × Str) :=
  match (pathExtension sourceName).map (fun e => '.' :: lowerStr e) with
  | none => .error ("unsupported file extension".data)
  | some ext =>
    if !([(".png".data), (".jpg".data), (".jpeg".data), (".webp".data)].any
        fun allowed => decide (allowed = ext)) then
      .error ("unsupported file extension".data)
    else if contentLen > MAX_IMAGE_BYTES then .error ("file size exceeds 20MB".data)
    else
      match findEntryContainer st historyId with
      | none => .error ("history id not found".data)
      | some (c, entries, i, e) =>
        .ok
          (setEntries st c
            (entries.set i
              { e with images := [nextImageRelPath existing year month base ext] }),
            nextImageRelPath existing year month base ext)

/-- C6: `append_image` fails exactly when the (case-insensitive) extension
is not one of `.png/.jpg/.jpeg/.webp`, or the payload exceeds 20 MiB, or
the id is not found; on success the located entry's image list becomes
exactly the single newly written path (a re-upload replaces any previously
tracked path). -/
theorem c6_append_image (st : HistoryState) (existing : List Str)
    (year month base : Str) (historyId sourceName : Str) (contentLen : Nat) :
    ((∃ msg, appendImage st existing year month base historyId sourceName contentLen =
        .error msg) ↔
      (extAllowed sourceName = false ∨ contentLen > MAX_IMAGE_BYTES ∨
        findEntryContainer st historyId = none)) ∧
    (∀ (c : Container) (entries : List HistoryEntry) (i : Nat) (e : HistoryEntry),
      extAllowed sourceName = true → contentLen ≤ MAX_IMAGE_BYTES →
      findEntryContainer st historyId = some (c, entries, i, e) →
      ∃ ext rel,
        (pathExtension sourceName).map (fun x => '.' :: lowerStr x) = some ext ∧
        rel = nextImageRelPath existing year month base ext ∧
        appendImage st existing year month base historyId sourceName contentLen =
          .ok (setEntries st c (entries.set i { e with images := [rel] }), rel) ∧
        ({ e with images := [rel] }).images = [rel] ∧
        entries[i]? = some e) := by
  constructor
  · constructor
    · intro ⟨msg, hmsg⟩
      unfold appendImage at hmsg
      rcases hx : (pathExtension sourceName).map (fun e => '.' :: lowerStr e) with _ | ext
      · exact Or.inl (by unfold extAllowed; rw [hx])
      · simp only [hx] at hmsg
        by_cases hall :
            ([(".png".data), (".jpg".data), (".jpeg".data), (".webp".data)].any
              fun allowed => decide (allowed = ext)) = true
        · rw [if_neg (by rw [hall]; decide)] at hmsg
          by_cases hsz : contentLen > MAX_IMAGE_BYTES
          · exact Or.inr (Or.inl hsz)
          · rw [if_neg hsz] at hmsg
            rcases hf : findEntryContainer st historyId with _ | ⟨c, entries, i, e⟩
            · exact Or.inr (Or.inr rfl)
            · simp only [hf] at hmsg
              exact Except.noConfusion hmsg
        · refine Or.inl ?_
          unfold extAllowed
          rw [hx]
          exact Bool.eq_false_iff.mpr hall
    · intro h
      unfold appendImage
      rcases hx : (pathExtension sourceName).map (fun e => '.' :: lowerStr e) with _ | ext
      · simp only [hx]
        exact ⟨_, rfl⟩
      · simp only [hx]
        rcases h with h | h | h
        · unfold extAllowed at h
          simp only [hx] at h
          rw [if_pos (by rw [h]; rfl)]
          exact ⟨_, rfl⟩
        · by_cases hall :
              ([(".png".data), (".jpg".data), (".jpeg".data), (".webp".data)].any
                fun allowed => decide (allowed = ext)) = true
          · rw [if_neg (by rw [hall]; decide), if_pos h]
            exact ⟨_, rfl⟩
          · rw [if_pos (by rw [Bool.eq_false_iff.mpr hall]; rfl)]
            exact ⟨_, rfl⟩
        · by_cases hall :
              ([(".png".data), (".jpg".data), (".jpeg".data), (".webp".data)].any
                fun allowed => decide (allowed = ext)) = true
          · rw [if_neg (by rw [hall]; decide)]
            by_cases hsz : contentLen > MAX_IMAGE_BYTES
            · rw [if_pos hsz]; exact ⟨_, rfl⟩
            · rw [if_neg hsz]
              simp only [h]
              exact ⟨_, rfl⟩
          · rw [if_pos (by rw [Bool.eq_false_iff.mpr hall]; rfl)]
            exact ⟨_, rfl⟩
  · intro c entries i e hext hsz hf
    unfold extAllowed at hext
    rcases hx : (pathExtension sourceName).map (fun e => '.' :: lowerStr e) with _ | ext
    · simp only [hx] at hext
      exact absurd hext (by decide)
    · simp only [hx] at hext
      refine ⟨ext, nextImageRelPath existing year month base ext, rfl, rfl, ?_, rfl,
        (findEntryContainer_spec hf).2.1⟩
      unfold appendImage
      simp only [hx]
      rw [if_neg (by rw [hext]; decide), if_neg (by omega)]
      simp only [hf]

/-- Witness for `c6_append_image`: a `.gif` fails, a 21 MiB payload fails,
and an 18 MiB `.PNG` succeeds, replacing the previously tracked image. -/
theorem c6_append_image_witness :
    (∃ msg,
      appendImage
        ⟨[⟨("20250101_120000_0001".data), ("ts".data), ("p".data),
            [("old.png".data)]⟩], []⟩
        [] ("2025".data) ("01".data) ("20250101_120000".data)
        ("20250101_120000_0001".data) ("x.gif".data) 5 = .error msg) ∧
    (∃ msg,
      appendImage
        ⟨[⟨("20250101_120000_0001".data), ("ts".data), ("p".data),
            [("old.png".data)]⟩], []⟩
        [] ("2025".data) ("01".data) ("20250101_120000".data)
        ("20250101_120000_0001".data) ("x.png".data) (21 * 1024 * 1024) =
        .error msg) ∧
    (∃ ext rel,
      (pathExtension ("x.PNG".data)).map (fun x => '.' :: lowerStr x) = some ext ∧
      rel = nextImageRelPath [] ("2025".data) ("01".data)
        ("20250101_120000".data) ext ∧
      appendImage
          ⟨[⟨("20250101_120000_0001".data), ("ts".data), ("p".data),
              [("old.png".data)]⟩], []⟩
          [] ("2025".data) ("01".data) ("20250101_120000".data)
          ("20250101_120000_0001".data) ("x.PNG".data) (18 * 1024 * 1024) =
        .ok
          (setEntries
            ⟨[⟨("20250101_120000_0001".data), ("ts".data), ("p".data),
                [("old.png".data)]⟩], []⟩
            Container.active
            ([⟨("20250101_120000_0001".data), ("ts".data), ("p".data),
                [("old.png".data)]⟩].set 0
              { (⟨("20250101_120000_0001".data), ("ts".data), ("p".data),
                  [("old.png".data)]⟩ : HistoryEntry) with images := [rel] }),
            rel) ∧
      ({ (⟨("20250101_120000_0001".data), ("ts".data), ("p".data),
          [("old.png".data)]⟩ : HistoryEntry) with images := [rel] }).images =
        [rel] ∧
      [(⟨("20250101_120000_0001".data), ("ts".data), ("p".data),
        [("old.png".data)]⟩ : HistoryEntry)][0]? =
        some ⟨("20250101_120000_0001".data), ("ts".data), ("p".data),
          [("old.png".data)]⟩) :=
  ⟨(c6_append_image
      ⟨[⟨("20250101_120000_0001".data), ("ts".data), ("p".data),
          [("old.png".data)]⟩], []⟩
      [] ("2025".data) ("01".data) ("20250101_120000".data)
      ("20250101_120000_0001".data) ("x.gif".data) 5).1.mpr
    (Or.inl (by decide)),
   (c6_append_image
      ⟨[⟨("20250101_120000_0001".data), ("ts".data), ("p".data),
          [("old.png".data)]⟩], []⟩
      [] ("2025".data) ("01".data) ("20250101_120000".data)
      ("20250101_120000_0001".data) ("x.png".data) (21 * 1024 * 1024)).1.mpr
    (Or.inr (Or.inl (by decide))),
   (c6_append_image
      ⟨[⟨("20250101_120000_0001".data), ("ts".data), ("p".data),
          [("old.png".data)]⟩], []⟩
      [] ("2025".data) ("01".data) ("20250101_120000".data)
      ("20250101_120000_0001".data) ("x.PNG".data) (18 * 1024 * 1024)).2
    Container.active
    [⟨("20250101_120000_0001".data), ("ts".data), ("p".data),
      [("old.png".data)]⟩] 0
    ⟨("20250101_120000_0001".data), ("ts".data), ("p".data),
      [("old.png".data)]⟩
    (by decide) (by decide) (by decide)⟩

/-! ### C9: file-write traces -/

/-- A file-system side effect performed by a store write. -/
inductive FsOp where
  | write (path : Str) (content : Str)
  | removeFile (path : Str)
  | rename (src dst : Str)
deriving DecidableEq

/-- The temporary-file path of `write_entries`: `with_file_name` of
`<file_name>.tmp`, i.e. the target path with `.tmp` appended (every target
the store writes has a file name). -/
def tmpPathOf (target : Str) : Str := target ++ (".tmp".data)

/-- The file-system trace of `HistoryStore::write_entries`: write the full
serialized payload to the temporary file, remove the old target if it
exists (Windows rename does not overwrite), then rename the temporary file
onto the target. -/
def writeEntriesOps (target : Str) (payload : Str) (targetExists : Bool) :
    List FsOp :=
  if targetExists then
    [FsOp.write (tmpPathOf target) payload, FsOp.removeFile target,
     FsOp.rename (tmpPathOf target) target]
  else
    [FsOp.write (tmpPathOf target) payload,
     FsOp.rename (tmpPathOf target) target]

/-- The file-system trace of `ConfigStore::save`: a single direct rewrite
of the configuration file. -/
def configSaveOps (path : Str) (text : Str) : List FsOp :=
  [FsOp.write path text]

/-- The file-system trace of `HistoryStore::ensure_files` on the active
log (directory creation elided): a missing `history.json` is initialized
with a direct `fs::write` of `"[]"`; an existing log that parses is
rewritten through `write_entries`; a corrupt log is renamed to a
`history.broken.<ts>.json` backup and reset with a direct `fs::write` of
`"[]"`. -/
def ensureFilesOps (historyPath backupPath payload : Str)
    (fileExists readOk : Bool) : List FsOp :=
  if !fileExists then [FsOp.write historyPath ("[]".data)]
  else if readOk then writeEntriesOps historyPath payload true
  else
    [FsOp.rename historyPath backupPath,
     FsOp.write historyPath ("[]".data)]

/-- A trace "goes through a write-to-temporary-file-then-atomically-replace
path": the target file is never written directly, and the last operation
renames a previously fully-written distinct temporary file onto it. -/
def writesViaTempReplace (ops : List FsOp) (target : Str) : Prop :=
  (∀ op ∈ ops, ∀ content, op ≠ FsOp.write target content) ∧
  ∃ tmp content, tmp ≠ target ∧ FsOp.write tmp content ∈ ops ∧
    ops.getLast? = some (FsOp.rename tmp target)

lemma tmpPathOf_ne (target : Str) : tmpPathOf target ≠ target := by
  intro h
  have := congrArg List.length h
  simp [tmpPathOf] at this

/-- C9 counterexample: `ConfigStore::save` writes the configuration file
directly (`fs::write`), so its trace does not follow the
write-temporary-then-replace pattern the claim asserts for every persisted
write of either store. -/
theorem c9_counterexample :
    ¬ writesViaTempReplace
        (configSaveOps ("config.toml".data) ("text".data)) ("config.toml".data) := by
  intro h
  exact h.1 _ (List.mem_cons_self _ _) ("text".data) rfl

/-- C9 (amended): every rewrite of history entries performed by
`write_entries` — the path every mutation (append, delete, prompt update,
image attach, rotation) uses for the active log and for each archive
file — goes through the write-to-temporary-file, remove-old,
rename-into-place path: the target is never written directly and the last
step renames the fully-written temporary file onto it.  Two maintenance
writes bypass that path: the **configuration store** rewrites its file in
place with a single direct write on every save, and
`HistoryStore::ensure_files` initializes a missing active log — and, after
renaming a corrupt log to a backup, resets it — with a direct write of
`"[]"` (its parse-ok branch re-persists through `write_entries`). -/
theorem c9_write_paths (target payload : Str) (targetExists : Bool)
    (path text : Str) (historyPath backupPath efPayload : Str)
    (readOk : Bool) :
    writesViaTempReplace (writeEntriesOps target payload targetExists) target ∧
    configSaveOps path text = [FsOp.write path text] ∧
    ensureFilesOps historyPath backupPath efPayload false readOk =
      [FsOp.write historyPath ("[]".data)] ∧
    ensureFilesOps historyPath backupPath efPayload true true =
      writeEntriesOps historyPath efPayload true ∧
    ensureFilesOps historyPath backupPath efPayload true false =
      [FsOp.rename historyPath backupPath,
       FsOp.write historyPath ("[]".data)] := by
  refine ⟨⟨?_, tmpPathOf target, payload, tmpPathOf_ne target, ?_, ?_⟩,
    rfl, rfl, rfl, rfl⟩
  · intro op hop content
    unfold writeEntriesOps at hop
    cases targetExists with
    | true =>
      rw [if_pos rfl] at hop
      simp only [List.mem_cons, List.not_mem_nil, or_false] at hop
      rcases hop with rfl | rfl | rfl
      · intro hh
        injection hh with h1 h2
        exact tmpPathOf_ne target h1
      · intro hh; exact FsOp.noConfusion hh
      · intro hh; exact FsOp.noConfusion hh
    | false =>
      rw [if_neg Bool.false_ne_true] at hop
      simp only [List.mem_cons, List.not_mem_nil, or_false] at hop
      rcases hop with rfl | rfl
      · intro hh
        injection hh with h1 h2
        exact tmpPathOf_ne target h1
      · intro hh; exact FsOp.noConfusion hh
  · unfold writeEntriesOps
    cases targetExists with
    | true => rw [if_pos rfl]; exact List.mem_cons_self _ _
    | false => rw [if_neg Bool.false_ne_true]; exact List.mem_cons_self _ _
  · unfold writeEntriesOps
    cases targetExists with
    | true => rw [if_pos rfl]; rfl
    | false => rw [if_neg Bool.false_ne_true]; rfl

/-! ### Rotation into day-keyed archives -/

/-- `HistoryStore::date_key_from_entry`: the first 8 characters of the id
when they are digits, else the first 8 digits of the timestamp, else
today's `%Y%m%d` (passed in from the caller's clock). -/
def dateKeyFromEntry (today : Str) (e : HistoryEntry) : Str :=
  if 8 ≤ e.id.length ∧ (e.id.take 8).all Char.isDigit = true then e.id.take 8
  else
    if 8 ≤ (e.ts.filter Char.isDigit).length then (e.ts.filter Char.isDigit).take 8
    else today

/-- `grouped.entry(date_key).or_default().push(entry)`. -/
def groupUpd (acc : List (Str × List HistoryEntry)) (k : Str) (e : HistoryEntry) :
    List (Str × List HistoryEntry) :=
  match acc with
  | [] => [(k, [e])]
  | (k0, v) :: rest =>
    if k0 = k then (k0, v ++ [e]) :: rest else (k0, v) :: groupUpd rest k e

/-- Group the rotated-out entries by derived day key (`BTreeMap` grouping;
iteration order over distinct keys does not affect the resulting files). -/
def groupByKey (today : Str) (moving : List HistoryEntry) :
    List (Str × List HistoryEntry) :=
  moving.foldl (fun acc e => groupUpd acc (dateKeyFromEntry today e) e) []

/-- `BTreeMap<String, HistoryEntry>` insertion (by id, last write wins)
into an id-sorted list. -/
def insertSortedById (e : HistoryEntry) : List HistoryEntry → List HistoryEntry
  | [] => [e]
  | x :: xs =>
    if strLtB e.id x.id then e :: x :: xs
    else if e.id = x.id then e :: xs
    else x :: insertSortedById e xs

/-- The archive merge of `rotate_if_needed`: insert existing then incoming
entries into a `BTreeMap` keyed by id and take its values — an id-sorted
list where an incoming entry overwrites an existing entry of the same
id. -/
def mergeById (existing incoming : List HistoryEntry) : List HistoryEntry :=
  (existing ++ incoming).foldl (fun acc entry => insertSortedById entry acc) []

/-- One archive-file write of the rotation loop. -/
def rotateStep (arc : List (Str × List HistoryEntry))
    (kv : Str × List HistoryEntry) : List (Str × List HistoryEntry) :=
  archInsert arc kv.1 (mergeById ((archLookup arc kv.1).getD []) kv.2)

/-- `HistoryStore::rotate_if_needed`: with `overflow = len - max ≤ 0` the
log is untouched; otherwise the oldest `overflow` entries are removed and
merged into their per-day archive files. -/
def rotateIfNeeded (maxA : Nat) (today : Str) (entries : List HistoryEntry)
    (archives : List (Str × List HistoryEntry)) :
    List HistoryEntry × List (Str × List HistoryEntry) :=
  if entries.length ≤ maxA then (entries, archives)
  else
    (entries.drop (entries.length - maxA),
     (groupByKey today (entries.take (entries.length - maxA))).foldl rotateStep
       archives)

/-- `HistoryStore::append_history`: reject a blank prompt; generate the id
from the formatted local time (`dateS ++ "_" ++ timeS`) against the current
active entries; append the new entry (trimmed prompt, display timestamp
`ts`, no images); rotate; write. -/
def appendHistory (maxA : Nat) (dateS timeS ts prompt : Str) (st : HistoryState) :
    Except Str (HistoryState × HistoryEntry) :=
  if (rustTrim prompt).isEmpty then .error ("prompt is empty".data)
  else
    .ok
      (⟨(rotateIfNeeded maxA dateS
            (st.active ++ [⟨nextEntryId (dateS ++ '_' :: timeS) st.active, ts,
              rustTrim prompt, []⟩]) st.archives).1,
        (rotateIfNeeded maxA dateS
            (st.active ++ [⟨nextEntryId (dateS ++ '_' :: timeS) st.active, ts,
              rustTrim prompt, []⟩]) st.archives).2⟩,
       ⟨nextEntryId (dateS ++ '_' :: timeS) st.active, ts, rustTrim prompt, []⟩)

/-! ### Lexicographic order lemmas -/

lemma strLtB_irrefl : ∀ a : Str, strLtB a a = false := by
  intro a
  induction a with
  | nil => rfl
  | cons c cs ih =>
    unfold strLtB
    rw [if_neg (by omega), if_neg (by omega)]
    exact ih

lemma strLtB_trans :
    ∀ a b c : Str, strLtB a b = true → strLtB b c = true → strLtB a c = true := by
  intro a
  induction a with
  | nil =>
    intro b c hab hbc
    rcases b with _ | ⟨y, ys⟩
    · exact absurd hab (by simp [strLtB])
    · rcases c with _ | ⟨z, zs⟩
      · exact absurd hbc (by simp [strLtB])
      · rfl
  | cons x xs ih =>
    intro b c hab hbc
    rcases b with _ | ⟨y, ys⟩
    · exact absurd hab (by simp [strLtB])
    · rcases c with _ | ⟨z, zs⟩
      · exact absurd hbc (by simp [strLtB])
      · unfold strLtB at hab hbc ⊢
        by_cases h1 : x.toNat < y.toNat
        · rw [if_pos h1] at hab
          by_cases h2 : y.toNat < z.toNat
          · rw [if_pos (by omega)]
          · rw [if_neg h2] at hbc
            by_cases h3 : z.toNat < y.toNat
            · rw [if_pos h3] at hbc
              exact absurd hbc (by simp)
            · rw [if_pos (by omega)]
        · rw [if_neg h1] at hab
          by_cases h1' : y.toNat < x.toNat
          · rw [if_pos h1'] at hab
            exact absurd hab (by simp)
          · rw [if_neg h1'] at hab
            by_cases h2 : y.toNat < z.toNat
            · rw [if_pos (by omega)]
            · rw [if_neg h2] at hbc
              by_cases h3 : z.toNat < y.toNat
              · rw [if_pos h3] at hbc
                exact absurd hbc (by simp)
              · rw [if_neg h3] at hbc
                rw [if_neg (by omega), if_neg (by omega)]
                exact ih ys zs hab hbc

lemma char_eq_of_toNat_eq {x y : Char} (h : x.toNat = y.toNat) : x = y := by
  have h1 : Char.ofNat x.toNat = Char.ofNat y.toNat := by rw [h]
  rwa [Char.ofNat_toNat, Char.ofNat_toNat] at h1

lemma strLtB_connex :
    ∀ a b : Str, a ≠ b → strLtB a b = true ∨ strLtB b a = true := by
  intro a
  induction a with
  | nil =>
    intro b hne
    rcases b with _ | ⟨y, ys⟩
    · exact absurd rfl hne
    · exact Or.inl rfl
  | cons x xs ih =>
    intro b hne
    rcases b with _ | ⟨y, ys⟩
    · exact Or.inr rfl
    · unfold strLtB
      by_cases h1 : x.toNat < y.toNat
      · exact Or.inl (by rw [if_pos h1])
      · by_cases h2 : y.toNat < x.toNat
        · exact Or.inr (by rw [if_pos h2])
        · have hxy : x = y := char_eq_of_toNat_eq (by omega)
          subst hxy
          have hne' : xs ≠ ys := fun hh => hne (by rw [hh])
          rcases ih ys hne' with h | h
          · exact Or.inl (by rw [if_neg h1, if_neg h1]; exact h)
          · exact Or.inr (by rw [if_neg h1, if_neg h1]; exact h)

/-! ### Sortedness of merged archives -/

/-- Entries strictly sorted by id (the order of `BTreeMap::into_values`). -/
abbrev SortedIds (l : List HistoryEntry) : Prop :=
  List.Pairwise (fun a b => strLtB a b = true) (l.map HistoryEntry.id)

lemma insertSorted_mem {e : HistoryEntry} :
    ∀ {l : List HistoryEntry} {y : HistoryEntry},
      y ∈ insertSortedById e l → y = e ∨ y ∈ l := by
  intro l
  induction l with
  | nil => intro y hy; simp [insertSortedById] at hy; exact Or.inl hy
  | cons x xs ih =>
    intro y hy
    unfold insertSortedById at hy
    by_cases h1 : strLtB e.id x.id = true
    · rw [if_pos h1] at hy
      rcases List.mem_cons.mp hy with rfl | hy
      · exact Or.inl rfl
      · exact Or.inr hy
    · rw [if_neg h1] at hy
      by_cases h2 : e.id = x.id
      · rw [if_pos h2] at hy
        rcases List.mem_cons.mp hy with rfl | hy
        · exact Or.inl rfl
        · exact Or.inr (List.mem_cons_of_mem x hy)
      · rw [if_neg h2] at hy
        rcases List.mem_cons.mp hy with rfl | hy
        · exact Or.inr (List.mem_cons_self _ _)
        · rcases ih hy with h | h
          · exact Or.inl h
          · exact Or.inr (List.mem_cons_of_mem x h)

lemma insertSorted_pairwise (e : HistoryEntry) :
    ∀ l : List HistoryEntry,
      List.Pairwise (fun a b => strLtB a.id b.id = true) l →
      List.Pairwise (fun a b => strLtB a.id b.id = true) (insertSortedById e l) := by
  intro l
  induction l with
  | nil => intro _; exact List.pairwise_singleton _ _
  | cons x xs ih =>
    intro h
    rw [List.pairwise_cons] at h
    unfold insertSortedById
    by_cases h1 : strLtB e.id x.id = true
    · rw [if_pos h1]
      rw [List.pairwise_cons]
      refine ⟨?_, List.pairwise_cons.mpr h⟩
      intro y hy
      rcases List.mem_cons.mp hy with rfl | hy
      · exact h1
      · exact strLtB_trans _ _ _ h1 (h.1 y hy)
    · rw [if_neg h1]
      by_cases h2 : e.id = x.id
      · rw [if_pos h2]
        rw [List.pairwise_cons]
        refine ⟨?_, h.2⟩
        intro y hy
        rw [h2]
        exact h.1 y hy
      · rw [if_neg h2]
        rw [List.pairwise_cons]
        refine ⟨?_, ih h.2⟩
        intro y hy
        rcases insertSorted_mem hy with rfl | hy
        · rcases strLtB_connex _ _ h2 with hc | hc
          · exact absurd hc h1
          · exact hc
        · exact h.1 y hy

lemma foldl_insert_pairwise :
    ∀ (l : List HistoryEntry) (acc : List HistoryEntry),
      List.Pairwise (fun a b => strLtB a.id b.id = true) acc →
      List.Pairwise (fun a b => strLtB a.id b.id = true)
        (l.foldl (fun a entry => insertSortedById entry a) acc) := by
  intro l
  induction l with
  | nil => intro acc h; exact h
  | cons e l ih => intro acc h; exact ih _ (insertSorted_pairwise e acc h)

lemma mergeById_sorted (existing incoming : List HistoryEntry) :
    SortedIds (mergeById existing incoming) := by
  unfold SortedIds
  rw [List.pairwise_map]
  exact foldl_insert_pairwise _ [] List.Pairwise.nil

lemma insertSorted_perm {e : HistoryEntry} :
    ∀ {l : List HistoryEntry}, e.id ∉ l.map HistoryEntry.id →
      List.Perm (insertSortedById e l) (e :: l) := by
  intro l
  induction l with
  | nil => intro _; exact List.Perm.refl _
  | cons x xs ih =>
    intro h
    simp only [List.map_cons, List.mem_cons, not_or] at h
    unfold insertSortedById
    by_cases h1 : strLtB e.id x.id = true
    · rw [if_pos h1]
    · rw [if_neg h1, if_neg h.1]
      exact ((ih h.2).cons x).trans (List.Perm.swap e x xs)

lemma foldl_insert_perm :
    ∀ (l acc : List HistoryEntry),
      ((l ++ acc).map HistoryEntry.id).Nodup →
      List.Perm (l.foldl (fun a entry => insertSortedById entry a) acc) (l ++ acc) := by
  intro l
  induction l with
  | nil => intro acc _; exact List.Perm.refl _
  | cons e l ih =>
    intro acc hnd
    simp only [List.cons_append, List.map_cons, List.nodup_cons, List.map_append,
      List.mem_append] at hnd
    have hmem : e.id ∉ acc.map HistoryEntry.id := fun hh => hnd.1 (Or.inr hh)
    have hperm : List.Perm (insertSortedById e acc) (e :: acc) := insertSorted_perm hmem
    have hnd' : ((l ++ insertSortedById e acc).map HistoryEntry.id).Nodup := by
      have hp : List.Perm ((l ++ insertSortedById e acc).map HistoryEntry.id)
          ((l ++ e :: acc).map HistoryEntry.id) :=
        (List.Perm.append_left l hperm).map _
      refine hp.nodup_iff.mpr ?_
      have hp2 : List.Perm ((l ++ e :: acc).map HistoryEntry.id)
          (((e :: l) ++ acc).map HistoryEntry.id) :=
        (List.perm_middle.trans (List.Perm.refl _)).map _
      refine hp2.nodup_iff.mpr ?_
      simp only [List.cons_append, List.map_cons, List.nodup_cons, List.map_append,
        List.mem_append]
      exact ⟨hnd.1, hnd.2⟩
    have h1 : List.Perm
        (l.foldl (fun a entry => insertSortedById entry a) (insertSortedById e acc))
        (l ++ insertSortedById e acc) := ih _ hnd'
    refine h1.trans ?_
    exact (List.Perm.append_left l hperm).trans List.perm_middle

lemma archLookup_archInsert_self (arc : List (Str × List HistoryEntry)) (k : Str)
    (v : List HistoryEntry) : archLookup (archInsert arc k v) k = some v := by
  induction arc with
  | nil => simp [archInsert, archLookup]
  | cons kv rest ih =>
    rcases kv with ⟨k0, v0⟩
    unfold archInsert
    by_cases h0 : k0 = k
    · rw [if_pos h0]
      unfold archLookup
      rw [if_pos rfl]
    · rw [if_neg h0]
      unfold archLookup
      rw [if_neg h0]
      exact ih

lemma rotate_fold_lookup_notin :
    ∀ (grouped : List (Str × List HistoryEntry)) (arc : List (Str × List HistoryEntry))
      (k : Str), k ∉ grouped.map Prod.fst →
      archLookup (grouped.foldl rotateStep arc) k = archLookup arc k := by
  intro grouped
  induction grouped with
  | nil => intro arc k _; rfl
  | cons kv rest ih =>
    intro arc k hk
    simp only [List.map_cons, List.mem_cons, not_or] at hk
    simp only [List.foldl_cons]
    rw [ih _ k hk.2]
    exact archLookup_archInsert_ne _ hk.1

lemma rotate_fold_lookup_mem :
    ∀ (grouped : List (Str × List HistoryEntry)) (arc : List (Str × List HistoryEntry)),
      (grouped.map Prod.fst).Nodup →
      ∀ kv ∈ grouped,
        archLookup (grouped.foldl rotateStep arc) kv.1 =
          some (mergeById ((archLookup arc kv.1).getD []) kv.2) := by
  intro grouped
  induction grouped with
  | nil => intro arc _ kv hkv; cases hkv
  | cons kv0 rest ih =>
    intro arc hnd kv hkv
    simp only [List.map_cons, List.nodup_cons] at hnd
    simp only [List.foldl_cons]
    rcases List.mem_cons.mp hkv with rfl | hkv
    · rw [rotate_fold_lookup_notin rest _ kv.1 hnd.1]
      unfold rotateStep
      exact archLookup_archInsert_self ..
    · have hne : kv.1 ≠ kv0.1 := by
        intro hh
        exact hnd.1 (hh ▸ List.mem_map_of_mem Prod.fst hkv)
      rw [ih _ hnd.2 kv hkv]
      unfold rotateStep
      rw [archLookup_archInsert_ne _ hne]

lemma groupUpd_keys (k : Str) (e : HistoryEntry) :
    ∀ acc : List (Str × List HistoryEntry),
      (groupUpd acc k e).map Prod.fst =
        if k ∈ acc.map Prod.fst then acc.map Prod.fst
        else acc.map Prod.fst ++ [k] := by
  intro acc
  induction acc with
  | nil => simp [groupUpd]
  | cons kv rest ih =>
    rcases kv with ⟨k0, v0⟩
    unfold groupUpd
    by_cases h0 : k0 = k
    · rw [if_pos h0]
      simp only [List.map_cons]
      rw [if_pos (by rw [h0]; exact List.mem_cons_self _ _)]
    · rw [if_neg h0]
      simp only [List.map_cons, ih]
      by_cases hmem : k ∈ rest.map Prod.fst
      · rw [if_pos hmem,
          if_pos (List.mem_cons_of_mem _ hmem)]
      · rw [if_neg hmem,
          if_neg (by
            intro hh
            rcases List.mem_cons.mp hh with hh | hh
            · exact h0 hh.symm
            · exact hmem hh)]
        rfl

lemma groupFold_keys_nodup (today : Str) :
    ∀ (moving : List HistoryEntry) (acc : List (Str × List HistoryEntry)),
      (acc.map Prod.fst).Nodup →
      ((moving.foldl (fun a e => groupUpd a (dateKeyFromEntry today e) e) acc).map
        Prod.fst).Nodup := by
  intro moving
  induction moving with
  | nil => intro acc h; exact h
  | cons e moving ih =>
    intro acc h
    simp only [List.foldl_cons]
    refine ih _ ?_
    rw [groupUpd_keys]
    by_cases hmem : dateKeyFromEntry today e ∈ acc.map Prod.fst
    · rw [if_pos hmem]; exact h
    · rw [if_neg hmem]
      rw [List.nodup_append]
      exact ⟨h, List.nodup_singleton _, by
        intro a ha hb
        rw [List.mem_singleton.mp hb] at ha
        exact hmem ha⟩

lemma groupByKey_keys_nodup (today : Str) (moving : List HistoryEntry) :
    ((groupByKey today moving).map Prod.fst).Nodup :=
  groupFold_keys_nodup today moving [] List.nodup_nil

lemma list_set_self {α : Type} :
    ∀ (l : List α) (i : Nat) (x : α), l[i]? = some x → l.set i x = l := by
  intro l
  induction l with
  | nil => intro i x h; exact absurd h (by simp)
  | cons a l ih =>
    intro i x h
    cases i with
    | zero =>
      simp only [List.getElem?_cons_zero, Option.some.injEq] at h
      rw [← h]
      rfl
    | succ i =>
      simp only [List.getElem?_cons_succ] at h
      simp only [List.set_cons_succ]
      rw [ih i x h]

/-- C10: each archive file written by rotation holds entries in strictly
increasing id order (the id-keyed `BTreeMap` merge), and the delete and
prompt-update operations preserve that order. -/
theorem c10_archive_order :
    (∀ existing incoming, SortedIds (mergeById existing incoming)) ∧
    (∀ (maxA : Nat) (today : Str) (entries : List HistoryEntry)
        (archives : List (Str × List HistoryEntry))
        (kv : Str × List HistoryEntry),
      kv ∈ groupByKey today (entries.take (entries.length - maxA)) →
      SortedIds
        ((archLookup (rotateIfNeeded maxA today entries archives).2 kv.1).getD [])) ∧
    (∀ (l : List HistoryEntry) (hid : Str), SortedIds l →
      SortedIds (l.filter fun e => decide (rustTrim e.id ≠ hid))) ∧
    (∀ (l : List HistoryEntry) (i : Nat) (e : HistoryEntry) (p : Str),
      l[i]? = some e → SortedIds l → SortedIds (l.set i { e with prompt := p })) := by
  refine ⟨mergeById_sorted, ?_, ?_, ?_⟩
  · intro maxA today entries archives kv hkv
    unfold rotateIfNeeded
    by_cases hlen : entries.length ≤ maxA
    · rw [if_pos hlen]
      have : entries.length - maxA = 0 := by omega
      rw [this] at hkv
      simp [groupByKey] at hkv
    · rw [if_neg hlen]
      rw [rotate_fold_lookup_mem _ archives
        (groupByKey_keys_nodup today _) kv hkv]
      exact mergeById_sorted ..
  · intro l hid hs
    unfold SortedIds at hs ⊢
    exact hs.sublist ((List.filter_sublist l).map HistoryEntry.id)
  · intro l i e p hget hs
    unfold SortedIds at hs ⊢
    have h1 : (l.set i { e with prompt := p }).map HistoryEntry.id =
        l.map HistoryEntry.id := by
      rw [List.map_set]
      exact list_set_self _ i _ (by rw [List.getElem?_map, hget]; rfl)
    rw [h1]
    exact hs

/-- Witness for `c10_archive_order`: deleting from a concrete sorted
archive keeps it sorted, and a concrete rotation-written archive is
sorted. -/
theorem c10_archive_order_witness :
    SortedIds
      ([⟨("20250101_110000_0001".data), ("t0".data), ("a".data), []⟩,
        ⟨("20250101_110000_0002".data), ("t1".data), ("b".data), []⟩].filter
        fun e => decide (rustTrim e.id ≠ ("20250101_110000_0001".data))) ∧
    SortedIds
      (mergeById
        [⟨("20250101_110000_0002".data), ("t1".data), ("b".data), []⟩]
        [⟨("20250101_110000_0001".data), ("t0".data), ("a".data), []⟩]) :=
  ⟨c10_archive_order.2.2.1
    [⟨("20250101_110000_0001".data), ("t0".data), ("a".data), []⟩,
     ⟨("20250101_110000_0002".data), ("t1".data), ("b".data), []⟩]
    ("20250101_110000_0001".data) (by decide),
   c10_archive_order.1
    [⟨("20250101_110000_0002".data), ("t1".data), ("b".data), []⟩]
    [⟨("20250101_110000_0001".data), ("t0".data), ("a".data), []⟩]⟩

/-! ### C1: append/rotation accounting

An append run is driven by the formatted local clock: each call receives
the `%Y%m%d` and `%H%M%S` strings.  Calls are grouped into runs of equal
clock value (`Local::now` is non-decreasing within a process, so equal
formatted stamps are contiguous and no stamp reoccurs after a different
one). -/

def baseOf (b : Str × Str) : Str := b.1 ++ '_' :: b.2

/-- The timestamp base is well formed: nonempty digits, `'_'`, nonempty
digits — exactly the shape `%Y%m%d_%H%M%S` produces. -/
def goodBase (b : Str × Str) : Bool :=
  !b.1.isEmpty && allDigits b.1 && (!b.2.isEmpty && allDigits b.2)

/-- The entries a run generates, starting at sequence `k`: item `(ts, p)`
number `j` gets id `idOf base (k + j)`, the display timestamp `ts`, the
trimmed prompt, and no images. -/
def runEntriesFrom (b : Str × Str) (k : Nat) : List (Str × Str) → List HistoryEntry
  | [] => []
  | it :: rest =>
    ⟨idOf (baseOf b) k, it.1, rustTrim it.2, []⟩ :: runEntriesFrom b (k + 1) rest

/-- All entries the whole input generates, in append order. -/
def flatRuns : List ((Str × Str) × List (Str × Str)) → List HistoryEntry
  | [] => []
  | (b, items) :: rs => runEntriesFrom b 1 items ++ flatRuns rs

/-- Appending every item of one run through `append_history`. -/
def runAppends (maxA : Nat) (b : Str × Str) :
    List (Str × Str) → HistoryState → Except Str HistoryState
  | [], st => .ok st
  | (ts, p) :: rest, st =>
    match appendHistory maxA b.1 b.2 ts p st with
    | .ok (st', _) => runAppends maxA b rest st'
    | .error msg => .error msg

/-- Appending every item of every run. -/
def runsAppends (maxA : Nat) :
    List ((Str × Str) × List (Str × Str)) → HistoryState → Except Str HistoryState
  | [], st => .ok st
  | (b, items) :: rs, st =>
    match runAppends maxA b items st with
    | .ok st' => runsAppends maxA rs st'
    | .error msg => .error msg

/-- All archived entries of a state. -/
def archAll (st : HistoryState) : List HistoryEntry :=
  (st.archives.map Prod.snd).flatten

/-- How many entries have been moved out of the active log. -/
def archivedCount (st : HistoryState) : Nat := (archAll st).length

/-- Every prompt non-blank after trimming, every base well formed. -/
def runsWellFormed (runs : List ((Str × Str) × List (Str × Str))) : Bool :=
  runs.all fun r => goodBase r.1 && r.2.all fun it => !(rustTrim it.2).isEmpty

/-- The store invariant maintained by successive appends: the active log is
the most recent `min n maxA` generated entries, and archives plus active
log together hold exactly the generated entries. -/
def StoreInv (maxA : Nat) (es : List HistoryEntry) (st : HistoryState) : Prop :=
  st.active = es.drop (es.length - min es.length maxA) ∧
  List.Perm (archAll st ++ st.active) es

lemma runEntriesFrom_length (b : Str × Str) :
    ∀ (items : List (Str × Str)) (k : Nat),
      (runEntriesFrom b k items).length = items.length := by
  intro items
  induction items with
  | nil => intro k; rfl
  | cons it rest ih =>
    intro k
    simp only [runEntriesFrom, List.length_cons, ih]

lemma runEntriesFrom_append (b : Str × Str) :
    ∀ (xs ys : List (Str × Str)) (k : Nat),
      runEntriesFrom b k (xs ++ ys) =
        runEntriesFrom b k xs ++ runEntriesFrom b (k + xs.length) ys := by
  intro xs
  induction xs with
  | nil => intro ys k; simp [runEntriesFrom]
  | cons it rest ih =>
    intro ys k
    simp only [List.cons_append, runEntriesFrom, List.length_cons]
    rw [show rest.append ys = rest ++ ys from rfl, ih ys (k + 1),
      show k + (rest.length + 1) = k + 1 + rest.length by omega]

lemma runEntriesFrom_drop (b : Str × Str) :
    ∀ (items : List (Str × Str)) (k j : Nat),
      (runEntriesFrom b k items).drop j = runEntriesFrom b (k + j) (items.drop j) := by
  intro items
  induction items with
  | nil => intro k j; simp [runEntriesFrom]
  | cons it rest ih =>
    intro k j
    cases j with
    | zero => simp [runEntriesFrom]
    | succ j =>
      simp only [runEntriesFrom, List.drop_succ_cons, ih]
      rw [show k + (j + 1) = k + 1 + j by omega]

lemma runEntriesFrom_shape (b : Str × Str) :
    ∀ (items : List (Str × Str)) (k0 : Nat), ∀ e ∈ runEntriesFrom b k0 items,
      ∃ k, k0 ≤ k ∧ k < k0 + items.length ∧ e.id = idOf (baseOf b) k := by
  intro items
  induction items with
  | nil => intro k0 e he; cases he
  | cons it rest ih =>
    intro k0 e he
    rcases List.mem_cons.mp he with rfl | he
    · exact ⟨k0, le_refl _, by simp, rfl⟩
    · obtain ⟨k, h1, h2, h3⟩ := ih (k0 + 1) e he
      exact ⟨k, by omega, by simp only [List.length_cons]; omega, h3⟩

lemma goodBase_facts {b : Str × Str} (h : goodBase b = true) :
    b.1 ≠ [] ∧ allDigits b.1 = true ∧ b.2 ≠ [] ∧ allDigits b.2 = true := by
  unfold goodBase at h
  simp only [Bool.and_eq_true, Bool.not_eq_true', List.isEmpty_eq_false] at h
  exact ⟨h.1.1, h.1.2, h.2.1, h.2.2⟩

lemma fmt4_inj {k k' : Nat} (h : fmt4 k = fmt4 k') : k = k' := by
  have := congrArg digitsVal h
  rwa [fmt4_val, fmt4_val] at this

lemma splitUS_idOf {b : Str × Str} (hb : goodBase b = true) (k : Nat) :
    splitUS (idOf (baseOf b) k) = [b.1, b.2, fmt4 k] := by
  obtain ⟨h1, h2, h3, h4⟩ := goodBase_facts hb
  unfold idOf baseOf
  exact splitUS_id3 (allDigits_no_us h2) (allDigits_no_us h4)
    (allDigits_no_us (fmt4_all_digits k))

lemma idOf_inj {b b' : Str × Str} (hb : goodBase b = true) (hb' : goodBase b' = true)
    {k k' : Nat} (h : idOf (baseOf b) k = idOf (baseOf b') k') :
    baseOf b = baseOf b' ∧ k = k' := by
  have hs : splitUS (idOf (baseOf b) k) = splitUS (idOf (baseOf b') k') := by rw [h]
  rw [splitUS_idOf hb, splitUS_idOf hb'] at hs
  injection hs with e1 hs
  injection hs with e2 hs
  injection hs with e3 _
  refine ⟨?_, fmt4_inj e3⟩
  unfold baseOf
  rw [e1, e2]

lemma runEntriesFrom_ids_nodup {b : Str × Str} (hb : goodBase b = true) :
    ∀ (items : List (Str × Str)) (k0 : Nat),
      ((runEntriesFrom b k0 items).map HistoryEntry.id).Nodup := by
  intro items
  induction items with
  | nil => intro k0; exact List.nodup_nil
  | cons it rest ih =>
    intro k0
    simp only [runEntriesFrom, List.map_cons, List.nodup_cons]
    refine ⟨?_, ih (k0 + 1)⟩
    intro hmem
    obtain ⟨e, he, heq⟩ := List.mem_map.mp hmem
    obtain ⟨k, hk1, _, hk3⟩ := runEntriesFrom_shape b rest (k0 + 1) e he
    rw [hk3] at heq
    have := (idOf_inj hb hb heq.symm).2
    omega

lemma flatRuns_shape :
    ∀ rs : List ((Str × Str) × List (Str × Str)), runsWellFormed rs = true →
      ∀ e ∈ flatRuns rs, ∃ r ∈ rs, goodBase r.1 = true ∧
        ∃ k, 1 ≤ k ∧ k ≤ r.2.length ∧ e.id = idOf (baseOf r.1) k := by
  intro rs
  induction rs with
  | nil => intro _ e he; cases he
  | cons r rest ih =>
    intro hwf e he
    rcases r with ⟨b, items⟩
    simp only [runsWellFormed, List.all_cons, Bool.and_eq_true] at hwf
    rcases List.mem_append.mp he with he | he
    · obtain ⟨k, hk1, hk2, hk3⟩ := runEntriesFrom_shape b items 1 e he
      exact ⟨(b, items), List.mem_cons_self _ _, hwf.1.1, k, hk1,
        show k ≤ items.length by omega, hk3⟩
    · obtain ⟨r', hr', hg, k, h1, h2, h3⟩ := ih (by
        simp only [runsWellFormed]
        exact hwf.2) e he
      exact ⟨r', List.mem_cons_of_mem _ hr', hg, k, h1, h2, h3⟩

lemma flat_ids_nodup :
    ∀ rs : List ((Str × Str) × List (Str × Str)), runsWellFormed rs = true →
      ((rs.map fun r => baseOf r.1).Nodup) →
      ((flatRuns rs).map HistoryEntry.id).Nodup := by
  intro rs
  induction rs with
  | nil => intro _ _; exact List.nodup_nil
  | cons r rest ih =>
    intro hwf hnd
    rcases r with ⟨b, items⟩
    simp only [runsWellFormed, List.all_cons, Bool.and_eq_true] at hwf
    simp only [List.map_cons, List.nodup_cons] at hnd
    show ((runEntriesFrom b 1 items ++ flatRuns rest).map HistoryEntry.id).Nodup
    rw [List.map_append, List.nodup_append]
    refine ⟨runEntriesFrom_ids_nodup hwf.1.1 items 1,
      ih (by simp only [runsWellFormed]; exact hwf.2) hnd.2, ?_⟩
    intro x hx hx'
    obtain ⟨e, he, rfl⟩ := List.mem_map.mp hx
    obtain ⟨e', he', heq⟩ := List.mem_map.mp hx'
    obtain ⟨k, _, _, hk3⟩ := runEntriesFrom_shape b items 1 e he
    obtain ⟨r', hr', hg, k', _, _, hk3'⟩ :=
      flatRuns_shape rest (by simp only [runsWellFormed]; exact hwf.2) e' he'
    rw [hk3] at heq
    rw [hk3'] at heq
    have hbe := (idOf_inj hg hwf.1.1 heq).1
    exact hnd.1 (hbe ▸ List.mem_map_of_mem (fun r => baseOf r.1) hr')

/-- Entries generated by earlier runs, whose timestamp bases differ from
the current run's base. -/
def FromOtherRuns (b : Str × Str) (prev : List HistoryEntry) : Prop :=
  ∀ e ∈ prev, ∃ b' : Str × Str, goodBase b' = true ∧ baseOf b' ≠ baseOf b ∧
    ∃ k : Nat, e.id = idOf (baseOf b') k

lemma not_prefix_of_other {b b' : Str × Str} (hb : goodBase b = true)
    (hb' : goodBase b' = true) (hne : baseOf b' ≠ baseOf b) (k : Nat) :
    (baseOf b ++ ['_']).isPrefixOf (idOf (baseOf b') k) = false := by
  obtain ⟨hb1, hb2, hb3, hb4⟩ := goodBase_facts hb
  obtain ⟨hc1, hc2, hc3, hc4⟩ := goodBase_facts hb'
  rw [Bool.eq_false_iff]
  intro htrue
  have hpre := List.isPrefixOf_iff_prefix.mp htrue
  have e1 : baseOf b ++ ['_'] = b.1 ++ '_' :: (b.2 ++ ['_']) := by
    unfold baseOf; simp
  have e2 : idOf (baseOf b') k = b'.1 ++ '_' :: (b'.2 ++ '_' :: fmt4 k) := by
    unfold idOf baseOf; simp
  rw [e1, e2] at hpre
  obtain ⟨h1, hpre2⟩ := pre_us_eq _ _ _ _ (allDigits_no_us hb2) (allDigits_no_us hc2) hpre
  have e3 : b.2 ++ ['_'] = b.2 ++ '_' :: ([] : Str) := rfl
  rw [e3] at hpre2
  obtain ⟨h2, _⟩ := pre_us_eq _ _ _ _ (allDigits_no_us hb4) (allDigits_no_us hc4) hpre2
  refine hne ?_
  unfold baseOf
  rw [h1, h2]

lemma fold_unmatched (pre : Str) :
    ∀ (l : List HistoryEntry) (a : Int), (∀ e ∈ l, pre.isPrefixOf e.id = false) →
      l.foldl (seqStep pre) a = a := by
  intro l
  induction l with
  | nil => intro a _; rfl
  | cons e l ih =>
    intro a h
    simp only [List.foldl_cons]
    rw [show seqStep pre a e = a by
      rw [seqStep_eq, if_neg (by
        rw [h e (List.mem_cons_self _ _)]; exact Bool.false_ne_true)]]
    exact ih a fun e' he' => h e' (List.mem_cons_of_mem e he')

lemma parsedSeqOf_runEntry {b : Str × Str} (hb : goodBase b = true) {e : HistoryEntry}
    {k : Nat} (hid : e.id = idOf (baseOf b) k) (hk : k ≤ 2147483647) :
    parsedSeqOf e = some (k : Int) := by
  unfold parsedSeqOf
  rw [hid, splitUS_idOf hb]
  exact parseI32_fmt4 hk

lemma isPrefixOf_idOf {b : Str × Str} (k : Nat) :
    (baseOf b ++ ['_']).isPrefixOf (idOf (baseOf b) k) = true := by
  rw [List.isPrefixOf_iff_prefix]
  exact ⟨fmt4 k, by unfold idOf; simp⟩

lemma fold_runEntriesFrom {b : Str × Str} (hb : goodBase b = true) :
    ∀ (items : List (Str × Str)) (k : Nat) (a : Int),
      k + items.length ≤ 2147483647 →
      (runEntriesFrom b k items).foldl (seqStep (baseOf b ++ ['_'])) a =
        if items.isEmpty then a else max a ((k + items.length : Nat) : Int) := by
  intro items
  induction items with
  | nil => intro k a _; rfl
  | cons it rest ih =>
    intro k a hbound
    simp only [runEntriesFrom, List.foldl_cons, List.isEmpty_cons, if_neg
      Bool.false_ne_true]
    have hstep :
        seqStep (baseOf b ++ ['_']) a ⟨idOf (baseOf b) k, it.1, rustTrim it.2, []⟩ =
          max a ((k : Int) + 1) := by
      rw [seqStep_eq, if_pos (isPrefixOf_idOf k),
        parsedSeqOf_runEntry hb rfl (by simp only [List.length_cons] at hbound; omega)]
    rw [hstep, ih (k + 1) _ (by simp only [List.length_cons] at hbound; omega)]
    rcases rest with _ | ⟨it2, rest2⟩
    · simp only [List.isEmpty_nil, if_pos rfl, List.length_cons, List.length_nil]
      rw [show k + (0 + 1) = k + 1 by omega]
      norm_cast
    · simp only [List.isEmpty_cons, if_neg Bool.false_ne_true]
      have h1 : max ((k : Int) + 1) ((k + 1 + (it2 :: rest2).length : Nat) : Int) =
          ((k + 1 + (it2 :: rest2).length : Nat) : Int) :=
        max_eq_right (by push_cast; omega)
      rw [max_assoc, h1, show k + 1 + (it2 :: rest2).length =
        k + (it :: it2 :: rest2).length by simp only [List.length_cons]; omega]

lemma fmtI32w4_natCast (n : Nat) : fmtI32w4 ((n : Nat) : Int) = fmt4 n := by
  unfold fmtI32w4
  rw [if_neg (by omega)]
  simp

lemma nextEntryId_eval {b : Str × Str} (hb : goodBase b = true)
    {prev : List HistoryEntry} (hprev : FromOtherRuns b prev)
    (items : List (Str × Str)) (d1 d2 : Nat)
    (hd2 : items ≠ [] → d2 < items.length)
    (hbound : items.length + 1 ≤ 2147483647) :
    nextEntryId (baseOf b) (prev.drop d1 ++ (runEntriesFrom b 1 items).drop d2) =
      idOf (baseOf b) (items.length + 1) := by
  simp only [nextEntryId]
  rw [List.foldl_append]
  rw [fold_unmatched _ (prev.drop d1) 1 (fun e he => by
    obtain ⟨b', hg, hne, k, hk⟩ := hprev e (List.mem_of_mem_drop he)
    rw [hk]
    exact not_prefix_of_other hb hg hne k)]
  rw [runEntriesFrom_drop]
  rcases items with _ | ⟨it, rest⟩
  · simp only [List.drop_nil, runEntriesFrom, List.foldl_nil, List.length_nil]
    rw [show fmtI32w4 1 = fmt4 1 from rfl]
    rfl
  · have hd2' : d2 < (it :: rest).length := hd2 (by simp)
    have hlen : ((it :: rest).drop d2).length = (it :: rest).length - d2 :=
      List.length_drop ..
    rcases hdrop : (it :: rest).drop d2 with _ | ⟨x, xs⟩
    · rw [hdrop] at hlen
      simp only [List.length_nil] at hlen
      omega
    · have hxl : (x :: xs).length = (it :: rest).length - d2 := by
        rw [← hdrop]
        exact hlen
      have hb2 : 1 + d2 + (x :: xs).length ≤ 2147483647 := by
        rw [hxl]
        omega
      rw [fold_runEntriesFrom hb (x :: xs) (1 + d2) 1 hb2]
      rw [if_neg (by rw [List.isEmpty_cons]; exact Bool.false_ne_true)]
      have harg : 1 + d2 + (x :: xs).length = (it :: rest).length + 1 := by
        rw [hxl]
        omega
      rw [harg]
      rw [max_eq_right (by push_cast; omega)]
      rw [fmtI32w4_natCast]
      rfl

lemma archInsert_flatten_some :
    ∀ (arc : List (Str × List HistoryEntry)) (k : Str) (v newv : List HistoryEntry),
      archLookup arc k = some v →
      ∃ A B, (arc.map Prod.snd).flatten = A ++ (v ++ B) ∧
        ((archInsert arc k newv).map Prod.snd).flatten = A ++ (newv ++ B) := by
  intro arc
  induction arc with
  | nil => intro k v newv h; exact absurd h (by simp [archLookup])
  | cons kv rest ih =>
    intro k v newv h
    rcases kv with ⟨k0, v0⟩
    unfold archLookup at h
    by_cases h0 : k0 = k
    · rw [if_pos h0] at h
      injection h with h'
      refine ⟨[], (rest.map Prod.snd).flatten, ?_, ?_⟩
      · simp [h']
      · unfold archInsert
        rw [if_pos h0]
        simp
    · rw [if_neg h0] at h
      obtain ⟨A, B, h1, h2⟩ := ih k v newv h
      refine ⟨v0 ++ A, B, ?_, ?_⟩
      · simp only [List.map_cons, List.flatten_cons, h1, List.append_assoc]
      · unfold archInsert
        rw [if_neg h0]
        simp only [List.map_cons, List.flatten_cons, h2, List.append_assoc]

lemma archInsert_flatten_none :
    ∀ (arc : List (Str × List HistoryEntry)) (k : Str) (newv : List HistoryEntry),
      archLookup arc k = none →
      ((archInsert arc k newv).map Prod.snd).flatten =
        (arc.map Prod.snd).flatten ++ newv := by
  intro arc
  induction arc with
  | nil => intro k newv _; simp [archInsert]
  | cons kv rest ih =>
    intro k newv h
    rcases kv with ⟨k0, v0⟩
    unfold archLookup at h
    by_cases h0 : k0 = k
    · rw [if_pos h0] at h
      exact absurd h (by simp)
    · rw [if_neg h0] at h
      unfold archInsert
      rw [if_neg h0]
      simp only [List.map_cons, List.flatten_cons, ih k newv h, List.append_assoc]

lemma perm_of_multiset {α : Type} {l l' : List α}
    (h : (l : Multiset α) = (l' : Multiset α)) : List.Perm l l' :=
  Multiset.coe_eq_coe.mp h

lemma append_step {maxA : Nat} (hmax : 1 ≤ maxA)
    {b : Str × Str} (hb : goodBase b = true)
    {prev : List HistoryEntry} (hprev : FromOtherRuns b prev)
    (items : List (Str × Str)) (ts p : Str)
    (hp : (rustTrim p).isEmpty = false)
    {st : HistoryState}
    (hinv : StoreInv maxA (prev ++ runEntriesFrom b 1 items) st)
    (hnd : ((prev ++ runEntriesFrom b 1 (items ++ [(ts, p)])).map
      HistoryEntry.id).Nodup)
    (hbound : items.length + 1 ≤ 2147483647) :
    ∃ st', appendHistory maxA b.1 b.2 ts p st =
        .ok (st', ⟨idOf (baseOf b) (items.length + 1), ts, rustTrim p, []⟩) ∧
      StoreInv maxA (prev ++ runEntriesFrom b 1 (items ++ [(ts, p)])) st' := by
  have hes' : prev ++ runEntriesFrom b 1 (items ++ [(ts, p)]) =
      (prev ++ runEntriesFrom b 1 items) ++
        [⟨idOf (baseOf b) (items.length + 1), ts, rustTrim p, []⟩] := by
    rw [runEntriesFrom_append]
    simp only [runEntriesFrom]
    rw [show 1 + items.length = items.length + 1 by omega, List.append_assoc]
  set es := prev ++ runEntriesFrom b 1 items with hes
  set e : HistoryEntry := ⟨idOf (baseOf b) (items.length + 1), ts, rustTrim p, []⟩
    with he
  set n := es.length with hn
  set k := n - min n maxA with hk
  have hid : nextEntryId (baseOf b) st.active = idOf (baseOf b) (items.length + 1) := by
    rw [hinv.1, List.drop_append_eq_append_drop]
    refine nextEntryId_eval hb hprev items _ _ ?_ (by omega)
    intro hne
    have h1 : 1 ≤ items.length := by
      rcases items with _ | _
      · exact absurd rfl hne
      · simp
    have hlen_es : n = prev.length + items.length := by
      rw [hn, hes, List.length_append, runEntriesFrom_length]
    have h2 : 1 ≤ min n maxA := by
      rcases Nat.le_total n maxA with h | h
      · rw [Nat.min_eq_left h]; omega
      · rw [Nat.min_eq_right h]; omega
    omega
  have hnd_es : (es.map HistoryEntry.id).Nodup ∧
      e.id ∉ es.map HistoryEntry.id := by
    rw [hes'] at hnd
    rw [List.map_append, List.nodup_append] at hnd
    exact ⟨hnd.1, fun hmem => hnd.2.2 hmem (by simp)⟩
  have hnodAA : ((archAll st ++ st.active).map HistoryEntry.id).Nodup :=
    ((hinv.2.map HistoryEntry.id).nodup_iff).mpr hnd_es.1
  have hcoe : (↑(archAll st) : Multiset HistoryEntry) + ↑st.active = ↑es := by
    rw [← Multiset.coe_add]
    exact Multiset.coe_eq_coe.mpr hinv.2
  have hbase : b.1 ++ '_' :: b.2 = baseOf b := rfl
  unfold appendHistory
  rw [if_neg (by rw [hp]; exact Bool.false_ne_true), hbase, hid, ← he]
  rcases Nat.lt_or_ge n maxA with hcase | hcase
  · -- no rotation
    have hk0 : k = 0 := by
      rw [hk, Nat.min_eq_left (by omega)]
      omega
    have hactive : st.active = es := by
      rw [hinv.1, ← hn, ← hk, hk0, List.drop_zero]
    have hrot : rotateIfNeeded maxA b.1 (st.active ++ [e]) st.archives =
        (st.active ++ [e], st.archives) := by
      unfold rotateIfNeeded
      rw [if_pos (by
        rw [hactive, List.length_append, ← hn]
        simp only [List.length_singleton]
        omega)]
    refine ⟨⟨st.active ++ [e], st.archives⟩, by rw [hrot], ?_, ?_⟩
    · show st.active ++ [e] = _
      rw [hes', hactive]
      have hlen2 : (es ++ [e]).length = n + 1 := by
        rw [List.length_append, ← hn]
        simp
      rw [hlen2, Nat.min_eq_left (by omega)]
      simp
    · show List.Perm (archAll ⟨st.active ++ [e], st.archives⟩ ++ (st.active ++ [e]))
        (prev ++ runEntriesFrom b 1 (items ++ [(ts, p)]))
      rw [hes']
      have hAA : archAll ⟨st.active ++ [e], st.archives⟩ = archAll st := rfl
      rw [hAA, ← List.append_assoc]
      exact hinv.2.append_right [e]
  · -- rotation of exactly one entry
    have hlenact : st.active.length = maxA := by
      rw [hinv.1, List.length_drop, ← hn, ← hk, hk, Nat.min_eq_right hcase]
      omega
    rcases hact : st.active with _ | ⟨a0, tail⟩
    · rw [hact] at hlenact
      simp only [List.length_nil] at hlenact
      omega
    have htail : tail.length + 1 = maxA := by
      rw [hact] at hlenact
      simpa using hlenact
    have hrot : rotateIfNeeded maxA b.1 ((a0 :: tail) ++ [e]) st.archives =
        (tail ++ [e],
         rotateStep st.archives (dateKeyFromEntry b.1 a0, [a0])) := by
      unfold rotateIfNeeded
      have hL : ((a0 :: tail) ++ [e]).length = maxA + 1 := by
        rw [List.length_append]
        simp only [List.length_cons, List.length_singleton, List.length_nil]
        omega
      rw [if_neg (by rw [hL]; omega), hL, show maxA + 1 - maxA = 1 by omega]
      rfl
    have hdk : es.drop k = a0 :: tail := by rw [← hinv.1, hact]
    have htail2 : es.drop (k + 1) = tail := by
      have h1 : (es.drop k).drop 1 = tail := by rw [hdk]; rfl
      rwa [List.drop_drop] at h1
    have hk_le : k + 1 ≤ n := by
      rw [hk, Nat.min_eq_right hcase]
      omega
    refine ⟨⟨tail ++ [e], rotateStep st.archives (dateKeyFromEntry b.1 a0, [a0])⟩,
      by rw [hrot], ?_, ?_⟩
    · show tail ++ [e] = _
      rw [hes']
      have hlen2 : (es ++ [e]).length = n + 1 := by
        rw [List.length_append, ← hn]
        simp
      rw [hlen2, Nat.min_eq_right (by omega),
        show n + 1 - maxA = k + 1 by rw [hk, Nat.min_eq_right hcase]; omega]
      rw [List.drop_append_eq_append_drop, htail2,
        show k + 1 - es.length = 0 by rw [← hn]; omega, List.drop_zero]
    · show List.Perm
        (archAll ⟨tail ++ [e],
            rotateStep st.archives (dateKeyFromEntry b.1 a0, [a0])⟩ ++
          (tail ++ [e]))
        (prev ++ runEntriesFrom b 1 (items ++ [(ts, p)]))
      rw [hes']
      have hAA : archAll ⟨tail ++ [e],
          rotateStep st.archives (dateKeyFromEntry b.1 a0, [a0])⟩ =
          ((archInsert st.archives (dateKeyFromEntry b.1 a0)
            (mergeById
              ((archLookup st.archives (dateKeyFromEntry b.1 a0)).getD [])
              [a0])).map Prod.snd).flatten := rfl
      have hactcoe : (↑st.active : Multiset HistoryEntry) = ↑[a0] + ↑tail := by
        rw [hact, show a0 :: tail = [a0] ++ tail from rfl, ← Multiset.coe_add]
      have ha0act : a0.id ∈ st.active.map HistoryEntry.id := by
        rw [hact]
        exact List.mem_map_of_mem _ (List.mem_cons_self _ _)
      rcases hlook : archLookup st.archives (dateKeyFromEntry b.1 a0) with _ | v
      · -- fresh archive file
        have hmerged : mergeById
            ((archLookup st.archives (dateKeyFromEntry b.1 a0)).getD []) [a0] =
            [a0] := by
          rw [hlook]
          rfl
        apply perm_of_multiset
        rw [hAA, hmerged, archInsert_flatten_none _ _ _ hlook]
        have hfl : ((st.archives.map Prod.snd).flatten : List HistoryEntry) =
            archAll st := rfl
        rw [hfl]
        simp only [← Multiset.coe_add]
        rw [hactcoe] at hcoe
        rw [← hcoe]
        abel
      · -- merge into an existing archive file
        obtain ⟨A, B, hAB1, hAB2⟩ :=
          archInsert_flatten_some st.archives (dateKeyFromEntry b.1 a0) v
            (mergeById ((archLookup st.archives (dateKeyFromEntry b.1 a0)).getD [])
              [a0]) hlook
        have hex : (archLookup st.archives (dateKeyFromEntry b.1 a0)).getD [] = v := by
          rw [hlook]
          rfl
        have hAAeq : archAll st = A ++ (v ++ B) := hAB1
        have hvsub : (v.map HistoryEntry.id).Sublist
            ((archAll st ++ st.active).map HistoryEntry.id) := by
          refine List.Sublist.map _ ?_
      
        
          have h1 : v.Sublist (A ++ (v ++ B)) :=
            ((List.sublist_append_left v B).trans
              (List.sublist_append_right A (v ++ B)))
          rw [← hAAeq] at h1
          exact h1.trans (List.sublist_append_left _ _)
        have hnodv : (v.map HistoryEntry.id).Nodup := hnodAA.sublist hvsub
        have ha0notv : a0.id ∉ v.map HistoryEntry.id := by
          intro hmem
          rw [List.map_append, List.nodup_append] at hnodAA
          refine hnodAA.2.2 ?_ ha0act
          have : a0.id ∈ (A ++ (v ++ B)).map HistoryEntry.id := by
            rw [List.map_append, List.map_append]
            exact List.mem_append.mpr (Or.inr (List.mem_append.mpr (Or.inl hmem)))
          rw [← hAAeq] at this
          exact this
        have hmerge : List.Perm
            (mergeById ((archLookup st.archives (dateKeyFromEntry b.1 a0)).getD [])
              [a0]) (v ++ [a0]) := by
          rw [hex]
          have hnd2 : (((v ++ [a0]) ++ []).map HistoryEntry.id).Nodup := by
            rw [List.append_nil, List.map_append, List.nodup_append]
            refine ⟨hnodv, List.nodup_singleton _, ?_⟩
            intro x hx hx'
            rw [List.mem_singleton.mp hx'] at hx
            exact ha0notv hx
          have hperm := foldl_insert_perm (v ++ [a0]) [] hnd2
          rw [List.append_nil] at hperm
          exact hperm
        apply perm_of_multiset
        rw [hAA, hAB2]
        have hmcoe : (↑(mergeById
            ((archLookup st.archives (dateKeyFromEntry b.1 a0)).getD []) [a0]) :
            Multiset HistoryEntry) = ↑v + ↑[a0] := by
          rw [Multiset.coe_eq_coe.mpr hmerge, ← Multiset.coe_add]
        have hAcoe : (↑(archAll st) : Multiset HistoryEntry) = ↑A + (↑v + ↑B) := by
          rw [hAAeq, ← Multiset.coe_add, ← Multiset.coe_add]
        simp only [← Multiset.coe_add]
        rw [hmcoe]
        rw [hactcoe, hAcoe] at hcoe
        rw [← hcoe]
        abel
lemma flatRuns_append :
    ∀ xs ys : List ((Str × Str) × List (Str × Str)),
      flatRuns (xs ++ ys) = flatRuns xs ++ flatRuns ys := by
  intro xs
  induction xs with
  | nil => intro ys; rfl
  | cons r rest ih =>
    intro ys
    rcases r with ⟨b, items⟩
    simp only [List.cons_append, flatRuns]
    rw [show rest.append ys = rest ++ ys from rfl, ih, List.append_assoc]

lemma run_appends_inv {maxA : Nat} (hmax : 1 ≤ maxA)
    {b : Str × Str} (hb : goodBase b = true)
    {prev : List HistoryEntry} (hprev : FromOtherRuns b prev) :
    ∀ (todo done : List (Str × Str)),
      (∀ it ∈ todo, (rustTrim it.2).isEmpty = false) →
      ((prev ++ runEntriesFrom b 1 (done ++ todo)).map HistoryEntry.id).Nodup →
      (done ++ todo).length ≤ 2147483646 →
      ∀ st : HistoryState, StoreInv maxA (prev ++ runEntriesFrom b 1 done) st →
      ∃ st', runAppends maxA b todo st = .ok st' ∧
        StoreInv maxA (prev ++ runEntriesFrom b 1 (done ++ todo)) st' := by
  intro todo
  induction todo with
  | nil =>
    intro done _ _ _ st hinv
    exact ⟨st, rfl, by rwa [List.append_nil]⟩
  | cons it rest ih =>
    rcases it with ⟨ts, p⟩
    intro done hall hnd hlen st hinv
    have hsplit : done ++ (ts, p) :: rest = (done ++ [(ts, p)]) ++ rest := by
      simp
    have hnd1 : ((prev ++ runEntriesFrom b 1 (done ++ [(ts, p)])).map
        HistoryEntry.id).Nodup := by
      refine hnd.sublist (List.Sublist.map _ ?_)
      rw [hsplit, runEntriesFrom_append b (done ++ [(ts, p)]) rest,
        ← List.append_assoc]
      exact List.sublist_append_left _ _
    have hbound : done.length + 1 ≤ 2147483647 := by
      rw [List.length_append] at hlen
      omega
    obtain ⟨st', happ, hinv'⟩ := append_step hmax hb hprev done ts p
      (hall _ (List.mem_cons_self _ _)) hinv hnd1 hbound
    obtain ⟨st'', hrun, hinv''⟩ := ih (done ++ [(ts, p)])
      (fun x hx => hall x (List.mem_cons_of_mem _ hx))
      (by rw [← hsplit]; exact hnd)
      (by rw [← hsplit]; exact hlen)
      st' hinv'
    refine ⟨st'', ?_, ?_⟩
    · show runAppends maxA b ((ts, p) :: rest) st = .ok st''
      simp only [runAppends, happ]
      exact hrun
    · rw [hsplit]
      exact hinv''

lemma runs_appends_inv {maxA : Nat} (hmax : 1 ≤ maxA) :
    ∀ (todo doneRs : List ((Str × Str) × List (Str × Str))),
      runsWellFormed (doneRs ++ todo) = true →
      ((doneRs ++ todo).map fun r => baseOf r.1).Nodup →
      (∀ r ∈ todo, r.2.length ≤ 2147483646) →
      ∀ st : HistoryState, StoreInv maxA (flatRuns doneRs) st →
      ∃ st', runsAppends maxA todo st = .ok st' ∧
        StoreInv maxA (flatRuns (doneRs ++ todo)) st' := by
  intro todo
  induction todo with
  | nil =>
    intro doneRs _ _ _ st hinv
    exact ⟨st, rfl, by rwa [List.append_nil]⟩
  | cons r rest ih =>
    rcases r with ⟨b, items⟩
    intro doneRs hwf hnd hlenR st hinv
    have hsplit : doneRs ++ (b, items) :: rest = (doneRs ++ [(b, items)]) ++ rest := by
      simp
    have hwfPt : ∀ x ∈ doneRs ++ (b, items) :: rest,
        (goodBase x.1 && x.2.all fun it => !(rustTrim it.2).isEmpty) = true :=
      List.all_eq_true.mp hwf
    have hb : goodBase b = true := by
      have h := hwfPt (b, items) (List.mem_append.mpr
        (Or.inr (List.mem_cons_self _ _)))
      rw [Bool.and_eq_true] at h
      exact h.1
    have hwfDone : runsWellFormed doneRs = true :=
      List.all_eq_true.mpr fun x hx =>
        hwfPt x (List.mem_append.mpr (Or.inl hx))
    have hndSplit := hnd
    rw [List.map_append, List.nodup_append] at hndSplit
    have hprev : FromOtherRuns b (flatRuns doneRs) := by
      intro e he
      obtain ⟨r', hr', hg, k, _, _, hk3⟩ := flatRuns_shape doneRs hwfDone e he
      refine ⟨r'.1, hg, ?_, k, hk3⟩
      intro heq
      refine hndSplit.2.2 (List.mem_map_of_mem _ hr') ?_
      rw [heq]
      exact List.mem_map_of_mem _ (List.mem_cons_self _ _)
    have hwf1 : runsWellFormed (doneRs ++ [(b, items)]) = true :=
      List.all_eq_true.mpr fun x hx => by
        rcases List.mem_append.mp hx with hx | hx
        · exact hwfPt x (List.mem_append.mpr (Or.inl hx))
        · rw [List.mem_singleton.mp hx]
          exact hwfPt (b, items) (List.mem_append.mpr
            (Or.inr (List.mem_cons_self _ _)))
    have hnd1 : ((doneRs ++ [(b, items)]).map fun r => baseOf r.1).Nodup := by
      refine hnd.sublist (List.Sublist.map _ ?_)
      rw [hsplit]
      exact List.sublist_append_left _ _
    have hflat1 : flatRuns (doneRs ++ [(b, items)]) =
        flatRuns doneRs ++ runEntriesFrom b 1 items := by
      rw [flatRuns_append]
      simp [flatRuns]
    have hndIds : ((flatRuns doneRs ++ runEntriesFrom b 1 items).map
        HistoryEntry.id).Nodup := by
      rw [← hflat1]
      exact flat_ids_nodup _ hwf1 hnd1
    have hallP : ∀ it ∈ items, (rustTrim it.2).isEmpty = false := by
      intro it hit
      have h := hwfPt (b, items) (List.mem_append.mpr
        (Or.inr (List.mem_cons_self _ _)))
      rw [Bool.and_eq_true] at h
      have h2 := List.all_eq_true.mp h.2 it hit
      simpa using h2
    obtain ⟨st', hrun, hinv'⟩ := run_appends_inv hmax hb hprev items []
      hallP hndIds
      (by
        have := hlenR (b, items) (List.mem_cons_self _ _)
        simpa using this)
      st (by rwa [show runEntriesFrom b 1 [] = [] from rfl, List.append_nil])
    obtain ⟨st'', hruns, hinv''⟩ := ih (doneRs ++ [(b, items)])
      (by rwa [← hsplit]) (by rwa [← hsplit])
      (fun x hx => hlenR x (List.mem_cons_of_mem _ hx))
      st' (by rwa [hflat1])
    refine ⟨st'', ?_, ?_⟩
    · show runsAppends maxA ((b, items) :: rest) st = .ok st''
      simp only [runsAppends, hrun]
      exact hruns
    · rw [hsplit]
      exact hinv''
/-- **C1.** Starting from an empty history store with active-entry cap
`maxA ≥ 1`, after `N = maxA + K` successful appends with non-blank prompts
(`K ≥ 1`, the appends grouped into runs of equal timestamp base, with the
bases pairwise distinct as a monotone clock produces), exactly `K` entries
have been moved out of the active log into archive files, the active log
holds exactly `maxA` entries, and the union of the ids stored in the
archives and in the active log equals the set of all `N` generated ids
(indeed without duplicates). -/
theorem c1_rotation_accounting (maxA K : Nat) (hmax : 1 ≤ maxA) (hK : 1 ≤ K)
    (runs : List ((Str × Str) × List (Str × Str)))
    (hwf : runsWellFormed runs = true)
    (hnd : (runs.map fun r => baseOf r.1).Nodup)
    (hlenR : ∀ r ∈ runs, r.2.length ≤ 2147483646)
    (hN : (flatRuns runs).length = maxA + K) :
    ∃ st, runsAppends maxA runs ⟨[], []⟩ = .ok st ∧
      archivedCount st = K ∧
      st.active.length = maxA ∧
      (∀ x, (x ∈ (archAll st).map HistoryEntry.id ∨
          x ∈ st.active.map HistoryEntry.id) ↔
        x ∈ (flatRuns runs).map HistoryEntry.id) ∧
      ((archAll st ++ st.active).map HistoryEntry.id).Nodup := by
  obtain ⟨st, hrun, hinv⟩ := runs_appends_inv hmax runs [] hwf hnd hlenR
    ⟨[], []⟩ ⟨List.drop_nil.symm, List.Perm.nil⟩
  rw [List.nil_append] at hinv
  have hperm : List.Perm (archAll st ++ st.active) (flatRuns runs) := hinv.2
  have hact : st.active.length = maxA := by
    have h1 := hinv.1
    have : st.active.length = (flatRuns runs).length -
        ((flatRuns runs).length - min (flatRuns runs).length maxA) := by
      rw [h1, List.length_drop]
    rw [this, hN, Nat.min_eq_right (by omega)]
    omega
  have hlens : (archAll st).length + st.active.length = maxA + K := by
    have h := hperm.length_eq
    rw [List.length_append, hN] at h
    exact h
  refine ⟨st, hrun, ?_, hact, ?_, ?_⟩
  · show (archAll st).length = K
    omega
  · intro x
    rw [← List.mem_append, ← List.map_append]
    exact (hperm.map HistoryEntry.id).mem_iff
  · exact ((hperm.map HistoryEntry.id).nodup_iff).mpr
      (flat_ids_nodup runs hwf hnd)

theorem c1_rotation_witness :
    ∃ st, runsAppends 1
        [((['1'], ['1']), [(['t'], ['a'])]), ((['1'], ['2']), [(['t'], ['b'])])]
        ⟨[], []⟩ = .ok st ∧
      archivedCount st = 1 ∧
      st.active.length = 1 ∧
      (∀ x, (x ∈ (archAll st).map HistoryEntry.id ∨
          x ∈ st.active.map HistoryEntry.id) ↔
        x ∈ (flatRuns [((['1'], ['1']), [(['t'], ['a'])]),
          ((['1'], ['2']), [(['t'], ['b'])])]).map HistoryEntry.id) ∧
      ((archAll st ++ st.active).map HistoryEntry.id).Nodup :=
  c1_rotation_accounting 1 1 (by decide) (by decide)
    [((['1'], ['1']), [(['t'], ['a'])]), ((['1'], ['2']), [(['t'], ['b'])])]
    (by decide) (by decide) (by decide) (by decide)
/-! ### Configuration normalization and save idempotence (`config_store.rs`) -/

/-- Rust's std `i64` string parse (external to this crate, spec-modelled):
optional sign, decimal digits, range check against `i64` bounds. -/
def parseI64 (s : Str) : Option Int :=
  match s with
  | [] => none
  | c :: rest =>
    if c = '+' then
      (parseNatDigits rest).bind fun n =>
        if n ≤ 9223372036854775807 then some (n : Int) else none
    else if c = '-' then
      (parseNatDigits rest).bind fun n =>
        if n ≤ 9223372036854775808 then some (-(n : Int)) else none
    else
      (parseNatDigits (c :: rest)).bind fun n =>
        if n ≤ 9223372036854775807 then some (n : Int) else none

/-- Rust's std `f64` string parse (external to this crate, spec-modelled on
its plain decimal fragment): optional sign, integer digits, optional
fractional digits.  No theorem depends on which strings it accepts. -/
def parseF64 (s : Str) : Option Rat :=
  match s with
  | [] => none
  | c :: rest =>
    if c = '-' then (parseF64Abs rest).map Neg.neg
    else if c = '+' then parseF64Abs rest
    else parseF64Abs (c :: rest)
where
  /-- Unsigned decimal `digits[.digits]`. -/
  parseF64Abs (s : Str) : Option Rat :=
    match splitChar '.' s with
    | [ip] => (parseNatDigits ip).map fun n => (n : Rat)
    | [ip, fp] =>
      (parseNatDigits ip).bind fun n =>
        (parseNatDigits fp).map fun f =>
          (n : Rat) + (f : Rat) / ((10 : Rat) ^ fp.length)
    | _ => none

/-- Rust `f64 as i64`: truncate toward zero, saturating at the `i64`
bounds. -/
def ratTruncSat (q : Rat) : Int :=
  if q.floor < -9223372036854775808 then -9223372036854775808
  else if 9223372036854775807 < -((-q).floor) then 9223372036854775807
  else if q < 0 then -((-q).floor) else q.floor

/-- `config_store.rs::value_to_f64`: float, else integer cast, else string
parse (the integer-to-float cast is exact on the rational carrier). -/
def valueToF64 : TValue → Option Rat
  | .float q => some q
  | .int n => some (n : Rat)
  | .str s => parseF64 s
  | _ => none

/-- `config_store.rs::value_to_i64`: integer, else float truncation, else
string parse. -/
def valueToI64 : TValue → Option Int
  | .int n => some n
  | .float q => some (ratTruncSat q)
  | .str s => parseI64 s
  | _ => none

/-- `toml::map::Map::insert` on the order-preserving association-list
model: replace the (first) binding in place, else append at the end. -/
def mapInsert : List (Str × TValue) → Str → TValue → List (Str × TValue)
  | [], k, v => [(k, v)]
  | (k', v') :: rest, k, v =>
    if k' = k then (k', v) :: rest else (k', v') :: mapInsert rest k v

/-- `Map::entry(k).or_insert_with(|| v)`: keep the map when the key is
present, append the default binding when absent. -/
def entryOr (m : List (Str × TValue)) (k : Str) (v : TValue) :
    List (Str × TValue) :=
  match tGet m k with
  | some _ => m
  | none => m ++ [(k, v)]

/-- `ensure_app_table_mut` / `ensure_state_table_mut` restricted to the map
update they perform on one key: `entry(k).or_insert_with(Table::new)`
followed by replacing a non-table value with an empty table. -/
def ensureTable (m : List (Str × TValue)) (k : Str) : List (Str × TValue) :=
  match tGet m k with
  | some (.table _) => m
  | some _ => mapInsert m k (.table [])
  | none => m ++ [(k, .table [])]

/-- `ensure_sections_array_mut` likewise: ensure the key holds an array. -/
def ensureArr (m : List (Str × TValue)) (k : Str) : List (Str × TValue) :=
  match tGet m k with
  | some (.arr _) => m
  | some _ => mapInsert m k (.arr [])
  | none => m ++ [(k, .arr [])]

/-- `if !v.is_table() \x7b *v = Value::Table(Map::new()) \x7d` then view as
a table. -/
def tableOf : TValue → List (Str × TValue)
  | .table m => m
  | _ => []

/-- `if !v.is_array() \x7b *v = Value::Array(Vec::new()) \x7d` then view as
an array. -/
def arrOf : TValue → List TValue
  | .arr xs => xs
  | _ => []

/-- `str::contains` for a string pattern. -/
def strContains (pat : Str) : Str → Bool
  | [] => pat.isEmpty
  | c :: rest => pat.isPrefixOf (c :: rest) || strContains pat rest

/-- `config_store.rs::is_top_level_header_line`: the trimmed line is
nonempty, starts with `[`, ends with `]`, and contains no " = ". -/
def isTopLevelHeaderLine (line : Str) : Bool :=
  match rustTrim line with
  | [] => false
  | c :: rest =>
    c = '[' && ((c :: rest).getLast? == some ']') &&
      !strContains (" = ".data) (c :: rest)

/-- `join("\n")`. -/
def joinNl : List Str → Str
  | [] => []
  | [l] => l
  | l :: ls => l ++ '\n' :: joinNl ls

/-- The half-open line range `[start, end)` of the block beginning at the
`i`-th header, ending at the next header or at end of input. -/
def blockSlice (lines : List Str) (hs : List Nat) (i : Nat) : List Str :=
  (lines.drop (hs.getD i 0)).take (hs.getD (i + 1) lines.length - hs.getD i 0)

/-- `config_store.rs::move_app_table_to_top`: split the serialized text
into lines, locate the top-level `[...]` header lines, and move the
`[app]` block (its header line up to the next header) to just after the
pre-header prefix, keeping every other block in order. -/
def moveAppTableToTop (serialized : Str) : Str :=
  let endsNl : Bool := serialized.getLast? == some '\n'
  let lines := splitChar '\n' serialized
  let headerStarts := (List.range lines.length).filter fun i =>
    isTopLevelHeaderLine (lines.getD i [])
  match headerStarts with
  | [] => serialized
  | firstHeader :: _ =>
    match headerStarts.findIdx? fun i =>
        rustTrim (lines.getD i []) = ("[app]".data) with
    | none => serialized
    | some j =>
      if headerStarts.getD j 0 = firstHeader then serialized
      else
        joinNl (lines.take firstHeader ++
          blockSlice lines headerStarts j ++
          ((List.range headerStarts.length).filterMap fun i =>
            if headerStarts.getD i 0 = headerStarts.getD j 0 then none
            else some (blockSlice lines headerStarts i)).flatten) ++
        (if endsNl then ['\n'] else [])
/-- `normalize_doc`, app table, `delimiter` key: insert the default `", "`
when the key is missing or not a string. -/
def appStepDelimiter (a : List (Str × TValue)) : List (Str × TValue) :=
  if ((tGet a ("delimiter".data)).bind asStr).isNone then
    mapInsert a ("delimiter".data) (.str (", ".data))
  else a

/-- `normalize_doc`, app table, `confirm_delete` key. -/
def appStepConfirm (a : List (Str × TValue)) : List (Str × TValue) :=
  if ((tGet a ("confirm_delete".data)).bind asBool).isNone then
    mapInsert a ("confirm_delete".data) (.bool true)
  else a

/-- `normalize_doc`, app table, `copy_debounce_sec` key: always re-insert
the coerced value, defaulting to `2.0` when missing, non-numeric, or
negative. -/
def appStepDebounce (a : List (Str × TValue)) : List (Str × TValue) :=
  mapInsert a ("copy_debounce_sec".data)
    (.float ((((tGet a ("copy_debounce_sec".data)).bind valueToF64).filter
      fun v => decide (0 ≤ v)).getD 2))

/-- `normalize_doc`, app table, `history_server_port` key: always re-insert
the coerced value, defaulting to `3000` outside `1..=65535`. -/
def appStepPort (a : List (Str × TValue)) : List (Str × TValue) :=
  mapInsert a ("history_server_port".data)
    (.int ((((tGet a ("history_server_port".data)).bind valueToI64).filter
      fun v => decide (1 ≤ v ∧ v ≤ 65535)).getD 3000))

/-- `normalize_doc`, app table, `history_confirm_delete` key. -/
def appStepHistConfirm (a : List (Str × TValue)) : List (Str × TValue) :=
  if ((tGet a ("history_confirm_delete".data)).bind asBool).isNone then
    mapInsert a ("history_confirm_delete".data) (.bool true)
  else a

/-- `normalize_doc`, app table, `history_max_entries` key: always re-insert
the coerced value, defaulting to `300` when not positive. -/
def appStepMaxEntries (a : List (Str × TValue)) : List (Str × TValue) :=
  mapInsert a ("history_max_entries".data)
    (.int ((((tGet a ("history_max_entries".data)).bind valueToI64).filter
      fun v => decide (0 < v)).getD 300))

/-- The whole app-table block of `normalize_doc`, in source order. -/
def normApp (a : List (Str × TValue)) : List (Str × TValue) :=
  appStepMaxEntries (appStepHistConfirm (appStepPort
    (appStepDebounce (appStepConfirm (appStepDelimiter a)))))

/-- The item `key` normalization: `value_to_text`, trimmed, empty when the
key is absent. -/
def itemKeyText : Option TValue → Str
  | some v => rustTrim (valueToText v)
  | none => []

/-- The string stored under `k` (used for the already-inserted `key` /
`name` a later default reads back). -/
def storedStr (m : List (Str × TValue)) (k : Str) : Str :=
  ((tGet m k).bind asStr).getD []

/-- `normalize_doc`, item, `key` field. -/
def normItemKey (i : List (Str × TValue)) : List (Str × TValue) :=
  mapInsert i ("key".data) (.str (itemKeyText (tGet i ("key".data))))

/-- `normalize_doc`, item, `label` field: default to the stored key. -/
def normItemLabel (i : List (Str × TValue)) : List (Str × TValue) :=
  mapInsert i ("label".data)
    (.str (((tGet i ("label".data)).bind asStr).getD
      (storedStr i ("key".data))))

/-- `normalize_doc`, item, `allow_free_text` field: default `true`. -/
def normItemAllow (i : List (Str × TValue)) : List (Str × TValue) :=
  mapInsert i ("allow_free_text".data)
    (.bool (((tGet i ("allow_free_text".data)).bind asBool).getD true))

/-- `normalize_doc`, item, `template` field: default the placeholder
pattern. -/
def normItemTemplate (i : List (Str × TValue)) : List (Str × TValue) :=
  mapInsert i ("template".data)
    (.str (((tGet i ("template".data)).bind asStr).getD
      ("\x7bvalue\x7d".data)))

/-- `normalize_doc`, item, `choices` field: normalize and store back as an
array of strings. -/
def normItemChoices (i : List (Str × TValue)) : List (Str × TValue) :=
  mapInsert i ("choices".data)
    (.arr ((normalizeChoicesFromValue (tGet i ("choices".data))).map
      TValue.str))

/-- The whole per-item block of `normalize_doc`, in source order. -/
def normItem (i : List (Str × TValue)) : List (Str × TValue) :=
  normItemChoices (normItemTemplate (normItemAllow
    (normItemLabel (normItemKey i))))

/-- A non-table item value is replaced by an empty table, then its table is
normalized in place. -/
def normItemValue (v : TValue) : TValue := .table (normItem (tableOf v))

/-- `normalize_doc`, section, `name` field: trimmed, `"prompt"` when
missing, not a string, or blank. -/
def sectionNameOf (s : List (Str × TValue)) : Str :=
  match (tGet s ("name".data)).bind asStr with
  | some v => if (rustTrim v).isEmpty then ("prompt".data) else rustTrim v
  | none => ("prompt".data)

/-- `normalize_doc`, section, `name` field. -/
def normSecName (s : List (Str × TValue)) : List (Str × TValue) :=
  mapInsert s ("name".data) (.str (sectionNameOf s))

/-- `normalize_doc`, section, `label` field: default to the stored name. -/
def normSecLabel (s : List (Str × TValue)) : List (Str × TValue) :=
  mapInsert s ("label".data)
    (.str (((tGet s ("label".data)).bind asStr).getD
      (storedStr s ("name".data))))

/-- `normalize_doc`, section, `items` field: ensure an array is present,
then normalize each element in place. -/
def normSecItems (s : List (Str × TValue)) : List (Str × TValue) :=
  mapInsert (entryOr s ("items".data) (.arr [])) ("items".data)
    (.arr ((arrOf ((tGet (entryOr s ("items".data) (.arr []))
      ("items".data)).getD (.arr []))).map normItemValue))

/-- The whole per-section block of `normalize_doc`, in source order. -/
def normSection (s : List (Str × TValue)) : List (Str × TValue) :=
  normSecItems (normSecLabel (normSecName s))

/-- A non-table section value is replaced by an empty table, then
normalized. -/
def normSectionValue (v : TValue) : TValue := .table (normSection (tableOf v))

/-- `reorder_root_tables`: `app`, `sections`, `state` first (those present,
in that order), every other binding after them in unchanged order. -/
def reorderRoot (root : List (Str × TValue)) : List (Str × TValue) :=
  ((["app".data, "sections".data, "state".data] : List Str).filterMap
    fun k => (tGet root k).map fun v => (k, v)) ++
  root.filter fun kv =>
    !(decide (kv.1 = ("app".data)) || decide (kv.1 = ("sections".data)) ||
      decide (kv.1 = ("state".data)))

/-- `normalize_doc`, root, app-table phase: ensure `app` is a table and
normalize it in place. -/
def normRootApp (root : List (Str × TValue)) : List (Str × TValue) :=
  mapInsert (ensureTable root ("app".data)) ("app".data)
    (.table (normApp (tableOf ((tGet (ensureTable root ("app".data))
      ("app".data)).getD (.table [])))))

/-- `normalize_doc`, root, sections phase: ensure `sections` is an array
and normalize each section in place. -/
def normRootSections (root : List (Str × TValue)) : List (Str × TValue) :=
  mapInsert (ensureArr root ("sections".data)) ("sections".data)
    (.arr ((arrOf ((tGet (ensureArr root ("sections".data))
      ("sections".data)).getD (.arr []))).map normSectionValue))

/-- `config_store.rs::normalize_doc`: a non-table document becomes an empty
table; the app table, every section and item, and the state table are
normalized; the root tables are reordered. -/
def normalizeDoc (doc : TValue) : TValue :=
  .table (reorderRoot (ensureTable
    (normRootSections (normRootApp (tableOf doc))) ("state".data)))
lemma tGet_mapInsert_self : ∀ (m : List (Str × TValue)) (k : Str) (v : TValue),
    tGet (mapInsert m k v) k = some v := by
  intro m
  induction m with
  | nil => intro k v; simp [mapInsert, tGet]
  | cons kv rest ih =>
    intro k v
    rcases kv with ⟨k', v'⟩
    by_cases h : k' = k
    · simp [mapInsert, tGet, h]
    · simp only [mapInsert, if_neg h, tGet, if_neg h]
      exact ih k v

lemma tGet_mapInsert_ne : ∀ (m : List (Str × TValue)) (k : Str) (v : TValue)
    (j : Str), j ≠ k → tGet (mapInsert m k v) j = tGet m j := by
  intro m
  induction m with
  | nil =>
    intro k v j hj
    simp only [mapInsert, tGet]
    rw [if_neg fun h => hj h.symm]
  | cons kv rest ih =>
    intro k v j hj
    rcases kv with ⟨k', v'⟩
    by_cases h : k' = k
    · subst h
      simp only [mapInsert, if_pos rfl, tGet]
      rw [if_neg fun h => hj h.symm, if_neg fun h => hj h.symm]
    · simp only [mapInsert, if_neg h, tGet]
      by_cases h2 : k' = j
      · rw [if_pos h2, if_pos h2]
      · rw [if_neg h2, if_neg h2]
        exact ih k v j hj

lemma mapInsert_noop : ∀ (m : List (Str × TValue)) (k : Str) (v : TValue),
    tGet m k = some v → mapInsert m k v = m := by
  intro m
  induction m with
  | nil => intro k v h; cases h
  | cons kv rest ih =>
    intro k v h
    rcases kv with ⟨k', v'⟩
    by_cases h2 : k' = k
    · simp only [tGet, if_pos h2] at h
      injection h with h
      simp [mapInsert, h2, h]
    · simp only [tGet, if_neg h2] at h
      simp only [mapInsert, if_neg h2, ih k v h]

lemma tGet_append : ∀ (m m' : List (Str × TValue)) (j : Str),
    tGet (m ++ m') j =
      match tGet m j with
      | some v => some v
      | none => tGet m' j := by
  intro m
  induction m with
  | nil => intro m' j; rfl
  | cons kv rest ih =>
    intro m' j
    rcases kv with ⟨k', v'⟩
    by_cases h : k' = j
    · simp [tGet, h]
    · simp only [List.cons_append, tGet, if_neg h]
      exact ih m' j

lemma entryOr_present (m : List (Str × TValue)) (k : Str) (v w : TValue)
    (h : tGet m k = some w) : entryOr m k v = m := by
  unfold entryOr
  rw [h]

lemma tGet_entryOr_ne (m : List (Str × TValue)) (k : Str) (v : TValue)
    (j : Str) (hj : j ≠ k) : tGet (entryOr m k v) j = tGet m j := by
  unfold entryOr
  rcases h : tGet m k with _ | w
  · rw [tGet_append]
    rcases h2 : tGet m j with _ | u
    · simp only [tGet]
      rw [if_neg fun h => hj h.symm]
    · rfl
  · rfl

lemma tGet_ensureTable_ne (m : List (Str × TValue)) (k : Str)
    (j : Str) (hj : j ≠ k) : tGet (ensureTable m k) j = tGet m j := by
  unfold ensureTable
  rcases h : tGet m k with _ | w
  · rw [tGet_append]
    rcases h2 : tGet m j with _ | u
    · simp only [tGet]
      rw [if_neg fun h => hj h.symm]
    · rfl
  · cases w <;> first
      | rfl
      | exact tGet_mapInsert_ne m k _ j hj

lemma tGet_ensureArr_ne (m : List (Str × TValue)) (k : Str)
    (j : Str) (hj : j ≠ k) : tGet (ensureArr m k) j = tGet m j := by
  unfold ensureArr
  rcases h : tGet m k with _ | w
  · rw [tGet_append]
    rcases h2 : tGet m j with _ | u
    · simp only [tGet]
      rw [if_neg fun h => hj h.symm]
    · rfl
  · cases w <;> first
      | rfl
      | exact tGet_mapInsert_ne m k _ j hj

lemma ensureTable_get (m : List (Str × TValue)) (k : Str) :
    ∃ t, tGet (ensureTable m k) k = some (.table t) := by
  unfold ensureTable
  rcases h : tGet m k with _ | w
  · refine ⟨[], ?_⟩
    rw [tGet_append, h]
    simp [tGet]
  · cases w <;> first
      | exact ⟨[], tGet_mapInsert_self m k _⟩
      | exact ⟨_, h⟩

lemma ensureArr_get (m : List (Str × TValue)) (k : Str) :
    ∃ xs, tGet (ensureArr m k) k = some (.arr xs) := by
  unfold ensureArr
  rcases h : tGet m k with _ | w
  · refine ⟨[], ?_⟩
    rw [tGet_append, h]
    simp [tGet]
  · cases w <;> first
      | exact ⟨[], tGet_mapInsert_self m k _⟩
      | exact ⟨_, h⟩

lemma ensureTable_noop (m : List (Str × TValue)) (k : Str)
    (t : List (Str × TValue)) (h : tGet m k = some (.table t)) :
    ensureTable m k = m := by
  unfold ensureTable
  rw [h]

lemma ensureArr_noop (m : List (Str × TValue)) (k : Str)
    (xs : List TValue) (h : tGet m k = some (.arr xs)) :
    ensureArr m k = m := by
  unfold ensureArr
  rw [h]
lemma bind_asStr_some {o : Option TValue} {s : Str}
    (h : o.bind asStr = some s) : o = some (.str s) := by
  rcases o with _ | v
  · cases h
  · simp only [Option.some_bind] at h
    cases v <;> simp only [asStr] at h <;> try cases h
    rfl

lemma bind_asBool_some {o : Option TValue} {b : Bool}
    (h : o.bind asBool = some b) : o = some (.bool b) := by
  rcases o with _ | v
  · cases h
  · simp only [Option.some_bind] at h
    cases v <;> simp only [asBool] at h <;> try cases h
    rfl

lemma tGet_appStepDelimiter_ne (a : List (Str × TValue)) (j : Str)
    (hj : j ≠ ("delimiter".data)) :
    tGet (appStepDelimiter a) j = tGet a j := by
  unfold appStepDelimiter
  split
  · exact tGet_mapInsert_ne a _ _ j hj
  · rfl

lemma tGet_appStepConfirm_ne (a : List (Str × TValue)) (j : Str)
    (hj : j ≠ ("confirm_delete".data)) :
    tGet (appStepConfirm a) j = tGet a j := by
  unfold appStepConfirm
  split
  · exact tGet_mapInsert_ne a _ _ j hj
  · rfl

lemma tGet_appStepDebounce_ne (a : List (Str × TValue)) (j : Str)
    (hj : j ≠ ("copy_debounce_sec".data)) :
    tGet (appStepDebounce a) j = tGet a j :=
  tGet_mapInsert_ne a _ _ j hj

lemma tGet_appStepPort_ne (a : List (Str × TValue)) (j : Str)
    (hj : j ≠ ("history_server_port".data)) :
    tGet (appStepPort a) j = tGet a j :=
  tGet_mapInsert_ne a _ _ j hj

lemma tGet_appStepHistConfirm_ne (a : List (Str × TValue)) (j : Str)
    (hj : j ≠ ("history_confirm_delete".data)) :
    tGet (appStepHistConfirm a) j = tGet a j := by
  unfold appStepHistConfirm
  split
  · exact tGet_mapInsert_ne a _ _ j hj
  · rfl

lemma tGet_appStepMaxEntries_ne (a : List (Str × TValue)) (j : Str)
    (hj : j ≠ ("history_max_entries".data)) :
    tGet (appStepMaxEntries a) j = tGet a j :=
  tGet_mapInsert_ne a _ _ j hj

lemma appStepDelimiter_get (a : List (Str × TValue)) :
    ∃ s, tGet (appStepDelimiter a) ("delimiter".data) = some (.str s) := by
  unfold appStepDelimiter
  rcases h : (tGet a ("delimiter".data)).bind asStr with _ | s
  · simp only [h, Option.isNone_none, if_true]
    exact ⟨_, tGet_mapInsert_self a _ _⟩
  · simp only [h, Option.isNone_some, Bool.false_eq_true, if_false]
    exact ⟨s, bind_asStr_some h⟩

lemma appStepConfirm_get (a : List (Str × TValue)) :
    ∃ b, tGet (appStepConfirm a) ("confirm_delete".data) = some (.bool b) := by
  unfold appStepConfirm
  rcases h : (tGet a ("confirm_delete".data)).bind asBool with _ | b
  · simp only [h, Option.isNone_none, if_true]
    exact ⟨_, tGet_mapInsert_self a _ _⟩
  · simp only [h, Option.isNone_some, Bool.false_eq_true, if_false]
    exact ⟨b, bind_asBool_some h⟩

lemma appStepHistConfirm_get (a : List (Str × TValue)) :
    ∃ b, tGet (appStepHistConfirm a) ("history_confirm_delete".data) =
      some (.bool b) := by
  unfold appStepHistConfirm
  rcases h : (tGet a ("history_confirm_delete".data)).bind asBool with _ | b
  · simp only [h, Option.isNone_none, if_true]
    exact ⟨_, tGet_mapInsert_self a _ _⟩
  · simp only [h, Option.isNone_some, Bool.false_eq_true, if_false]
    exact ⟨b, bind_asBool_some h⟩

lemma appStepDebounce_get (a : List (Str × TValue)) :
    ∃ q : Rat, tGet (appStepDebounce a) ("copy_debounce_sec".data) =
      some (.float q) ∧ 0 ≤ q := by
  unfold appStepDebounce
  refine ⟨_, tGet_mapInsert_self a _ _, ?_⟩
  rcases h : (tGet a ("copy_debounce_sec".data)).bind valueToF64 with _ | q
  · simp [Option.filter]
  · simp only [Option.filter]
    by_cases h0 : (0 : Rat) ≤ q
    · rw [if_pos (by simpa using h0)]
      simpa using h0
    · rw [if_neg (by simpa using h0)]
      simp

lemma appStepPort_get (a : List (Str × TValue)) :
    ∃ p : Int, tGet (appStepPort a) ("history_server_port".data) =
      some (.int p) ∧ 1 ≤ p ∧ p ≤ 65535 := by
  unfold appStepPort
  refine ⟨_, tGet_mapInsert_self a _ _, ?_⟩
  rcases h : (tGet a ("history_server_port".data)).bind valueToI64 with _ | p
  · simp [Option.filter]
  · simp only [Option.filter]
    by_cases h0 : 1 ≤ p ∧ p ≤ 65535
    · rw [if_pos (by simpa using h0)]
      simpa using h0
    · rw [if_neg (by simpa using h0)]
      simp

lemma appStepMaxEntries_get (a : List (Str × TValue)) :
    ∃ n : Int, tGet (appStepMaxEntries a) ("history_max_entries".data) =
      some (.int n) ∧ 0 < n := by
  unfold appStepMaxEntries
  refine ⟨_, tGet_mapInsert_self a _ _, ?_⟩
  rcases h : (tGet a ("history_max_entries".data)).bind valueToI64 with _ | n
  · simp [Option.filter]
  · simp only [Option.filter]
    by_cases h0 : (0 : Int) < n
    · rw [if_pos (by simpa using h0)]
      simpa using h0
    · rw [if_neg (by simpa using h0)]
      simp
lemma normApp_get_delimiter (a : List (Str × TValue)) :
    ∃ s, tGet (normApp a) ("delimiter".data) = some (.str s) := by
  obtain ⟨s, h⟩ := appStepDelimiter_get a
  refine ⟨s, ?_⟩
  unfold normApp
  rw [tGet_appStepMaxEntries_ne _ _ (by decide),
    tGet_appStepHistConfirm_ne _ _ (by decide),
    tGet_appStepPort_ne _ _ (by decide),
    tGet_appStepDebounce_ne _ _ (by decide),
    tGet_appStepConfirm_ne _ _ (by decide)]
  exact h

lemma normApp_get_confirm (a : List (Str × TValue)) :
    ∃ b, tGet (normApp a) ("confirm_delete".data) = some (.bool b) := by
  obtain ⟨b, h⟩ := appStepConfirm_get (appStepDelimiter a)
  refine ⟨b, ?_⟩
  unfold normApp
  rw [tGet_appStepMaxEntries_ne _ _ (by decide),
    tGet_appStepHistConfirm_ne _ _ (by decide),
    tGet_appStepPort_ne _ _ (by decide),
    tGet_appStepDebounce_ne _ _ (by decide)]
  exact h

lemma normApp_get_debounce (a : List (Str × TValue)) :
    ∃ q : Rat, tGet (normApp a) ("copy_debounce_sec".data) =
      some (.float q) ∧ 0 ≤ q := by
  obtain ⟨q, h, h0⟩ := appStepDebounce_get (appStepConfirm (appStepDelimiter a))
  refine ⟨q, ?_, h0⟩
  unfold normApp
  rw [tGet_appStepMaxEntries_ne _ _ (by decide),
    tGet_appStepHistConfirm_ne _ _ (by decide),
    tGet_appStepPort_ne _ _ (by decide)]
  exact h

lemma normApp_get_port (a : List (Str × TValue)) :
    ∃ p : Int, tGet (normApp a) ("history_server_port".data) =
      some (.int p) ∧ 1 ≤ p ∧ p ≤ 65535 := by
  obtain ⟨p, h, h0⟩ :=
    appStepPort_get (appStepDebounce (appStepConfirm (appStepDelimiter a)))
  refine ⟨p, ?_, h0⟩
  unfold normApp
  rw [tGet_appStepMaxEntries_ne _ _ (by decide),
    tGet_appStepHistConfirm_ne _ _ (by decide)]
  exact h

lemma normApp_get_histconfirm (a : List (Str × TValue)) :
    ∃ b, tGet (normApp a) ("history_confirm_delete".data) =
      some (.bool b) := by
  obtain ⟨b, h⟩ := appStepHistConfirm_get
    (appStepPort (appStepDebounce (appStepConfirm (appStepDelimiter a))))
  refine ⟨b, ?_⟩
  unfold normApp
  rw [tGet_appStepMaxEntries_ne _ _ (by decide)]
  exact h

lemma normApp_get_maxentries (a : List (Str × TValue)) :
    ∃ n : Int, tGet (normApp a) ("history_max_entries".data) =
      some (.int n) ∧ 0 < n :=
  appStepMaxEntries_get _

lemma normApp_idem (a : List (Str × TValue)) :
    normApp (normApp a) = normApp a := by
  obtain ⟨s1, h1⟩ := normApp_get_delimiter a
  obtain ⟨b2, h2⟩ := normApp_get_confirm a
  obtain ⟨q3, h3, h3p⟩ := normApp_get_debounce a
  obtain ⟨p4, h4, h4p⟩ := normApp_get_port a
  obtain ⟨b5, h5⟩ := normApp_get_histconfirm a
  obtain ⟨n6, h6, h6p⟩ := normApp_get_maxentries a
  have e1 : appStepDelimiter (normApp a) = normApp a := by
    unfold appStepDelimiter
    simp only [h1, Option.some_bind, asStr, Option.isNone_some,
      Bool.false_eq_true, if_false]
  have e2 : appStepConfirm (normApp a) = normApp a := by
    unfold appStepConfirm
    simp only [h2, Option.some_bind, asBool, Option.isNone_some,
      Bool.false_eq_true, if_false]
  have e3 : appStepDebounce (normApp a) = normApp a := by
    have hf : (((some (TValue.float q3) : Option TValue).bind valueToF64).filter
        fun v => decide (0 ≤ v)).getD 2 = q3 := by
      simp [valueToF64, Option.filter, h3p]
    unfold appStepDebounce
    rw [h3, hf]
    exact mapInsert_noop _ _ _ h3
  have e4 : appStepPort (normApp a) = normApp a := by
    have hf : (((some (TValue.int p4) : Option TValue).bind valueToI64).filter
        fun v => decide (1 ≤ v ∧ v ≤ 65535)).getD 3000 = p4 := by
      simp [valueToI64, Option.filter, h4p.1, h4p.2]
    unfold appStepPort
    rw [h4, hf]
    exact mapInsert_noop _ _ _ h4
  have e5 : appStepHistConfirm (normApp a) = normApp a := by
    unfold appStepHistConfirm
    simp only [h5, Option.some_bind, asBool, Option.isNone_some,
      Bool.false_eq_true, if_false]
  have e6 : appStepMaxEntries (normApp a) = normApp a := by
    have hf : (((some (TValue.int n6) : Option TValue).bind valueToI64).filter
        fun v => decide (0 < v)).getD 300 = n6 := by
      simp [valueToI64, Option.filter, h6p]
    unfold appStepMaxEntries
    rw [h6, hf]
    exact mapInsert_noop _ _ _ h6
  show appStepMaxEntries (appStepHistConfirm (appStepPort (appStepDebounce
    (appStepConfirm (appStepDelimiter (normApp a)))))) = normApp a
  rw [e1, e2, e3, e4, e5, e6]
lemma fold_choices_wf :
    ∀ (l : List TValue) (acc : List Str),
      (∀ x ∈ acc, rustTrim x = x ∧ x.isEmpty = false) → acc.Nodup →
      (∀ x ∈ l.foldl choicesStep acc, rustTrim x = x ∧ x.isEmpty = false) ∧
        (l.foldl choicesStep acc).Nodup := by
  intro l
  induction l with
  | nil => intro acc h1 h2; exact ⟨h1, h2⟩
  | cons it rest ih =>
    intro acc h1 h2
    by_cases hcond : (!(rustTrim (valueToText it)).isEmpty &&
        !(acc.any fun ex => decide (ex = rustTrim (valueToText it)))) = true
    · have hstep : choicesStep acc it = acc ++ [rustTrim (valueToText it)] := by
        unfold choicesStep
        rw [if_pos hcond]
      rw [List.foldl_cons, hstep]
      rw [Bool.and_eq_true, Bool.not_eq_true', Bool.not_eq_true'] at hcond
      refine ih (acc ++ [rustTrim (valueToText it)]) ?_ ?_
      · intro x hx
        rcases List.mem_append.mp hx with hx | hx
        · exact h1 x hx
        · rw [List.mem_singleton.mp hx]
          exact ⟨rustTrim_idem _, hcond.1⟩
      · rw [List.nodup_append]
        refine ⟨h2, List.nodup_singleton _, ?_⟩
        intro x hx hx'
        rw [List.mem_singleton.mp hx'] at hx
        have h3 := hcond.2
        rw [Bool.eq_false_iff] at h3
        refine h3 ?_
        rw [List.any_eq_true]
        exact ⟨_, hx, by simp⟩
    · have hstep : choicesStep acc it = acc := by
        unfold choicesStep
        rw [if_neg hcond]
      rw [List.foldl_cons, hstep]
      exact ih acc h1 h2

lemma fold_choices_self :
    ∀ (cs : List Str) (acc : List Str),
      (∀ c ∈ cs, rustTrim c = c ∧ c.isEmpty = false) → (acc ++ cs).Nodup →
      (cs.map TValue.str).foldl choicesStep acc = acc ++ cs := by
  intro cs
  induction cs with
  | nil => intro acc _ _; simp
  | cons c rest ih =>
    intro acc hall hnd
    have hc := hall c (List.mem_cons_self _ _)
    have hnotin : c ∉ acc := by
      intro hmem
      rw [List.nodup_append] at hnd
      exact hnd.2.2 hmem (List.mem_cons_self _ _)
    have hstep : choicesStep acc (.str c) = acc ++ [c] := by
      unfold choicesStep
      rw [if_pos]
      · rw [show valueToText (.str c) = c from rfl, hc.1]
      · rw [show valueToText (.str c) = c from rfl, hc.1, Bool.and_eq_true,
          Bool.not_eq_true', Bool.not_eq_true']
        refine ⟨hc.2, ?_⟩
        rw [Bool.eq_false_iff]
        intro hany
        rw [List.any_eq_true] at hany
        obtain ⟨x, hx, hxe⟩ := hany
        rw [decide_eq_true_iff] at hxe
        exact hnotin (hxe ▸ hx)
    show (rest.map TValue.str).foldl choicesStep (choicesStep acc (.str c)) =
      acc ++ c :: rest
    rw [hstep, ih (acc ++ [c])
      (fun x hx => hall x (List.mem_cons_of_mem _ hx))
      (by rw [List.append_assoc]; simpa using hnd)]
    simp

lemma normalizeChoicesFromValue_idem (v : Option TValue) :
    normalizeChoicesFromValue
      (some (.arr ((normalizeChoicesFromValue v).map TValue.str))) =
      normalizeChoicesFromValue v := by
  have hno1 : rustTrim NO_SELECTION = NO_SELECTION ∧
      NO_SELECTION.isEmpty = false := by
    constructor <;> rfl
  have hwf0 : (∀ x ∈ (match v with
      | some (TValue.arr items) => items.foldl choicesStep []
      | _ => ([] : List Str)), rustTrim x = x ∧ x.isEmpty = false) ∧
      (match v with
      | some (TValue.arr items) => items.foldl choicesStep []
      | _ => ([] : List Str)).Nodup := by
    rcases v with _ | w
    · exact ⟨fun x hx => absurd hx (List.not_mem_nil x), List.nodup_nil⟩
    · cases w <;>
        first
        | exact ⟨fun x hx => absurd hx (List.not_mem_nil x), List.nodup_nil⟩
        | exact fold_choices_wf _ [] (fun x hx => absurd hx (List.not_mem_nil x))
            List.nodup_nil
  set base := (match v with
    | some (TValue.arr items) => items.foldl choicesStep []
    | _ => ([] : List Str)) with hbase
  have hout : normalizeChoicesFromValue v =
      NO_SELECTION :: base.filter fun c => decide (c ≠ NO_SELECTION) := rfl
  have htail_wf : ∀ c ∈ base.filter fun c => decide (c ≠ NO_SELECTION),
      rustTrim c = c ∧ c.isEmpty = false :=
    fun c hc => hwf0.1 c (List.mem_of_mem_filter hc)
  have htail_nd : (base.filter fun c => decide (c ≠ NO_SELECTION)).Nodup :=
    hwf0.2.filter _
  have hno_tail : NO_SELECTION ∉
      base.filter fun c => decide (c ≠ NO_SELECTION) := by
    intro hmem
    have := List.of_mem_filter hmem
    rw [decide_eq_true_iff] at this
    exact this rfl
  have hfold : (((normalizeChoicesFromValue v).map TValue.str).foldl
      choicesStep []) = normalizeChoicesFromValue v := by
    rw [hout]
    refine fold_choices_self _ [] ?_ ?_
    · intro c hc
      rcases List.mem_cons.mp hc with rfl | hc
      · exact hno1
      · exact htail_wf c hc
    · rw [List.nil_append, List.nodup_cons]
      exact ⟨hno_tail, htail_nd⟩
  rw [show normalizeChoicesFromValue
      (some (.arr ((normalizeChoicesFromValue v).map TValue.str))) =
    NO_SELECTION :: (((normalizeChoicesFromValue v).map TValue.str).foldl
      choicesStep []).filter fun c => decide (c ≠ NO_SELECTION) from rfl]
  rw [hfold, hout]
  rw [List.filter_cons]
  rw [show (decide (NO_SELECTION ≠ NO_SELECTION)) = false by simp]
  simp only [Bool.false_eq_true, if_false]
  rw [List.filter_eq_self.mpr]
  intro c hc
  have := List.of_mem_filter hc
  exact this
lemma normItem_get_key (i : List (Str × TValue)) :
    ∃ s, tGet (normItem i) ("key".data) = some (.str s) ∧ rustTrim s = s := by
  refine ⟨itemKeyText (tGet i ("key".data)), ?_, ?_⟩
  · unfold normItem normItemChoices normItemTemplate normItemAllow normItemLabel
    rw [tGet_mapInsert_ne _ _ _ _ (by decide),
      tGet_mapInsert_ne _ _ _ _ (by decide),
      tGet_mapInsert_ne _ _ _ _ (by decide),
      tGet_mapInsert_ne _ _ _ _ (by decide)]
    exact tGet_mapInsert_self _ _ _
  · unfold itemKeyText
    rcases tGet i ("key".data) with _ | v
    · rfl
    · exact rustTrim_idem _

lemma normItem_get_label (i : List (Str × TValue)) :
    ∃ s, tGet (normItem i) ("label".data) = some (.str s) := by
  unfold normItem normItemChoices normItemTemplate normItemAllow normItemLabel
  rw [tGet_mapInsert_ne _ _ _ _ (by decide),
    tGet_mapInsert_ne _ _ _ _ (by decide),
    tGet_mapInsert_ne _ _ _ _ (by decide)]
  exact ⟨_, tGet_mapInsert_self _ _ _⟩

lemma normItem_get_allow (i : List (Str × TValue)) :
    ∃ b, tGet (normItem i) ("allow_free_text".data) = some (.bool b) := by
  unfold normItem normItemChoices normItemTemplate normItemAllow
  rw [tGet_mapInsert_ne _ _ _ _ (by decide),
    tGet_mapInsert_ne _ _ _ _ (by decide)]
  exact ⟨_, tGet_mapInsert_self _ _ _⟩

lemma normItem_get_template (i : List (Str × TValue)) :
    ∃ s, tGet (normItem i) ("template".data) = some (.str s) := by
  unfold normItem normItemChoices normItemTemplate
  rw [tGet_mapInsert_ne _ _ _ _ (by decide)]
  exact ⟨_, tGet_mapInsert_self _ _ _⟩

lemma normItem_get_choices (i : List (Str × TValue)) :
    ∃ w, tGet (normItem i) ("choices".data) =
      some (.arr ((normalizeChoicesFromValue w).map TValue.str)) := by
  unfold normItem normItemChoices
  exact ⟨_, tGet_mapInsert_self _ _ _⟩

lemma normItem_idem (i : List (Str × TValue)) :
    normItem (normItem i) = normItem i := by
  obtain ⟨ks, hk, hkt⟩ := normItem_get_key i
  obtain ⟨ls, hl⟩ := normItem_get_label i
  obtain ⟨ab, ha⟩ := normItem_get_allow i
  obtain ⟨ts, ht⟩ := normItem_get_template i
  obtain ⟨w, hc⟩ := normItem_get_choices i
  have e1 : normItemKey (normItem i) = normItem i := by
    unfold normItemKey
    rw [hk, show itemKeyText (some (TValue.str ks)) = rustTrim ks from rfl, hkt]
    exact mapInsert_noop _ _ _ hk
  have e2 : normItemLabel (normItem i) = normItem i := by
    unfold normItemLabel
    rw [hl]
    exact mapInsert_noop _ _ _ hl
  have e3 : normItemAllow (normItem i) = normItem i := by
    unfold normItemAllow
    rw [ha]
    exact mapInsert_noop _ _ _ ha
  have e4 : normItemTemplate (normItem i) = normItem i := by
    unfold normItemTemplate
    rw [ht]
    exact mapInsert_noop _ _ _ ht
  have e5 : normItemChoices (normItem i) = normItem i := by
    unfold normItemChoices
    rw [hc, normalizeChoicesFromValue_idem w]
    exact mapInsert_noop _ _ _ hc
  show normItemChoices (normItemTemplate (normItemAllow
    (normItemLabel (normItemKey (normItem i))))) = normItem i
  rw [e1, e2, e3, e4, e5]

lemma normItemValue_idem (v : TValue) :
    normItemValue (normItemValue v) = normItemValue v := by
  show TValue.table (normItem (tableOf (.table (normItem (tableOf v))))) = _
  rw [show tableOf (.table (normItem (tableOf v))) = normItem (tableOf v)
    from rfl, normItem_idem]
  rfl

lemma sectionNameOf_wf (s : List (Str × TValue)) :
    rustTrim (sectionNameOf s) = sectionNameOf s ∧
      (sectionNameOf s).isEmpty = false := by
  unfold sectionNameOf
  split
  · split
    · exact ⟨by decide, by decide⟩
    · rename_i he
      exact ⟨rustTrim_idem _, Bool.eq_false_iff.mpr he⟩
  · exact ⟨by decide, by decide⟩

lemma normSection_get_name (s : List (Str × TValue)) :
    ∃ nm, tGet (normSection s) ("name".data) = some (.str nm) ∧
      rustTrim nm = nm ∧ nm.isEmpty = false := by
  refine ⟨sectionNameOf s, ?_, (sectionNameOf_wf s).1, (sectionNameOf_wf s).2⟩
  unfold normSection normSecItems normSecLabel
  rw [tGet_mapInsert_ne _ _ _ _ (by decide),
    tGet_entryOr_ne _ _ _ _ (by decide),
    tGet_mapInsert_ne _ _ _ _ (by decide)]
  exact tGet_mapInsert_self _ _ _

lemma normSection_get_label (s : List (Str × TValue)) :
    ∃ l, tGet (normSection s) ("label".data) = some (.str l) := by
  unfold normSection normSecItems normSecLabel
  rw [tGet_mapInsert_ne _ _ _ _ (by decide),
    tGet_entryOr_ne _ _ _ _ (by decide)]
  exact ⟨_, tGet_mapInsert_self _ _ _⟩

lemma normSection_get_items (s : List (Str × TValue)) :
    ∃ its : List TValue, tGet (normSection s) ("items".data) =
      some (.arr (its.map normItemValue)) := by
  unfold normSection normSecItems
  exact ⟨_, tGet_mapInsert_self _ _ _⟩

lemma normSection_idem (s : List (Str × TValue)) :
    normSection (normSection s) = normSection s := by
  obtain ⟨nm, hn, hnt, hne⟩ := normSection_get_name s
  obtain ⟨l, hl⟩ := normSection_get_label s
  obtain ⟨its, hi⟩ := normSection_get_items s
  have e1 : normSecName (normSection s) = normSection s := by
    have hval : sectionNameOf (normSection s) = nm := by
      unfold sectionNameOf
      rw [hn]
      show (if (rustTrim nm).isEmpty = true then ("prompt".data)
        else rustTrim nm) = nm
      rw [hnt, if_neg (by rw [hne]; exact Bool.false_ne_true)]
    unfold normSecName
    rw [hval]
    exact mapInsert_noop _ _ _ hn
  have e2 : normSecLabel (normSection s) = normSection s := by
    unfold normSecLabel
    rw [hl]
    exact mapInsert_noop _ _ _ hl
  have e3 : normSecItems (normSection s) = normSection s := by
    have hent : entryOr (normSection s) ("items".data) (.arr []) =
        normSection s := entryOr_present _ _ _ _ hi
    have hmap : List.map normItemValue (List.map normItemValue its) =
        List.map normItemValue its := by
      rw [List.map_map]
      exact List.map_congr_left fun a _ => normItemValue_idem a
    unfold normSecItems
    rw [hent, hi]
    rw [show arrOf ((some (TValue.arr (its.map normItemValue))).getD
      (.arr [])) = its.map normItemValue from rfl]
    rw [hmap]
    exact mapInsert_noop _ _ _ hi
  show normSecItems (normSecLabel (normSecName (normSection s))) = normSection s
  rw [e1, e2, e3]

lemma normSectionValue_idem (v : TValue) :
    normSectionValue (normSectionValue v) = normSectionValue v := by
  show TValue.table (normSection (tableOf (.table (normSection (tableOf v))))) = _
  rw [show tableOf (.table (normSection (tableOf v))) = normSection (tableOf v)
    from rfl, normSection_idem]
  rfl
lemma reorderRoot_eq_of_all (root : List (Str × TValue)) (vA vS vT : TValue)
    (hA : tGet root ("app".data) = some vA)
    (hS : tGet root ("sections".data) = some vS)
    (hT : tGet root ("state".data) = some vT) :
    reorderRoot root = (("app".data), vA) :: (("sections".data), vS) ::
      (("state".data), vT) :: root.filter fun kv =>
        !(decide (kv.1 = ("app".data)) || decide (kv.1 = ("sections".data)) ||
          decide (kv.1 = ("state".data))) := by
  unfold reorderRoot
  simp [List.filterMap_cons, hA, hS, hT]

lemma reorderRoot_idem (root : List (Str × TValue)) (vA vS vT : TValue)
    (hA : tGet root ("app".data) = some vA)
    (hS : tGet root ("sections".data) = some vS)
    (hT : tGet root ("state".data) = some vT) :
    reorderRoot (reorderRoot root) = reorderRoot root := by
  rw [reorderRoot_eq_of_all root vA vS vT hA hS hT]
  have hA2 : tGet ((("app".data), vA) :: (("sections".data), vS) ::
      (("state".data), vT) :: root.filter fun kv =>
        !(decide (kv.1 = ("app".data)) || decide (kv.1 = ("sections".data)) ||
          decide (kv.1 = ("state".data)))) ("app".data) = some vA := by
    simp [tGet]
  have hS2 : tGet ((("app".data), vA) :: (("sections".data), vS) ::
      (("state".data), vT) :: root.filter fun kv =>
        !(decide (kv.1 = ("app".data)) || decide (kv.1 = ("sections".data)) ||
          decide (kv.1 = ("state".data)))) ("sections".data) = some vS := by
    simp [tGet]
  have hT2 : tGet ((("app".data), vA) :: (("sections".data), vS) ::
      (("state".data), vT) :: root.filter fun kv =>
        !(decide (kv.1 = ("app".data)) || decide (kv.1 = ("sections".data)) ||
          decide (kv.1 = ("state".data)))) ("state".data) = some vT := by
    simp [tGet]
  rw [reorderRoot_eq_of_all _ vA vS vT hA2 hS2 hT2]
  refine congrArg (List.cons _) (congrArg (List.cons _)
    (congrArg (List.cons _) ?_))
  rw [List.filter_cons, if_neg (by simp), List.filter_cons,
    if_neg (by simp), List.filter_cons, if_neg (by simp)]
  refine List.filter_eq_self.mpr fun a ha => ?_
  have h2 := List.of_mem_filter ha
  exact h2

lemma normalizeDoc_idem (d : TValue) :
    normalizeDoc (normalizeDoc d) = normalizeDoc d := by
  set root0 := tableOf d with hroot0
  set P := normRootApp root0 with hP
  set N := normRootSections P with hN
  set M := ensureTable N ("state".data) with hM
  have hPapp : tGet P ("app".data) = some (.table (normApp (tableOf
      ((tGet (ensureTable root0 ("app".data)) ("app".data)).getD
        (.table []))))) := by
    rw [hP]
    unfold normRootApp
    exact tGet_mapInsert_self _ _ _
  have hNapp : tGet N ("app".data) = some (.table (normApp (tableOf
      ((tGet (ensureTable root0 ("app".data)) ("app".data)).getD
        (.table []))))) := by
    rw [hN]
    unfold normRootSections
    rw [tGet_mapInsert_ne _ _ _ _ (by decide),
      tGet_ensureArr_ne _ _ _ (by decide)]
    exact hPapp
  have hMapp : tGet M ("app".data) = some (.table (normApp (tableOf
      ((tGet (ensureTable root0 ("app".data)) ("app".data)).getD
        (.table []))))) := by
    rw [hM, tGet_ensureTable_ne _ _ _ (by decide)]
    exact hNapp
  have hNsec : tGet N ("sections".data) = some (.arr ((arrOf
      ((tGet (ensureArr P ("sections".data)) ("sections".data)).getD
        (.arr []))).map normSectionValue)) := by
    rw [hN]
    unfold normRootSections
    exact tGet_mapInsert_self _ _ _
  have hMsec : tGet M ("sections".data) = some (.arr ((arrOf
      ((tGet (ensureArr P ("sections".data)) ("sections".data)).getD
        (.arr []))).map normSectionValue)) := by
    rw [hM, tGet_ensureTable_ne _ _ _ (by decide)]
    exact hNsec
  obtain ⟨t0, hMstate⟩ : ∃ t0, tGet M ("state".data) = some (.table t0) := by
    rw [hM]
    exact ensureTable_get N _
  have hRe := reorderRoot_eq_of_all M _ _ _ hMapp hMsec hMstate
  have hRapp : tGet (reorderRoot M) ("app".data) = some (.table (normApp
      (tableOf ((tGet (ensureTable root0 ("app".data))
        ("app".data)).getD (.table []))))) := by
    rw [hRe]
    simp [tGet]
  have hRsec : tGet (reorderRoot M) ("sections".data) = some (.arr ((arrOf
      ((tGet (ensureArr P ("sections".data)) ("sections".data)).getD
        (.arr []))).map normSectionValue)) := by
    rw [hRe]
    simp [tGet]
  have hRstate : tGet (reorderRoot M) ("state".data) = some (.table t0) := by
    rw [hRe]
    simp [tGet]
  have eApp : normRootApp (reorderRoot M) = reorderRoot M := by
    unfold normRootApp
    rw [ensureTable_noop _ _ _ hRapp, hRapp]
    rw [show tableOf ((some (TValue.table (normApp (tableOf
      ((tGet (ensureTable root0 ("app".data)) ("app".data)).getD
        (.table [])))))).getD (.table [])) = normApp (tableOf
      ((tGet (ensureTable root0 ("app".data)) ("app".data)).getD
        (.table []))) from rfl]
    rw [normApp_idem]
    exact mapInsert_noop _ _ _ hRapp
  have eSec : normRootSections (reorderRoot M) = reorderRoot M := by
    have hmap : ((arrOf ((tGet (ensureArr P ("sections".data))
        ("sections".data)).getD (.arr []))).map normSectionValue).map
          normSectionValue =
        (arrOf ((tGet (ensureArr P ("sections".data))
          ("sections".data)).getD (.arr []))).map normSectionValue := by
      rw [List.map_map]
      exact List.map_congr_left fun a _ => normSectionValue_idem a
    unfold normRootSections
    rw [ensureArr_noop _ _ _ hRsec, hRsec]
    rw [show arrOf ((some (TValue.arr ((arrOf ((tGet (ensureArr P
      ("sections".data)) ("sections".data)).getD (.arr []))).map
        normSectionValue))).getD (.arr [])) =
      (arrOf ((tGet (ensureArr P ("sections".data))
        ("sections".data)).getD (.arr []))).map normSectionValue from rfl]
    rw [hmap]
    exact mapInsert_noop _ _ _ hRsec
  have eState : ensureTable (reorderRoot M) ("state".data) = reorderRoot M :=
    ensureTable_noop _ _ _ hRstate
  have eReorder : reorderRoot (reorderRoot M) = reorderRoot M :=
    reorderRoot_idem M _ _ _ hMapp hMsec hMstate
  have hd1 : normalizeDoc d = .table (reorderRoot M) := rfl
  rw [hd1]
  show TValue.table (reorderRoot (ensureTable (normRootSections
    (normRootApp (tableOf (.table (reorderRoot M))))) ("state".data))) =
    TValue.table (reorderRoot M)
  rw [show tableOf (.table (reorderRoot M)) = reorderRoot M from rfl]
  rw [eApp, eSec, eState, eReorder]
/-- **C3.** Configuration loading is idempotent on the persisted bytes:
`ConfigStore::new` parses the file, normalizes the document
(`normalize_doc`), and persists `move_app_table_to_top` of the serialized
normalized document.  Given that the external TOML parser/serializer pair
round-trips the first save's bytes back to the document that was saved
(`hround`, the behaviour of the `toml` crate on its own output), a second
store constructed from the saved file re-saves bytes identical to the ones
the first load wrote, because `normalize_doc` is idempotent. -/
theorem c3_load_idempotent
    (par : Str → Option TValue) (ser : TValue → Str)
    (text : Str) (d1 d2 : TValue)
    (hpar1 : par text = some d1)
    (hpar2 : par (moveAppTableToTop (ser (normalizeDoc d1))) = some d2)
    (hround : d2 = normalizeDoc d1) :
    moveAppTableToTop (ser (normalizeDoc d2)) =
      moveAppTableToTop (ser (normalizeDoc d1)) := by
  rw [hround, normalizeDoc_idem]

theorem c3_load_witness :
    moveAppTableToTop ((fun _ : TValue => ['x'])
        (normalizeDoc (normalizeDoc (TValue.table [])))) =
      moveAppTableToTop ((fun _ : TValue => ['x'])
        (normalizeDoc (TValue.table []))) :=
  c3_load_idempotent (fun _ => some (normalizeDoc (TValue.table [])))
    (fun _ => ['x']) [] (normalizeDoc (TValue.table []))
    (normalizeDoc (TValue.table [])) rfl rfl (by rfl)
